import Mathlib

/-! # AnalizadorSintacticoLL: lexer, recursive-descent parser and evaluator

A shallow embedding of `src/script.js`.

* `lexer` (lines 10-71) scans the input text into tokens.
* `Parser` (lines 84-156) builds the tree: `factor`, `term`, `expr`, `assignment`, `parse`.
* `Evaluator.eval` (lines 159-192) walks the tree against `this.variables`.
* `analizar` (lines 194-207) chains the three on a fresh `Evaluator`.

What the embedding takes from the host language:

* Numbers. JavaScript numbers are IEEE-754 doubles. The embedding does not fix them: every
  definition takes an `Arith α` that supplies `parseFloat`, the four operators and the test
  `=== 0` on a carrier `α`, and the general theorems hold for every such supply. `ratArith` is
  the supply with exact rational arithmetic, used to evaluate concrete inputs.
* Objects. `this.variables` is created by `{}`, so it inherits from `Object.prototype`. The
  store is modelled by its own properties (`Variables`), the inherited names by
  `objectPrototypeNames`; `eval` and `Variables.assign` follow the operator `in` and the
  assignment `this.variables[name] = value` of JavaScript on such an object. A run that reads
  an inherited member leaves the numbers; it ends in `Outcome.nonNumber` and is followed no
  further.
* Text. A JavaScript string is a sequence of UTF-16 code units and `lexer` reads it one code
  unit at a time (`input[current]`). The input here is a list of `Char`, that is of code
  points. Up to U+FFFF a character is one code unit and the two readings are the same. A
  character beyond U+FFFF is two code units, a high and a low surrogate; the scan of the source
  stops at the high one, which passes none of the tests of the lexer, and the message carries
  that code unit alone. `offender` gives what the message carries in either case.

The `while` loops and the mutual recursion of the parser are bounded by a fuel argument; the
top-level functions pass a fuel computed from the length of their input, and
`lexer_ne_outOfFuel` and `parse_ne_outOfFuel` show that it is never used up.
-/

namespace AnalizadorLL

/-! ## Data model -/

/-- The `tipo` strings of `Token`: the eleven kinds `lexer` produces. -/
inductive Tipo where
  | NUMERO
  | IDENTIFICADOR
  | SUMA
  | RESTA
  | MULTIPLICACION
  | DIVISION
  | PAREN_ABRE
  | PAREN_CIERRA
  | IGUAL
  | PUNTO_Y_COMA
  | EOF
  deriving DecidableEq, Repr

/-- A `Token` as `lexer` builds it: `valor` is the parsed number of a `NUMERO`, the text of an
`IDENTIFICADOR`, the character itself for the eight one-character kinds and `null` for `EOF`. -/
inductive Token (α : Type) where
  | NUMERO (valor : α)
  | IDENTIFICADOR (valor : String)
  | SUMA
  | RESTA
  | MULTIPLICACION
  | DIVISION
  | PAREN_ABRE
  | PAREN_CIERRA
  | IGUAL
  | PUNTO_Y_COMA
  | EOF
  deriving DecidableEq, Repr

/-- The field `token.tipo`. -/
def Token.tipo {α : Type} : Token α → Tipo
  | .NUMERO _ => .NUMERO
  | .IDENTIFICADOR _ => .IDENTIFICADOR
  | .SUMA => .SUMA
  | .RESTA => .RESTA
  | .MULTIPLICACION => .MULTIPLICACION
  | .DIVISION => .DIVISION
  | .PAREN_ABRE => .PAREN_ABRE
  | .PAREN_CIERRA => .PAREN_CIERRA
  | .IGUAL => .IGUAL
  | .PUNTO_Y_COMA => .PUNTO_Y_COMA
  | .EOF => .EOF

/-- The code unit `input[current]` that the message of an unrecognized character shows. -/
inductive Offender where
  /-- A character up to U+FFFF, one code unit. -/
  | char (c : Char)
  /-- A lone surrogate, given by its number (55296 to 57343): no character by itself. -/
  | surrogate (unit : Nat)
  deriving DecidableEq, Repr

/-- The errors the program throws, named as in the specification, with the message of the
`throw` in the source. `typeError` is the `TypeError` the JavaScript runtime raises when
`this.currentToken.tipo` is read while `this.currentToken` is `undefined`. -/
inductive Error where
  /-- Message "Número mal formado." -/
  | malformedNumber
  /-- Message "Carácter no reconocido: " followed by `input[current]`. -/
  | unrecognizedCharacter (char : Offender)
  /-- Message "Error de sintaxis: se esperaba (expected), pero se encontró (found)". -/
  | unexpectedToken (expected found : Tipo)
  /-- Message "Error de sintaxis en factor." -/
  | expectedFactor
  /-- Message "Error de sintaxis: tokens adicionales encontrados." -/
  | trailingTokens
  /-- Message "Error: variable (name) no definida." -/
  | undefinedVariable (name : String)
  /-- Message "Error: División por cero." -/
  | divisionByZero
  /-- A property read on `undefined`. -/
  | typeError
  deriving DecidableEq, Repr

/-- The number operations of the host: `parseFloat` on the text of a numeric run, the operators
`+ - * /` on two numbers, and `isZero v` for `v === 0`. -/
structure Arith (α : Type) where
  parseFloat : String → α
  add : α → α → α
  sub : α → α → α
  mul : α → α → α
  div : α → α → α
  isZero : α → Bool

/-! ## Lexer -/

/-- The test `/\s/` on one character, by code point: the white space and line terminators of
ECMAScript. -/
def isSpace (c : Char) : Bool :=
  (9 ≤ c.toNat && c.toNat ≤ 13) || c.toNat == 32 || c.toNat == 160 || c.toNat == 5760
    || (8192 ≤ c.toNat && c.toNat ≤ 8202) || c.toNat == 8232 || c.toNat == 8233
    || c.toNat == 8239 || c.toNat == 8287 || c.toNat == 12288 || c.toNat == 65279

/-- The test `/\d/`: the code points of `0` to `9`. -/
def isDigit (c : Char) : Bool := 48 ≤ c.toNat && c.toNat ≤ 57

/-- The test `/[a-zA-Z_]/`: the code points of `A` to `Z`, of `a` to `z`, and of `_`. -/
def isIdentStart (c : Char) : Bool :=
  (65 ≤ c.toNat && c.toNat ≤ 90) || (97 ≤ c.toNat && c.toNat ≤ 122) || c.toNat == 95

/-- The test `/[a-zA-Z0-9_]/`. -/
def isIdentChar (c : Char) : Bool := isIdentStart c || isDigit c

/-- The test `/[\d\.]/`: a digit or the code point of `.`. -/
def isNumChar (c : Char) : Bool := isDigit c || c.toNat == 46

/-- The code unit `input[current]` at which the scan stands when it reads the character `c`:
`c` itself up to U+FFFF, and beyond it the high surrogate of the pair that encodes `c` in
UTF-16, `0xD800 + ((c - 0x10000) >> 10)`. -/
def offender (c : Char) : Offender :=
  if c.toNat < 65536 then .char c else .surrogate (55296 + (c.toNat - 65536) / 1024)

/-- The table `singleCharTokens`, looked up with one character; `none` when the character is no
key of it (no name the table inherits from `Object.prototype` is one character long). -/
def singleCharTokens {α : Type} (c : Char) : Option (Token α) :=
  if c = '+' then some .SUMA
  else if c = '-' then some .RESTA
  else if c = '*' then some .MULTIPLICACION
  else if c = '/' then some .DIVISION
  else if c = '(' then some .PAREN_ABRE
  else if c = ')' then some .PAREN_CIERRA
  else if c = '=' then some .IGUAL
  else if c = ';' then some .PUNTO_Y_COMA
  else none

/-- What `lexer` does: return the tokens, or throw. `outOfFuel` is the bound of the model. -/
inductive LexResult (α : Type) where
  | ok (tokens : List (Token α))
  | error (e : Error)
  | outOfFuel
  deriving DecidableEq, Repr

/-- The `while (current < input.length)` loop of `lexer`. `input` is the text from `current` on,
`tokens` the array built so far. Each round consumes at least one character. A character beyond
U+FFFF passes none of the tests, as its high surrogate passes none in the source, and the error
carries `offender char`, the code unit `input[current]` at which the source stops. -/
def lexerLoop {α : Type} (A : Arith α) : Nat → List Char → List (Token α) → LexResult α
  | 0, _, _ => .outOfFuel
  | _ + 1, [], tokens => .ok tokens
  | fuel + 1, char :: rest, tokens =>
    if isSpace char then
      lexerLoop A fuel rest tokens
    else if isIdentStart char then
      let varName := (char :: rest).takeWhile isIdentChar
      lexerLoop A fuel ((char :: rest).dropWhile isIdentChar)
        (tokens ++ [.IDENTIFICADOR (String.mk varName)])
    else if isDigit char then
      let numStr := (char :: rest).takeWhile isNumChar
      if numStr.count '.' + 1 > 2 then
        .error .malformedNumber
      else
        lexerLoop A fuel ((char :: rest).dropWhile isNumChar)
          (tokens ++ [.NUMERO (A.parseFloat (String.mk numStr))])
    else
      match singleCharTokens char with
      | some token => lexerLoop A fuel rest (tokens ++ [token])
      | none => .error (.unrecognizedCharacter (offender char))

/-- The loop with the fuel `lexer` gives it. -/
def scan {α : Type} (A : Arith α) (input : List Char) (tokens : List (Token α)) : LexResult α :=
  lexerLoop A (input.length + 1) input tokens

/-- The function `lexer`: the loop, then `tokens.push(new Token("EOF", null))`. -/
def lexer {α : Type} (A : Arith α) (input : String) : LexResult α :=
  match scan A input.data [] with
  | .ok tokens => .ok (tokens ++ [.EOF])
  | .error e => .error e
  | .outOfFuel => .outOfFuel

/-! ## Parser -/

/-- An `ASTNode` as `Parser` builds it. `NUMERO` and `VARIABLE` carry `valor` only, `ASIGNACION`
carries the name in `valor` and the expression in `izq`, and an operator node carries the `tipo`
of its operator token and the two operands (its `valor`, the operator character, is never read). -/
inductive ASTNode (α : Type) where
  | NUMERO (valor : α)
  | VARIABLE (valor : String)
  | ASIGNACION (valor : String) (izq : ASTNode α)
  | operador (tipo : Tipo) (izq der : ASTNode α)
  deriving DecidableEq, Repr

/-- What a method of `Parser` does when called with `this.pos = pos`: return a node and leave
`this.pos` at the given position, or throw and leave `this.pos` where the throw happened.
`outOfFuel` is the bound of the model. -/
inductive ParseResult (α : Type) where
  | ok (node : ASTNode α) (pos : Nat)
  | error (e : Error) (pos : Nat)
  | outOfFuel
  deriving DecidableEq, Repr

/-- The method `eat(tipo)` at `this.pos = pos`: the new position, or the error thrown.
`this.currentToken` is `tokens[pos]`, which is `undefined` beyond the end of the array. -/
def eat {α : Type} (tokens : List (Token α)) (pos : Nat) (tipo : Tipo) : Except Error Nat :=
  match tokens[pos]? with
  | none => .error .typeError
  | some token =>
    if token.tipo = tipo then .ok (pos + 1)
    else .error (.unexpectedToken tipo token.tipo)

mutual

/-- The method `factor()`. -/
def factor {α : Type} : Nat → List (Token α) → Nat → ParseResult α
  | 0, _, _ => .outOfFuel
  | fuel + 1, tokens, pos =>
    match tokens[pos]? with
    | none => .error .typeError pos
    | some (.NUMERO valor) =>
      match eat tokens pos .NUMERO with
      | .ok pos1 => .ok (.NUMERO valor) pos1
      | .error e => .error e pos
    | some (.IDENTIFICADOR valor) =>
      match eat tokens pos .IDENTIFICADOR with
      | .ok pos1 => .ok (.VARIABLE valor) pos1
      | .error e => .error e pos
    | some .PAREN_ABRE =>
      match eat tokens pos .PAREN_ABRE with
      | .ok pos1 =>
        match expr fuel tokens pos1 with
        | .ok result pos2 =>
          match eat tokens pos2 .PAREN_CIERRA with
          | .ok pos3 => .ok result pos3
          | .error e => .error e pos2
        | .error e pos2 => .error e pos2
        | .outOfFuel => .outOfFuel
      | .error e => .error e pos
    | some _ => .error .expectedFactor pos
termination_by structural fuel _ _ => fuel

/-- The `while` loop of `term()`, entered with the tree built so far in `node`. -/
def termLoop {α : Type} : Nat → List (Token α) → ASTNode α → Nat → ParseResult α
  | 0, _, _, _ => .outOfFuel
  | fuel + 1, tokens, node, pos =>
    match tokens[pos]? with
    | none => .error .typeError pos
    | some token =>
      if token.tipo = .MULTIPLICACION ∨ token.tipo = .DIVISION then
        match eat tokens pos token.tipo with
        | .ok pos1 =>
          match factor fuel tokens pos1 with
          | .ok der pos2 => termLoop fuel tokens (.operador token.tipo node der) pos2
          | .error e pos2 => .error e pos2
          | .outOfFuel => .outOfFuel
        | .error e => .error e pos
      else .ok node pos
termination_by structural fuel _ _ _ => fuel

/-- The method `term()`. -/
def term {α : Type} : Nat → List (Token α) → Nat → ParseResult α
  | 0, _, _ => .outOfFuel
  | fuel + 1, tokens, pos =>
    match factor fuel tokens pos with
    | .ok node pos1 => termLoop fuel tokens node pos1
    | .error e pos1 => .error e pos1
    | .outOfFuel => .outOfFuel
termination_by structural fuel _ _ => fuel

/-- The `while` loop of `expr()`, entered with the tree built so far in `node`. -/
def exprLoop {α : Type} : Nat → List (Token α) → ASTNode α → Nat → ParseResult α
  | 0, _, _, _ => .outOfFuel
  | fuel + 1, tokens, node, pos =>
    match tokens[pos]? with
    | none => .error .typeError pos
    | some token =>
      if token.tipo = .SUMA ∨ token.tipo = .RESTA then
        match eat tokens pos token.tipo with
        | .ok pos1 =>
          match term fuel tokens pos1 with
          | .ok der pos2 => exprLoop fuel tokens (.operador token.tipo node der) pos2
          | .error e pos2 => .error e pos2
          | .outOfFuel => .outOfFuel
        | .error e => .error e pos
      else .ok node pos
termination_by structural fuel _ _ _ => fuel

/-- The method `expr()`. -/
def expr {α : Type} : Nat → List (Token α) → Nat → ParseResult α
  | 0, _, _ => .outOfFuel
  | fuel + 1, tokens, pos =>
    match term fuel tokens pos with
    | .ok node pos1 => exprLoop fuel tokens node pos1
    | .error e pos1 => .error e pos1
    | .outOfFuel => .outOfFuel
termination_by structural fuel _ _ => fuel

end

/-- The fuel `parse` gives to `expr`: three calls per token and three to start. -/
def parseFuel {α : Type} (tokens : List (Token α)) : Nat := 3 * tokens.length + 3

/-- The method `assignment()`, called with `this.pos = 0`. -/
def assignment {α : Type} (tokens : List (Token α)) : ParseResult α :=
  match (tokens[0]? : Option (Token α)) with
  | none => .error .typeError 0
  | some (.IDENTIFICADOR varName) =>
    match eat tokens 0 .IDENTIFICADOR with
    | .ok pos1 =>
      match eat tokens pos1 .IGUAL with
      | .ok pos2 =>
        match expr (parseFuel tokens) tokens pos2 with
        | .ok exprNode pos3 =>
          match eat tokens pos3 .PUNTO_Y_COMA with
          | .ok pos4 => .ok (.ASIGNACION varName exprNode) pos4
          | .error e => .error e pos3
        | .error e pos3 => .error e pos3
        | .outOfFuel => .outOfFuel
      | .error e => .error e pos1
    | .error e => .error e 0
  | some _ => expr (parseFuel tokens) tokens 0

/-- The method `parse()` of `new Parser(tokens)`. -/
def parse {α : Type} (tokens : List (Token α)) : ParseResult α :=
  match assignment tokens with
  | .ok result pos =>
    match tokens[pos]? with
    | none => .error .typeError pos
    | some token =>
      if token.tipo ≠ .EOF then .error .trailingTokens pos
      else .ok result pos
  | .error e pos => .error e pos
  | .outOfFuel => .outOfFuel

/-! ## Evaluator -/

/-- The own properties of the object `this.variables`: `vars name` is the number stored under
`name`, `none` when the object has no own property of that name. -/
abbrev Variables (α : Type) := String → Option α

/-- The object `{}` of `new Evaluator()`: no own property. -/
def Variables.empty {α : Type} : Variables α := fun _ => none

/-- Own property `name` set to `value`, the others kept. -/
def Variables.set {α : Type} (vars : Variables α) (name : String) (value : α) : Variables α :=
  fun key => if key = name then some value else vars key

/-- The property names every object created by `{}` inherits from `Object.prototype`
(ECMAScript, with the legacy accessors of its annex B that browsers implement). For these names
`name in this.variables` is true although nothing was assigned. -/
def objectPrototypeNames : List String :=
  ["constructor", "__defineGetter__", "__defineSetter__", "hasOwnProperty", "__lookupGetter__",
   "__lookupSetter__", "isPrototypeOf", "propertyIsEnumerable", "toString", "valueOf",
   "__proto__", "toLocaleString"]

/-- The statement `this.variables[name] = value` for a number `value`. An own property is
written; an inherited data property is shadowed by a new own property; the inherited accessor
`__proto__` has a setter that ignores a value that is neither an object nor `null`, so that
assignment stores nothing. -/
def Variables.assign {α : Type} (vars : Variables α) (name : String) (value : α) :
    Variables α :=
  if name = "__proto__" ∧ (vars name).isNone then vars else vars.set name value

/-- The points where `eval` stops computing with numbers. -/
inductive NonNumber where
  /-- The name is no own property but `name in this.variables` holds through `Object.prototype`:
  `eval` returns that inherited member, a function or an object. -/
  | inherited (name : String)
  /-- No `case` of the `switch` matches `node.tipo`: the function ends without `return`, which
  yields `undefined`. -/
  | noCase (tipo : Tipo)
  deriving DecidableEq, Repr

/-- What a call of `eval` does. `returns` and `throws` carry `this.variables` as the call leaves
it. `nonNumber` marks the first point, in evaluation order, where a value that is not a number
appears; what JavaScript computes from such a value (string concatenation, `NaN`, a changed
prototype chain) is not modelled, so the outcome says nothing beyond that point. -/
inductive Outcome (α : Type) where
  | returns (value : α) (vars : Variables α)
  | throws (error : Error) (vars : Variables α)
  | nonNumber (point : NonNumber)
  | outOfFuel

/-- The method `eval(node)` on an `Evaluator` whose `this.variables` is `vars`. -/
def eval {α : Type} (A : Arith α) : ASTNode α → Variables α → Outcome α
  | .NUMERO valor, vars => .returns valor vars
  | .VARIABLE valor, vars =>
    match vars valor with
    | some value => .returns value vars
    | none =>
      if valor ∈ objectPrototypeNames then .nonNumber (.inherited valor)
      else .throws (.undefinedVariable valor) vars
  | .ASIGNACION valor izq, vars =>
    match eval A izq vars with
    | .returns value vars1 => .returns value (vars1.assign valor value)
    | other => other
  | .operador tipo izq der, vars =>
    match eval A izq vars with
    | .returns izqValue vars1 =>
      match eval A der vars1 with
      | .returns derValue vars2 =>
        match tipo with
        | .SUMA => .returns (A.add izqValue derValue) vars2
        | .RESTA => .returns (A.sub izqValue derValue) vars2
        | .MULTIPLICACION => .returns (A.mul izqValue derValue) vars2
        | .DIVISION =>
          if A.isZero derValue then .throws .divisionByZero vars2
          else .returns (A.div izqValue derValue) vars2
        | _ => .nonNumber (.noCase tipo)
      | other => other
    | other => other

/-- The body of the `try` in `analizar` on an `Evaluator` whose `this.variables` is `vars`:
`lexer`, `new Parser(tokens).parse()`, `eval`. An error thrown by the lexer or the parser leaves
the variables as they were. -/
def evaluateLine {α : Type} (A : Arith α) (input : String) (vars : Variables α) : Outcome α :=
  match lexer A input with
  | .ok tokens =>
    match parse tokens with
    | .ok ast _ => eval A ast vars
    | .error e _ => .throws e vars
    | .outOfFuel => .outOfFuel
  | .error e => .throws e vars
  | .outOfFuel => .outOfFuel

/-- The function `analizar` on the text of the input field: every call builds a fresh
`new Evaluator()`, so evaluation starts from no variables. -/
def analizar {α : Type} (A : Arith α) (input : String) : Outcome α :=
  evaluateLine A input Variables.empty

/-! ## Exact rational arithmetic -/

/-- The digits of a run read as a natural number in base ten. -/
def digitsValue (digits : List Char) : Nat :=
  digits.foldl (fun acc c => 10 * acc + (c.toNat - 48)) 0

/-- Modelled from the spec: `parseFloat` on a numeric run (digits with at most one `.`) as the
exact decimal value, for instance "3.14" is 3.14 and "5" is 5.0. The rounding to a double that
the host performs is left out, so this is the number of the host only where the decimal is
itself a double: it is for every natural number up to 2 ^ 53, it is not for 9007199254740993
or for 0.1. It serves to evaluate concrete inputs; the general theorems are stated for every
`Arith` and do not rest on it. -/
def decimalValue (text : String) : ℚ :=
  let whole := text.data.takeWhile Char.isDigit
  let fraction := ((text.data.dropWhile Char.isDigit).drop 1).takeWhile Char.isDigit
  (digitsValue whole : ℚ) + (digitsValue fraction : ℚ) / (10 : ℚ) ^ fraction.length

/-- Exact arithmetic on rationals: the operators without the rounding of doubles. It is one
supply of number operations among those the general theorems cover, used for concrete inputs. -/
def ratArith : Arith ℚ :=
  ⟨decimalValue, fun a b => a + b, fun a b => a - b, fun a b => a * b, fun a b => a / b,
   fun a => decide (a = 0)⟩

/-! ## Shapes of input text -/

/-- A numeric literal: starts with a digit, holds digits and `.` only, and at most one `.`. -/
def isNumericLiteral (text : String) : Bool :=
  match text.data with
  | [] => false
  | c :: rest => isDigit c && rest.all isNumChar && decide ((c :: rest).count '.' ≤ 1)

/-- An identifier, `[a-zA-Z_][a-zA-Z0-9_]*`. -/
def isIdentifier (text : String) : Bool :=
  match text.data with
  | [] => false
  | c :: rest => isIdentStart c && rest.all isIdentChar

/-! ## Notions used in the statements and proofs -/

/-- Sequencing of two scans: the second starts from the tokens of the first. -/
def LexResult.andThen {α : Type} (r : LexResult α) (k : List (Token α) → LexResult α) :
    LexResult α :=
  match r with
  | .ok tokens => k tokens
  | .error e => .error e
  | .outOfFuel => .outOfFuel

/-- A text that does not end inside a run: it is empty, or its last character ends every
run. -/
def endsAtBoundary (text : List Char) : Bool :=
  text.getLast?.all (fun c => !isIdentChar c && !isNumChar c)

/-- Whether the tree holds an `ASIGNACION` node anywhere. -/
def ASTNode.hasAsignacion {α : Type} : ASTNode α → Bool
  | .NUMERO _ => false
  | .VARIABLE _ => false
  | .ASIGNACION _ _ => true
  | .operador _ izq der => izq.hasAsignacion || der.hasAsignacion

/-- Whether the root of the tree is an `ASIGNACION` node. -/
def ASTNode.isAsignacion {α : Type} : ASTNode α → Bool
  | .ASIGNACION _ _ => true
  | _ => false

/-- The same input evaluated again and again on one `Evaluator`, each time on the variables the
evaluation before left: the outcome of evaluation number `n + 1`, or of the first one that did
not return. -/
def evaluateAgain {α : Type} (A : Arith α) (input : String) : Nat → Variables α → Outcome α
  | 0, vars => evaluateLine A input vars
  | n + 1, vars =>
    match evaluateLine A input vars with
    | .returns _ vars1 => evaluateAgain A input n vars1
    | other => other

/-- The position at which a method of the parser returned or threw. -/
def ParseResult.pos? {α : Type} : ParseResult α → Option Nat
  | .ok _ pos => some pos
  | .error _ pos => some pos
  | .outOfFuel => none

/-- The kinds of token with which a factor starts: the three `factor()` tests for. -/
def Tipo.startsFactor : Tipo → Bool
  | .NUMERO => true
  | .IDENTIFICADOR => true
  | .PAREN_ABRE => true
  | _ => false

/-- The kinds of token after which the grammar requires a factor: `=`, the four binary
operators and `(`. -/
def Tipo.opensOperand : Tipo → Bool
  | .IGUAL => true
  | .SUMA => true
  | .RESTA => true
  | .MULTIPLICACION => true
  | .DIVISION => true
  | .PAREN_ABRE => true
  | _ => false

/-- Position `p` comes right after a token that requires a factor: `=`, a binary operator or
`(`. -/
def RequiresFactor {α : Type} (tokens : List (Token α)) (p : Nat) : Prop :=
  ∃ s, 0 < p ∧ tokens[p - 1]? = some s ∧ s.tipo.opensOperand = true

/-- A result `r` of `factor`, `term` or `expr` called at `pos` that respects the rule: if the
call went as far as a position `p` where a factor is required (`p` is `pos` itself, or comes
right after `=`, an operator or `(`) and no factor starts there, the call threw the
expected-factor error at `p`. -/
def CallStops {α : Type} (tokens : List (Token α)) (pos : Nat) (r : ParseResult α) : Prop :=
  ∀ q p t, r.pos? = some q → pos ≤ p → p ≤ q → (p = pos ∨ RequiresFactor tokens p) →
    tokens[p]? = some t → t.tipo.startsFactor = false → r = .error .expectedFactor p

/-- The same for a result of one of the two loops entered at `pos`, where only positions after
`pos` count. -/
def LoopStops {α : Type} (tokens : List (Token α)) (pos : Nat) (r : ParseResult α) : Prop :=
  ∀ q p t, r.pos? = some q → pos < p → p ≤ q → RequiresFactor tokens p →
    tokens[p]? = some t → t.tipo.startsFactor = false → r = .error .expectedFactor p

/-- The tokens of `tokens2`, read `shift` places further on, are those of `tokens1` on the
positions from `lo` up to, not including, `hi`. -/
def AgreeOn {α : Type} (tokens1 tokens2 : List (Token α)) (shift lo hi : Nat) : Prop :=
  ∀ i, lo ≤ i → i < hi → tokens2[i + shift]? = tokens1[i]?

/-- There is a token at `pos` and it does not continue a term: it is neither `*` nor `/`. -/
def EndsTerm {α : Type} (tokens : List (Token α)) (pos : Nat) : Prop :=
  ∃ t, tokens[pos]? = some t ∧ ¬ (t.tipo = .MULTIPLICACION ∨ t.tipo = .DIVISION)

/-- There is a token at `pos` and it does not continue an expression: it is none of the four
binary operators. -/
def EndsExpr {α : Type} (tokens : List (Token α)) (pos : Nat) : Prop :=
  ∃ t, tokens[pos]? = some t ∧ ¬ (t.tipo = .MULTIPLICACION ∨ t.tipo = .DIVISION) ∧
    ¬ (t.tipo = .SUMA ∨ t.tipo = .RESTA)

/-- The four kinds of binary operator. -/
def Tipo.isBinaryOperator : Tipo → Bool
  | .SUMA => true
  | .RESTA => true
  | .MULTIPLICACION => true
  | .DIVISION => true
  | _ => false

/-- The rule `expr` parses the token sequence completely: run on the sequence followed by
`EOF`, it returns the tree and stops at the `EOF`. -/
def ExprParsesAll {α : Type} (tokensE : List (Token α)) (e : ASTNode α) : Prop :=
  ∃ n, expr n (tokensE ++ [.EOF]) 0 = .ok e tokensE.length

/-- A non-empty text made only of the characters `0` to `9` and `.`. -/
def isNumericRun (text : String) : Bool :=
  !text.data.isEmpty && text.data.all isNumChar

/-- With enough fuel `factor`, called at `pos`, returns `node` and stops at `q`. -/
def FactorParses {α : Type} (tokens : List (Token α)) (pos : Nat) (node : ASTNode α)
    (q : Nat) : Prop :=
  ∃ n, factor n tokens pos = .ok node q

/-- With enough fuel the loop of `term`, entered at `pos` with `node0`, returns `node` and
stops at `q`. -/
def TermLoopParses {α : Type} (tokens : List (Token α)) (node0 : ASTNode α) (pos : Nat)
    (node : ASTNode α) (q : Nat) : Prop :=
  ∃ n, termLoop n tokens node0 pos = .ok node q

/-- With enough fuel `term`, called at `pos`, returns `node` and stops at `q`. -/
def TermParses {α : Type} (tokens : List (Token α)) (pos : Nat) (node : ASTNode α)
    (q : Nat) : Prop :=
  ∃ n, term n tokens pos = .ok node q

/-- With enough fuel the loop of `expr`, entered at `pos` with `node0`, returns `node` and
stops at `q`. -/
def ExprLoopParses {α : Type} (tokens : List (Token α)) (node0 : ASTNode α) (pos : Nat)
    (node : ASTNode α) (q : Nat) : Prop :=
  ∃ n, exprLoop n tokens node0 pos = .ok node q

/-- With enough fuel `expr`, called at `pos`, returns `node` and stops at `q`. -/
def ExprParses {α : Type} (tokens : List (Token α)) (pos : Nat) (node : ASTNode α)
    (q : Nat) : Prop :=
  ∃ n, expr n tokens pos = .ok node q

/-- The token list holds the segment `seg` from position `pos` on. -/
def HasAt {α : Type} (tokens : List (Token α)) (pos : Nat) (seg : List (Token α)) : Prop :=
  ∀ i, i < seg.length → tokens[pos + i]? = seg[i]?

/-- The tokens `op1, f1, ..., opn, fn` of a chain of operators and numbers. -/
def chainTokens {α : Type} : List (Token α × α) → List (Token α)
  | [] => []
  | (op, valor) :: rest => op :: .NUMERO valor :: chainTokens rest

/-- The left-nested tree over `node` and the chain: each operator takes the tree built so far
as its left operand and the next number as its right operand. -/
def leftNested {α : Type} (node : ASTNode α) : List (Token α × α) → ASTNode α
  | [] => node
  | (op, valor) :: rest => leftNested (.operador op.tipo node (.NUMERO valor)) rest

/-- The token of a binary operator; `print` uses it on the four operators only. -/
def operatorToken {α : Type} : Tipo → Token α
  | .SUMA => .SUMA
  | .RESTA => .RESTA
  | .MULTIPLICACION => .MULTIPLICACION
  | _ => .DIVISION

/-- Modelled from the spec: precedence of a binary operator, 1 for `+` and `-`, 2 for `*`
and `/`. -/
def precedence : Tipo → Nat
  | .SUMA => 1
  | .RESTA => 1
  | .MULTIPLICACION => 2
  | .DIVISION => 2
  | _ => 0

/-- The tokens, between `(` and `)` when `wrapped` holds. -/
def wrapIf {α : Type} (wrapped : Bool) (tokens : List (Token α)) : List (Token α) :=
  if wrapped then .PAREN_ABRE :: (tokens ++ [.PAREN_CIERRA]) else tokens

/-- A left operand is put between parentheses iff it is a binary node of lower precedence
than the operator. -/
def needsParenLeft {α : Type} (op : Tipo) : ASTNode α → Bool
  | .operador tipo _ _ => decide (precedence tipo < precedence op)
  | _ => false

/-- A right operand is put between parentheses iff it is a binary node of precedence lower
than or equal to that of the operator. -/
def needsParenRight {α : Type} (op : Tipo) : ASTNode α → Bool
  | .operador tipo _ _ => decide (precedence tipo ≤ precedence op)
  | _ => false

/-- Modelled from the spec: the source has no printer, this one follows the words of the
round-trip property. A leaf prints to its token; a binary node to its left operand, its
operator and its right operand, each operand between parentheses when `needsParenLeft` or
`needsParenRight` says so. An assignment node is no expression tree and prints to nothing. -/
def print {α : Type} : ASTNode α → List (Token α)
  | .NUMERO valor => [.NUMERO valor]
  | .VARIABLE valor => [.IDENTIFICADOR valor]
  | .ASIGNACION _ _ => []
  | .operador tipo izq der =>
    wrapIf (needsParenLeft tipo izq) (print izq)
      ++ operatorToken tipo :: wrapIf (needsParenRight tipo der) (print der)

/-- An expression tree: numbers, variables and binary nodes over one of the four operators. -/
def isExpressionTree {α : Type} : ASTNode α → Bool
  | .NUMERO _ => true
  | .VARIABLE _ => true
  | .ASIGNACION _ _ => false
  | .operador tipo izq der =>
    tipo.isBinaryOperator && isExpressionTree izq && isExpressionTree der

/-- The grammar level of a tree: the precedence of its operator, 3 for a leaf. -/
def ASTNode.level {α : Type} : ASTNode α → Nat
  | .operador tipo _ _ => precedence tipo
  | _ => 3

/-- Where the tokens of `tree` stand, `term` reads them as `tree` and goes on with whatever its
loop does after them. -/
def TermContinues {α : Type} (tokens : List (Token α)) (tree : ASTNode α) : Prop :=
  ∀ pos, HasAt tokens pos (print tree) → ∀ res q,
    TermLoopParses tokens tree (pos + (print tree).length) res q → TermParses tokens pos res q

/-- Where the tokens of `tree` stand, followed by a token other than `*` and `/`, `expr` reads
them as `tree` and goes on with whatever its loop does after them. -/
def ExprContinues {α : Type} (tokens : List (Token α)) (tree : ASTNode α) : Prop :=
  ∀ pos, HasAt tokens pos (print tree) → ∀ nt,
    tokens[pos + (print tree).length]? = some nt →
    ¬ (nt.tipo = .MULTIPLICACION ∨ nt.tipo = .DIVISION) → ∀ res q,
    ExprLoopParses tokens tree (pos + (print tree).length) res q → ExprParses tokens pos res q

/-- Every position up to `bound` holds a token, and the position after a token other than
`EOF` is still within `bound`. -/
def InBounds {α : Type} (tokens : List (Token α)) (bound : Nat) : Prop :=
  ∀ pos, pos ≤ bound → ∃ t, tokens[pos]? = some t ∧ (t.tipo ≠ .EOF → pos + 1 ≤ bound)

/-- A result of `factor`, `term` or `expr` that stays within `bound`, carries an expression
tree, and is no read of an undefined token. -/
def ParseResult.Safe {α : Type} (bound : Nat) : ParseResult α → Prop
  | .ok node pos => pos ≤ bound ∧ isExpressionTree node = true
  | .error e _ => e ≠ .typeError
  | .outOfFuel => True

/-- A well-formed statement tree: an expression tree, or an assignment at the root whose value
is an expression tree. -/
def ASTNode.wellFormed {α : Type} : ASTNode α → Bool
  | .ASIGNACION _ izq => isExpressionTree izq
  | node => isExpressionTree node

/-- The seven errors that the program throws itself. -/
def Error.listed : Error → Bool
  | .typeError => false
  | _ => true

/-- The outcome is a number or one of the seven errors. -/
def Outcome.NumberOrListedError {α : Type} : Outcome α → Prop
  | .returns _ _ => True
  | .throws e _ => e.listed = true
  | _ => False

/-- The outcome is a number, one of the seven errors, or the member of `Object.prototype`
found under a name that was never assigned. -/
def Outcome.NumberErrorOrInherited {α : Type} : Outcome α → Prop
  | .returns _ _ => True
  | .throws e _ => e.listed = true
  | .nonNumber (.inherited name) => name ∈ objectPrototypeNames
  | _ => False

/-! # Theorems -/

/-! ## Facts about characters and lists -/

theorem isDigit_not_space {c : Char} (h : isDigit c = true) : isSpace c = false := by
  simp only [isDigit, isSpace, Bool.and_eq_true, decide_eq_true_eq, Bool.or_eq_false_iff,
    Bool.and_eq_false_imp, beq_eq_false_iff_ne, ne_eq, decide_eq_false_iff_not] at *
  omega

theorem isDigit_not_identStart {c : Char} (h : isDigit c = true) : isIdentStart c = false := by
  simp only [isDigit, isIdentStart, Bool.and_eq_true, decide_eq_true_eq, Bool.or_eq_false_iff,
    Bool.and_eq_false_imp, beq_eq_false_iff_ne, ne_eq, decide_eq_false_iff_not] at *
  omega

theorem isIdentStart_not_space {c : Char} (h : isIdentStart c = true) : isSpace c = false := by
  simp only [isIdentStart, isSpace, Bool.and_eq_true, decide_eq_true_eq, Bool.or_eq_false_iff,
    Bool.and_eq_false_imp, beq_eq_false_iff_ne, ne_eq, decide_eq_false_iff_not, Bool.or_eq_true,
    beq_iff_eq] at *
  omega

theorem isIdentStart_isIdentChar {c : Char} (h : isIdentStart c = true) :
    isIdentChar c = true := by
  simp [isIdentChar, h]

theorem isDigit_isNumChar {c : Char} (h : isDigit c = true) : isNumChar c = true := by
  simp [isNumChar, h]

theorem length_dropWhile_le_self (p : Char → Bool) (l : List Char) :
    (l.dropWhile p).length ≤ l.length := by
  induction l with
  | nil => simp
  | cons c rest ih =>
    simp only [List.dropWhile_cons]
    split
    · simp only [List.length_cons]; omega
    · exact Nat.le_refl _

theorem length_dropWhile_cons_lt (p : Char → Bool) (c : Char) (rest : List Char)
    (h : p c = true) : ((c :: rest).dropWhile p).length < rest.length + 1 := by
  have := length_dropWhile_le_self p rest
  simp only [List.dropWhile_cons, h, if_true]
  omega

theorem takeWhile_append_sep (p : Char → Bool) (l : List Char) (c : Char) (rest : List Char)
    (hc : p c = false) : (l ++ c :: rest).takeWhile p = l.takeWhile p := by
  induction l with
  | nil => simp [List.takeWhile_cons, hc]
  | cons d l ih =>
    simp only [List.cons_append, List.takeWhile_cons]
    split
    · rw [ih]
    · rfl

theorem dropWhile_append_sep (p : Char → Bool) (l : List Char) (c : Char) (rest : List Char)
    (hc : p c = false) : (l ++ c :: rest).dropWhile p = l.dropWhile p ++ c :: rest := by
  induction l with
  | nil => simp [List.dropWhile_cons, hc]
  | cons d l ih =>
    simp only [List.cons_append, List.dropWhile_cons]
    split
    · rw [ih]
    · rfl

theorem takeWhile_eq_self (p : Char → Bool) (l : List Char) (h : l.all p = true) :
    l.takeWhile p = l := by
  induction l with
  | nil => rfl
  | cons d l ih =>
    simp only [List.all_cons, Bool.and_eq_true] at h
    simp [List.takeWhile_cons, h.1, ih h.2]

theorem dropWhile_eq_nil (p : Char → Bool) (l : List Char) (h : l.all p = true) :
    l.dropWhile p = [] := by
  induction l with
  | nil => rfl
  | cons d l ih =>
    simp only [List.all_cons, Bool.and_eq_true] at h
    simp [List.dropWhile_cons, h.1, ih h.2]

theorem lt_length_of_getElem? {α : Type} {tokens : List (Token α)} {pos : Nat} {token : Token α}
    (h : tokens[pos]? = some token) : pos < tokens.length := by
  by_contra hge
  rw [List.getElem?_eq_none (by omega)] at h
  cases h

/-! ## Facts about the lexer -/

/-- The result of the loop does not depend on the fuel once the fuel exceeds the text left. -/
theorem lexerLoop_fuel {α : Type} (A : Arith α) :
    ∀ (n m : Nat) (input : List Char) (acc : List (Token α)),
      input.length < n → input.length < m → lexerLoop A n input acc = lexerLoop A m input acc := by
  intro n
  induction n with
  | zero => intro m input acc h; omega
  | succ n ih =>
    intro m input acc hn hm
    cases m with
    | zero => omega
    | succ m =>
      cases input with
      | nil => simp [lexerLoop]
      | cons c rest =>
        simp only [List.length_cons] at hn hm
        simp only [lexerLoop]
        by_cases hs : isSpace c = true
        · simp only [hs, if_true]
          exact ih m rest acc (by omega) (by omega)
        · simp only [hs, Bool.false_eq_true, if_false]
          by_cases hi : isIdentStart c = true
          · simp only [hi, if_true]
            have hl := length_dropWhile_cons_lt isIdentChar c rest (isIdentStart_isIdentChar hi)
            exact ih m _ _ (by omega) (by omega)
          · simp only [hi, Bool.false_eq_true, if_false]
            by_cases hd : isDigit c = true
            · simp only [hd, if_true]
              have hl := length_dropWhile_cons_lt isNumChar c rest (isDigit_isNumChar hd)
              by_cases hc : ((c :: rest).takeWhile isNumChar).count '.' + 1 > 2
              · rw [if_pos hc, if_pos hc]
              · rw [if_neg hc, if_neg hc]
                exact ih m _ _ (by omega) (by omega)
            · simp only [hd, Bool.false_eq_true, if_false]
              cases singleCharTokens (α := α) c with
              | none => rfl
              | some t => exact ih m rest _ (by omega) (by omega)

/-- The loop with enough fuel is `scan`. -/
theorem lexerLoop_eq_scan {α : Type} (A : Arith α) (n : Nat) (input : List Char)
    (acc : List (Token α)) (h : input.length < n) : lexerLoop A n input acc = scan A input acc :=
  lexerLoop_fuel A n (input.length + 1) input acc h (Nat.lt_succ_self _)

theorem scan_nil {α : Type} (A : Arith α) (acc : List (Token α)) : scan A [] acc = .ok acc := by
  simp [scan, lexerLoop]

/-- One round of the loop, free of fuel. -/
theorem scan_cons {α : Type} (A : Arith α) (c : Char) (rest : List Char) (acc : List (Token α)) :
    scan A (c :: rest) acc =
      if isSpace c then scan A rest acc
      else if isIdentStart c then
        scan A ((c :: rest).dropWhile isIdentChar)
          (acc ++ [.IDENTIFICADOR (String.mk ((c :: rest).takeWhile isIdentChar))])
      else if isDigit c then
        if ((c :: rest).takeWhile isNumChar).count '.' + 1 > 2 then .error .malformedNumber
        else scan A ((c :: rest).dropWhile isNumChar)
          (acc ++ [.NUMERO (A.parseFloat (String.mk ((c :: rest).takeWhile isNumChar)))])
      else
        match singleCharTokens c with
        | some token => scan A rest (acc ++ [token])
        | none => .error (.unrecognizedCharacter (offender c)) := by
  have hfuel : scan A (c :: rest) acc = lexerLoop A (rest.length + 1 + 1) (c :: rest) acc := rfl
  rw [hfuel]
  simp only [lexerLoop]
  by_cases hs : isSpace c = true
  · simp only [hs, if_true]; rfl
  · simp only [hs, Bool.false_eq_true, if_false]
    by_cases hi : isIdentStart c = true
    · simp only [hi, if_true]
      exact lexerLoop_eq_scan A _ _ _
        (length_dropWhile_cons_lt isIdentChar c rest (isIdentStart_isIdentChar hi))
    · simp only [hi, Bool.false_eq_true, if_false]
      by_cases hd : isDigit c = true
      · simp only [hd, if_true]
        by_cases hc : ((c :: rest).takeWhile isNumChar).count '.' + 1 > 2
        · rw [if_pos hc, if_pos hc]
        · rw [if_neg hc, if_neg hc]
          exact lexerLoop_eq_scan A _ _ _
            (length_dropWhile_cons_lt isNumChar c rest (isDigit_isNumChar hd))
      · simp only [hd, Bool.false_eq_true, if_false]
        cases singleCharTokens (α := α) c with
        | none => rfl
        | some t => rfl

/-- The loop never runs out of the fuel `lexer` gives it. -/
theorem scan_ne_outOfFuel {α : Type} (A : Arith α) :
    ∀ (k : Nat) (input : List Char) (acc : List (Token α)), input.length ≤ k →
      scan A input acc ≠ .outOfFuel := by
  intro k
  induction k with
  | zero =>
    intro input acc h
    have : input = [] := List.length_eq_zero.mp (by omega)
    subst this
    simp [scan_nil]
  | succ k ih =>
    intro input acc h
    cases input with
    | nil => simp [scan_nil]
    | cons c rest =>
      simp only [List.length_cons] at h
      rw [scan_cons]
      by_cases hs : isSpace c = true
      · simp only [hs, if_true]; exact ih _ _ (by omega)
      · simp only [hs, Bool.false_eq_true, if_false]
        by_cases hi : isIdentStart c = true
        · simp only [hi, if_true]
          have hl := length_dropWhile_cons_lt isIdentChar c rest (isIdentStart_isIdentChar hi)
          exact ih _ _ (by omega)
        · simp only [hi, Bool.false_eq_true, if_false]
          by_cases hd : isDigit c = true
          · simp only [hd, if_true]
            have hl := length_dropWhile_cons_lt isNumChar c rest (isDigit_isNumChar hd)
            by_cases hc : ((c :: rest).takeWhile isNumChar).count '.' + 1 > 2
            · rw [if_pos hc]; simp
            · rw [if_neg hc]
              exact ih _ _ (by omega)
          · simp only [hd, Bool.false_eq_true, if_false]
            cases singleCharTokens (α := α) c with
            | none => simp
            | some t => exact ih _ _ (by omega)

theorem lexer_ne_outOfFuel {α : Type} (A : Arith α) (input : String) :
    lexer A input ≠ .outOfFuel := by
  unfold lexer
  have := scan_ne_outOfFuel A input.data.length input.data [] (Nat.le_refl _)
  cases h : scan A input.data [] <;> simp_all

/-- A character that ends every run: the scan of a text followed by it is the scan of the text,
then the scan from that character on. -/
theorem scan_append_sep {α : Type} (A : Arith α) (c : Char) (rest : List Char)
    (hi : isIdentChar c = false) (hn : isNumChar c = false) :
    ∀ (k : Nat) (pre : List Char) (acc : List (Token α)), pre.length ≤ k →
      scan A (pre ++ c :: rest) acc = (scan A pre acc).andThen (scan A (c :: rest)) := by
  intro k
  induction k with
  | zero =>
    intro pre acc h
    have : pre = [] := List.length_eq_zero.mp (by omega)
    subst this
    simp [scan_nil, LexResult.andThen]
  | succ k ih =>
    intro pre acc h
    cases pre with
    | nil => simp [scan_nil, LexResult.andThen]
    | cons d pre =>
      simp only [List.length_cons] at h
      rw [List.cons_append, scan_cons, scan_cons A d pre]
      by_cases hs : isSpace d = true
      · simp only [hs, if_true]; exact ih _ _ (by omega)
      · simp only [hs, Bool.false_eq_true, if_false]
        by_cases hid : isIdentStart d = true
        · simp only [hid, if_true]
          have hl := length_dropWhile_cons_lt isIdentChar d pre (isIdentStart_isIdentChar hid)
          rw [← List.cons_append, takeWhile_append_sep _ _ _ _ hi, dropWhile_append_sep _ _ _ _ hi]
          exact ih _ _ (by omega)
        · simp only [hid, Bool.false_eq_true, if_false]
          by_cases hd : isDigit d = true
          · simp only [hd, if_true]
            have hl := length_dropWhile_cons_lt isNumChar d pre (isDigit_isNumChar hd)
            rw [← List.cons_append, takeWhile_append_sep _ _ _ _ hn,
              dropWhile_append_sep _ _ _ _ hn]
            by_cases hc : ((d :: pre).takeWhile isNumChar).count '.' + 1 > 2
            · rw [if_pos hc, if_pos hc]; rfl
            · rw [if_neg hc, if_neg hc]
              exact ih _ _ (by omega)
          · simp only [hd, Bool.false_eq_true, if_false]
            cases singleCharTokens (α := α) d with
            | none => rfl
            | some t => exact ih _ _ (by omega)

/-- An identifier followed by a character that cannot continue it is scanned to one token. -/
theorem scan_identifier {α : Type} (A : Arith α) (name : String) (c : Char) (rest : List Char)
    (acc : List (Token α)) (hname : isIdentifier name = true) (hc : isIdentChar c = false) :
    scan A (name.data ++ c :: rest) acc = scan A (c :: rest) (acc ++ [.IDENTIFICADOR name]) := by
  unfold isIdentifier at hname
  cases hdata : name.data with
  | nil => simp [hdata] at hname
  | cons d ds =>
    simp only [hdata, Bool.and_eq_true] at hname
    have hall : (d :: ds).all isIdentChar = true := by
      simp only [List.all_cons, Bool.and_eq_true]
      exact ⟨isIdentStart_isIdentChar hname.1, hname.2⟩
    rw [List.cons_append, scan_cons]
    simp only [isIdentStart_not_space hname.1, hname.1, Bool.false_eq_true, if_false, if_true]
    rw [← List.cons_append, takeWhile_append_sep _ _ _ _ hc, dropWhile_append_sep _ _ _ _ hc,
      takeWhile_eq_self _ _ hall, dropWhile_eq_nil _ _ hall, ← hdata]
    rfl

/-- An identifier at the end of the text is scanned to one token. -/
theorem scan_identifier_end {α : Type} (A : Arith α) (name : String)
    (acc : List (Token α)) (hname : isIdentifier name = true) :
    scan A name.data acc = .ok (acc ++ [.IDENTIFICADOR name]) := by
  unfold isIdentifier at hname
  cases hdata : name.data with
  | nil => simp [hdata] at hname
  | cons d ds =>
    simp only [hdata, Bool.and_eq_true] at hname
    have hall : (d :: ds).all isIdentChar = true := by
      simp only [List.all_cons, Bool.and_eq_true]
      exact ⟨isIdentStart_isIdentChar hname.1, hname.2⟩
    rw [scan_cons]
    simp only [isIdentStart_not_space hname.1, hname.1, Bool.false_eq_true, if_false, if_true]
    rw [takeWhile_eq_self _ _ hall, dropWhile_eq_nil _ _ hall, scan_nil, ← hdata]

/-- A numeric literal followed by a character that cannot continue it is scanned to one
`NUMERO` token holding `parseFloat` of its text. -/
theorem scan_number {α : Type} (A : Arith α) (text : String) (c : Char) (rest : List Char)
    (acc : List (Token α)) (htext : isNumericLiteral text = true) (hc : isNumChar c = false) :
    scan A (text.data ++ c :: rest) acc =
      scan A (c :: rest) (acc ++ [.NUMERO (A.parseFloat text)]) := by
  unfold isNumericLiteral at htext
  cases hdata : text.data with
  | nil => simp [hdata] at htext
  | cons d ds =>
    simp only [hdata, Bool.and_eq_true, decide_eq_true_eq] at htext
    obtain ⟨⟨hd, hds⟩, hcount⟩ := htext
    have hall : (d :: ds).all isNumChar = true := by
      simp only [List.all_cons, Bool.and_eq_true]
      exact ⟨isDigit_isNumChar hd, hds⟩
    rw [List.cons_append, scan_cons]
    simp only [isDigit_not_space hd, isDigit_not_identStart hd, hd, Bool.false_eq_true, if_false,
      if_true]
    rw [← List.cons_append, takeWhile_append_sep _ _ _ _ hc, dropWhile_append_sep _ _ _ _ hc,
      takeWhile_eq_self _ _ hall, dropWhile_eq_nil _ _ hall, ← hdata]
    rw [if_neg (by rw [hdata]; omega)]
    rfl

/-- A numeric literal at the end of the text is scanned to one `NUMERO` token. -/
theorem scan_number_end {α : Type} (A : Arith α) (text : String)
    (acc : List (Token α)) (htext : isNumericLiteral text = true) :
    scan A text.data acc = .ok (acc ++ [.NUMERO (A.parseFloat text)]) := by
  unfold isNumericLiteral at htext
  cases hdata : text.data with
  | nil => simp [hdata] at htext
  | cons d ds =>
    simp only [hdata, Bool.and_eq_true, decide_eq_true_eq] at htext
    obtain ⟨⟨hd, hds⟩, hcount⟩ := htext
    have hall : (d :: ds).all isNumChar = true := by
      simp only [List.all_cons, Bool.and_eq_true]
      exact ⟨isDigit_isNumChar hd, hds⟩
    rw [scan_cons]
    simp only [isDigit_not_space hd, isDigit_not_identStart hd, hd, Bool.false_eq_true, if_false,
      if_true]
    rw [takeWhile_eq_self _ _ hall, dropWhile_eq_nil _ _ hall, ← hdata]
    rw [if_neg (by rw [hdata]; omega), scan_nil]

theorem scan_space {α : Type} (A : Arith α) (rest : List Char) (acc : List (Token α)) :
    scan A (' ' :: rest) acc = scan A rest acc := by
  rw [scan_cons, if_pos (by decide)]

/-- A character of the table `singleCharTokens` is scanned to its token. -/
theorem scan_single {α : Type} (A : Arith α) (c : Char) (token : Token α) (rest : List Char)
    (acc : List (Token α)) (h1 : isSpace c = false) (h2 : isIdentStart c = false)
    (h3 : isDigit c = false) (h4 : singleCharTokens c = some token) :
    scan A (c :: rest) acc = scan A rest (acc ++ [token]) := by
  rw [scan_cons]
  simp only [h1, h2, h3, h4, Bool.false_eq_true, if_false]

/-- The text `N1 op N2` is scanned to number, operator, number. -/
theorem lexer_binary {α : Type} (A : Arith α) (n1 n2 : String) (c : Char) (token : Token α)
    (hn1 : isNumericLiteral n1 = true) (hn2 : isNumericLiteral n2 = true)
    (h1 : isSpace c = false) (h2 : isIdentStart c = false)
    (h3 : isDigit c = false) (h4 : singleCharTokens c = some token) :
    lexer A (n1 ++ String.mk [' ', c, ' '] ++ n2) =
      .ok [.NUMERO (A.parseFloat n1), token, .NUMERO (A.parseFloat n2), .EOF] := by
  unfold lexer
  simp only [String.data_append, List.append_assoc, List.cons_append, List.nil_append]
  rw [scan_number A n1 ' ' _ _ hn1 (by decide), scan_space, scan_single A c token _ _ h1 h2 h3 h4,
    scan_space, scan_number_end A n2 _ hn2]
  rfl

theorem scan_SUMA {α : Type} (A : Arith α) (rest : List Char) (acc : List (Token α)) :
    scan A ('+' :: rest) acc = scan A rest (acc ++ [.SUMA]) :=
  scan_single A '+' .SUMA rest acc (by decide) (by decide) (by decide) rfl

theorem scan_RESTA {α : Type} (A : Arith α) (rest : List Char) (acc : List (Token α)) :
    scan A ('-' :: rest) acc = scan A rest (acc ++ [.RESTA]) :=
  scan_single A '-' .RESTA rest acc (by decide) (by decide) (by decide) rfl

theorem scan_MULTIPLICACION {α : Type} (A : Arith α) (rest : List Char)
    (acc : List (Token α)) : scan A ('*' :: rest) acc = scan A rest (acc ++ [.MULTIPLICACION]) :=
  scan_single A '*' .MULTIPLICACION rest acc (by decide) (by decide) (by decide) rfl

theorem scan_DIVISION {α : Type} (A : Arith α) (rest : List Char) (acc : List (Token α)) :
    scan A ('/' :: rest) acc = scan A rest (acc ++ [.DIVISION]) :=
  scan_single A '/' .DIVISION rest acc (by decide) (by decide) (by decide) rfl

theorem scan_PAREN_ABRE {α : Type} (A : Arith α) (rest : List Char) (acc : List (Token α)) :
    scan A ('(' :: rest) acc = scan A rest (acc ++ [.PAREN_ABRE]) :=
  scan_single A '(' .PAREN_ABRE rest acc (by decide) (by decide) (by decide) rfl

theorem scan_PAREN_CIERRA {α : Type} (A : Arith α) (rest : List Char) (acc : List (Token α)) :
    scan A (')' :: rest) acc = scan A rest (acc ++ [.PAREN_CIERRA]) :=
  scan_single A ')' .PAREN_CIERRA rest acc (by decide) (by decide) (by decide) rfl

theorem scan_IGUAL {α : Type} (A : Arith α) (rest : List Char) (acc : List (Token α)) :
    scan A ('=' :: rest) acc = scan A rest (acc ++ [.IGUAL]) :=
  scan_single A '=' .IGUAL rest acc (by decide) (by decide) (by decide) rfl

theorem scan_PUNTO_Y_COMA {α : Type} (A : Arith α) (rest : List Char) (acc : List (Token α)) :
    scan A (';' :: rest) acc = scan A rest (acc ++ [.PUNTO_Y_COMA]) :=
  scan_single A ';' .PUNTO_Y_COMA rest acc (by decide) (by decide) (by decide) rfl

/-- The text `N / 0`, with or without `;`, is scanned to its tokens. -/
theorem lexer_div_zero {α : Type} (A : Arith α) (n : String) (hn : isNumericLiteral n = true) :
    lexer A (n ++ " / 0") = .ok [.NUMERO (A.parseFloat n), .DIVISION,
        .NUMERO (A.parseFloat "0"), .EOF] ∧
    lexer A (n ++ " / 0;") = .ok [.NUMERO (A.parseFloat n), .DIVISION,
        .NUMERO (A.parseFloat "0"), .PUNTO_Y_COMA, .EOF] := by
  constructor
  · unfold lexer
    rw [show (n ++ " / 0").data = n.data ++ ' ' :: ['/', ' ', '0'] from rfl,
      scan_number A n ' ' _ _ hn (by decide), scan_space, scan_DIVISION, scan_space,
      show ['0'] = "0".data from rfl, scan_number_end A "0" _ (by decide)]
    rfl
  · unfold lexer
    rw [show (n ++ " / 0;").data = n.data ++ ' ' :: ['/', ' ', '0', ';'] from rfl,
      scan_number A n ' ' _ _ hn (by decide), scan_space, scan_DIVISION, scan_space]
    rw [show ['0', ';'] = "0".data ++ ';' :: [] from rfl,
      scan_number A "0" ';' _ _ (by decide) (by decide), scan_PUNTO_Y_COMA, scan_nil]
    rfl

/-- The texts `(a + b) * c` and `a + b * c`, with or without `;`, are scanned to their tokens. -/
theorem lexer_precedence {α : Type} (A : Arith α) (a b c : String)
    (ha : isNumericLiteral a = true) (hb : isNumericLiteral b = true)
    (hc : isNumericLiteral c = true) :
    lexer A ("(" ++ a ++ " + " ++ b ++ ") * " ++ c) = .ok [.PAREN_ABRE,
        .NUMERO (A.parseFloat a), .SUMA, .NUMERO (A.parseFloat b), .PAREN_CIERRA,
        .MULTIPLICACION, .NUMERO (A.parseFloat c), .EOF] ∧
    lexer A ("(" ++ a ++ " + " ++ b ++ ") * " ++ c ++ ";") = .ok [.PAREN_ABRE,
        .NUMERO (A.parseFloat a), .SUMA, .NUMERO (A.parseFloat b), .PAREN_CIERRA,
        .MULTIPLICACION, .NUMERO (A.parseFloat c), .PUNTO_Y_COMA, .EOF] ∧
    lexer A (a ++ " + " ++ b ++ " * " ++ c) = .ok [.NUMERO (A.parseFloat a), .SUMA,
        .NUMERO (A.parseFloat b), .MULTIPLICACION, .NUMERO (A.parseFloat c), .EOF] ∧
    lexer A (a ++ " + " ++ b ++ " * " ++ c ++ ";") = .ok [.NUMERO (A.parseFloat a), .SUMA,
        .NUMERO (A.parseFloat b), .MULTIPLICACION, .NUMERO (A.parseFloat c),
        .PUNTO_Y_COMA, .EOF] := by
  refine ⟨?_, ?_, ?_, ?_⟩
  · show lexer A (String.mk ['('] ++ a ++ String.mk [' ', '+', ' '] ++ b
        ++ String.mk [')', ' ', '*', ' '] ++ c) = _
    unfold lexer
    simp only [String.data_append, List.append_assoc, List.cons_append, List.nil_append]
    rw [scan_PAREN_ABRE, scan_number A a ' ' _ _ ha (by decide), scan_space, scan_SUMA,
      scan_space, scan_number A b ')' _ _ hb (by decide), scan_PAREN_CIERRA, scan_space,
      scan_MULTIPLICACION, scan_space, scan_number_end A c _ hc]
    rfl
  · show lexer A (String.mk ['('] ++ a ++ String.mk [' ', '+', ' '] ++ b
        ++ String.mk [')', ' ', '*', ' '] ++ c ++ String.mk [';']) = _
    unfold lexer
    simp only [String.data_append, List.append_assoc, List.cons_append, List.nil_append]
    rw [scan_PAREN_ABRE, scan_number A a ' ' _ _ ha (by decide), scan_space, scan_SUMA,
      scan_space, scan_number A b ')' _ _ hb (by decide), scan_PAREN_CIERRA, scan_space,
      scan_MULTIPLICACION, scan_space, scan_number A c ';' _ _ hc (by decide),
      scan_PUNTO_Y_COMA, scan_nil]
    rfl
  · show lexer A (a ++ String.mk [' ', '+', ' '] ++ b ++ String.mk [' ', '*', ' '] ++ c) = _
    unfold lexer
    simp only [String.data_append, List.append_assoc, List.cons_append, List.nil_append]
    rw [scan_number A a ' ' _ _ ha (by decide), scan_space, scan_SUMA,
      scan_space, scan_number A b ' ' _ _ hb (by decide), scan_space,
      scan_MULTIPLICACION, scan_space, scan_number_end A c _ hc]
    rfl
  · show lexer A (a ++ String.mk [' ', '+', ' '] ++ b ++ String.mk [' ', '*', ' '] ++ c
        ++ String.mk [';']) = _
    unfold lexer
    simp only [String.data_append, List.append_assoc, List.cons_append, List.nil_append]
    rw [scan_number A a ' ' _ _ ha (by decide), scan_space, scan_SUMA,
      scan_space, scan_number A b ' ' _ _ hb (by decide), scan_space,
      scan_MULTIPLICACION, scan_space, scan_number A c ';' _ _ hc (by decide),
      scan_PUNTO_Y_COMA, scan_nil]
    rfl

/-- The text `a - b - c`, with or without `;`, is scanned to its tokens. -/
theorem lexer_subtractions {α : Type} (A : Arith α) (a b c : String)
    (ha : isNumericLiteral a = true) (hb : isNumericLiteral b = true)
    (hc : isNumericLiteral c = true) :
    lexer A (a ++ " - " ++ b ++ " - " ++ c) = .ok [.NUMERO (A.parseFloat a), .RESTA,
        .NUMERO (A.parseFloat b), .RESTA, .NUMERO (A.parseFloat c), .EOF] ∧
    lexer A (a ++ " - " ++ b ++ " - " ++ c ++ ";") = .ok [.NUMERO (A.parseFloat a), .RESTA,
        .NUMERO (A.parseFloat b), .RESTA, .NUMERO (A.parseFloat c), .PUNTO_Y_COMA, .EOF] := by
  refine ⟨?_, ?_⟩
  · show lexer A (a ++ String.mk [' ', '-', ' '] ++ b ++ String.mk [' ', '-', ' '] ++ c) = _
    unfold lexer
    simp only [String.data_append, List.append_assoc, List.cons_append, List.nil_append]
    rw [scan_number A a ' ' _ _ ha (by decide), scan_space, scan_RESTA,
      scan_space, scan_number A b ' ' _ _ hb (by decide), scan_space,
      scan_RESTA, scan_space, scan_number_end A c _ hc]
    rfl
  · show lexer A (a ++ String.mk [' ', '-', ' '] ++ b ++ String.mk [' ', '-', ' '] ++ c
        ++ String.mk [';']) = _
    unfold lexer
    simp only [String.data_append, List.append_assoc, List.cons_append, List.nil_append]
    rw [scan_number A a ' ' _ _ ha (by decide), scan_space, scan_RESTA,
      scan_space, scan_number A b ' ' _ _ hb (by decide), scan_space,
      scan_RESTA, scan_space, scan_number A c ';' _ _ hc (by decide),
      scan_PUNTO_Y_COMA, scan_nil]
    rfl

/-- The texts `x + 1;` and `(x) + 1` are scanned to their tokens. -/
theorem lexer_variable_plus_one {α : Type} (A : Arith α) (x : String)
    (hx : isIdentifier x = true) :
    lexer A (x ++ " + 1;") = .ok [.IDENTIFICADOR x, .SUMA, .NUMERO (A.parseFloat "1"),
        .PUNTO_Y_COMA, .EOF] ∧
    lexer A ("(" ++ x ++ ") + 1") = .ok [.PAREN_ABRE, .IDENTIFICADOR x, .PAREN_CIERRA, .SUMA,
        .NUMERO (A.parseFloat "1"), .EOF] := by
  refine ⟨?_, ?_⟩
  · show lexer A (x ++ String.mk [' ', '+', ' ', '1', ';']) = _
    unfold lexer
    simp only [String.data_append, List.append_assoc, List.cons_append, List.nil_append]
    rw [scan_identifier A x ' ' _ _ hx (by decide), scan_space, scan_SUMA, scan_space,
      show ['1', ';'] = "1".data ++ ';' :: [] from rfl,
      scan_number A "1" ';' _ _ (by decide) (by decide), scan_PUNTO_Y_COMA, scan_nil]
    rfl
  · show lexer A (String.mk ['('] ++ x ++ String.mk [')', ' ', '+', ' ', '1']) = _
    unfold lexer
    simp only [String.data_append, List.append_assoc, List.cons_append, List.nil_append]
    rw [scan_PAREN_ABRE, scan_identifier A x ')' _ _ hx (by decide), scan_PAREN_CIERRA,
      scan_space, scan_SUMA, scan_space, show ['1'] = "1".data from rfl,
      scan_number_end A "1" _ (by decide)]
    rfl

theorem LexResult.andThen_assoc {α : Type} (r : LexResult α)
    (k1 k2 : List (Token α) → LexResult α) :
    (r.andThen k1).andThen k2 = r.andThen (fun tokens => (k1 tokens).andThen k2) := by
  cases r <;> rfl

/-- A character that ends every run is scanned on its own. -/
theorem scan_sep_cons {α : Type} (A : Arith α) (c : Char) (rest : List Char)
    (acc : List (Token α)) (hi : isIdentChar c = false) :
    scan A (c :: rest) acc = (scan A [c] acc).andThen (scan A rest) := by
  have hi1 : isIdentStart c = false := by
    simp only [isIdentChar, Bool.or_eq_false_iff] at hi; exact hi.1
  have hd : isDigit c = false := by
    simp only [isIdentChar, Bool.or_eq_false_iff] at hi; exact hi.2
  rw [scan_cons, scan_cons A c []]
  by_cases hs : isSpace c = true
  · simp only [hs, if_true, scan_nil, LexResult.andThen]
  · simp only [hs, hi1, hd, Bool.false_eq_true, if_false]
    cases singleCharTokens (α := α) c with
    | none => rfl
    | some t => simp only [scan_nil, LexResult.andThen]

/-- The scan of a text that does not end inside a run, followed by more text, is the scan of
the text, then the scan of what follows. -/
theorem scan_append_boundary {α : Type} (A : Arith α) (pre suffix : List Char)
    (acc : List (Token α)) (hpre : endsAtBoundary pre = true) :
    scan A (pre ++ suffix) acc = (scan A pre acc).andThen (scan A suffix) := by
  rcases List.eq_nil_or_concat pre with hnil | ⟨pre', c, hc⟩
  · subst hnil; simp [scan_nil, LexResult.andThen]
  · subst hc
    have hsep : isIdentChar c = false ∧ isNumChar c = false := by
      simpa [endsAtBoundary] using hpre
    rw [List.concat_eq_append, List.append_assoc, List.singleton_append,
      scan_append_sep A c suffix hsep.1 hsep.2 _ pre' acc (Nat.le_refl _),
      scan_append_sep A c [] hsep.1 hsep.2 _ pre' acc (Nat.le_refl _),
      LexResult.andThen_assoc]
    congr 1
    funext tokens
    exact scan_sep_cons A c suffix tokens hsep.1

/-- A digit-started run of digits and `.` with two or more `.`, not continued by what follows,
makes the scan throw. -/
theorem scan_malformed {α : Type} (A : Arith α) (d : Char) (ds rest : List Char)
    (acc : List (Token α)) (hd : isDigit d = true) (hds : ds.all isNumChar = true)
    (hcount : 2 ≤ (d :: ds).count '.') (hrest : ∀ c ∈ rest.head?, isNumChar c = false) :
    scan A (d :: ds ++ rest) acc = .error .malformedNumber := by
  have hall : (d :: ds).all isNumChar = true := by
    simp only [List.all_cons, Bool.and_eq_true]
    exact ⟨isDigit_isNumChar hd, hds⟩
  have htake : (d :: ds ++ rest).takeWhile isNumChar = d :: ds := by
    cases rest with
    | nil => rw [List.append_nil]; exact takeWhile_eq_self _ _ hall
    | cons c rest =>
      rw [takeWhile_append_sep _ _ _ _ (hrest c (by simp))]
      exact takeWhile_eq_self _ _ hall
  rw [List.cons_append, scan_cons]
  simp only [isDigit_not_space hd, isDigit_not_identStart hd, hd, Bool.false_eq_true, if_false,
    if_true]
  rw [← List.cons_append, htake, if_pos (by omega)]

theorem singleCharTokens_tipo_ne_EOF {α : Type} (c : Char) (token : Token α)
    (h : singleCharTokens c = some token) : token.tipo ≠ .EOF := by
  unfold singleCharTokens at h
  repeat' split at h
  all_goals first | (cases h; simp [Token.tipo]) | cases h

/-- The loop of `lexer` pushes no `EOF` token. -/
theorem scan_no_EOF {α : Type} (A : Arith α) :
    ∀ (k : Nat) (input : List Char) (acc tokens : List (Token α)), input.length ≤ k →
      scan A input acc = .ok tokens → (∀ t ∈ acc, t.tipo ≠ .EOF) → ∀ t ∈ tokens, t.tipo ≠ .EOF := by
  intro k
  induction k with
  | zero =>
    intro input acc tokens h hscan hacc
    have : input = [] := List.length_eq_zero.mp (by omega)
    subst this
    rw [scan_nil] at hscan
    cases hscan
    exact hacc
  | succ k ih =>
    intro input acc tokens h hscan hacc
    cases input with
    | nil =>
      rw [scan_nil] at hscan
      cases hscan
      exact hacc
    | cons c rest =>
      simp only [List.length_cons] at h
      rw [scan_cons] at hscan
      by_cases hs : isSpace c = true
      · simp only [hs, if_true] at hscan
        exact ih _ _ _ (by omega) hscan hacc
      · simp only [hs, Bool.false_eq_true, if_false] at hscan
        by_cases hi : isIdentStart c = true
        · simp only [hi, if_true] at hscan
          have hl := length_dropWhile_cons_lt isIdentChar c rest (isIdentStart_isIdentChar hi)
          refine ih _ _ _ (by omega) hscan ?_
          intro t ht
          rcases List.mem_append.mp ht with h1 | h1
          · exact hacc t h1
          · simp only [List.mem_singleton] at h1; subst h1; simp [Token.tipo]
        · simp only [hi, Bool.false_eq_true, if_false] at hscan
          by_cases hd : isDigit c = true
          · simp only [hd, if_true] at hscan
            have hl := length_dropWhile_cons_lt isNumChar c rest (isDigit_isNumChar hd)
            by_cases hc : ((c :: rest).takeWhile isNumChar).count '.' + 1 > 2
            · rw [if_pos hc] at hscan; cases hscan
            · rw [if_neg hc] at hscan
              refine ih _ _ _ (by omega) hscan ?_
              intro t ht
              rcases List.mem_append.mp ht with h1 | h1
              · exact hacc t h1
              · simp only [List.mem_singleton] at h1; subst h1; simp [Token.tipo]
          · simp only [hd, Bool.false_eq_true, if_false] at hscan
            cases htab : singleCharTokens (α := α) c with
            | none => rw [htab] at hscan; cases hscan
            | some t0 =>
              rw [htab] at hscan
              refine ih _ _ _ (by omega) hscan ?_
              intro t ht
              rcases List.mem_append.mp ht with h1 | h1
              · exact hacc t h1
              · simp only [List.mem_singleton] at h1; subst h1
                exact singleCharTokens_tipo_ne_EOF c t htab

/-- The tokens of `lexer`: a body without `EOF`, then one `EOF`. -/
theorem lexer_shape {α : Type} (A : Arith α) (input : String) (tokens : List (Token α))
    (h : lexer A input = .ok tokens) :
    ∃ body, tokens = body ++ [.EOF] ∧ ∀ t ∈ body, t.tipo ≠ .EOF := by
  unfold lexer at h
  cases hs : scan A input.data [] with
  | ok body =>
    rw [hs] at h
    cases h
    exact ⟨body, rfl, scan_no_EOF A _ _ _ _ (Nat.le_refl _) hs (by simp)⟩
  | error e => rw [hs] at h; cases h
  | outOfFuel => rw [hs] at h; cases h

theorem tipo_eq_EOF {α : Type} {token : Token α} (h : token.tipo = .EOF) : token = .EOF := by
  cases token <;> first | rfl | cases h

/-- In the tokens of `lexer` an `EOF` token stands at the last index only. -/
theorem lexer_EOF_last {α : Type} (A : Arith α) (input : String) (tokens : List (Token α))
    (h : lexer A input = .ok tokens) (pos : Nat) (token : Token α)
    (hpos : tokens[pos]? = some token) (htipo : token.tipo = .EOF) :
    pos + 1 = tokens.length := by
  obtain ⟨body, hbody, hno⟩ := lexer_shape A input tokens h
  subst hbody
  have hlt := lt_length_of_getElem? hpos
  simp only [List.length_append, List.length_singleton] at hlt ⊢
  by_contra hne
  have hlt2 : pos < body.length := by omega
  rw [List.getElem?_append_left hlt2] at hpos
  have hmem : token ∈ body := List.getElem?_mem hpos
  exact hno token hmem htipo

/-- The text `name = ;` is scanned to its tokens. -/
theorem lexer_empty_assignment {α : Type} (A : Arith α) (name : String)
    (hname : isIdentifier name = true) :
    lexer (α := α) A (name ++ " = ;") = .ok [.IDENTIFICADOR name, .IGUAL, .PUNTO_Y_COMA, .EOF] := by
  show lexer A (name ++ String.mk [' ', '=', ' ', ';']) = _
  unfold lexer
  simp only [String.data_append, List.append_assoc, List.cons_append, List.nil_append]
  rw [scan_identifier A name ' ' _ _ hname (by decide), scan_space, scan_IGUAL, scan_space,
    scan_PUNTO_Y_COMA, scan_nil]
  rfl

/-- The tokens pushed before a scan starts are kept in front of those the scan pushes. -/
theorem scan_acc {α : Type} (A : Arith α) :
    ∀ (k : Nat) (input : List Char) (acc : List (Token α)), input.length ≤ k →
      scan A input acc = (scan A input []).andThen (fun tokens => .ok (acc ++ tokens)) := by
  intro k
  induction k with
  | zero =>
    intro input acc h
    have : input = [] := List.length_eq_zero.mp (by omega)
    subst this
    simp [scan_nil, LexResult.andThen]
  | succ k ih =>
    intro input acc h
    cases input with
    | nil => simp [scan_nil, LexResult.andThen]
    | cons c rest =>
      simp only [List.length_cons] at h
      have step : ∀ (input' : List Char) (token : Token α), input'.length ≤ k →
          scan A input' (acc ++ [token])
            = (scan A input' ([] ++ [token])).andThen (fun tokens => .ok (acc ++ tokens)) := by
        intro input' token hlen
        rw [ih input' (acc ++ [token]) hlen, ih input' ([] ++ [token]) hlen,
          LexResult.andThen_assoc]
        congr 1
        funext tokens
        simp [LexResult.andThen]
      rw [scan_cons, scan_cons A c rest []]
      by_cases hs : isSpace c = true
      · simp only [hs, if_true]; exact ih _ _ (by omega)
      · simp only [hs, Bool.false_eq_true, if_false]
        by_cases hi : isIdentStart c = true
        · simp only [hi, if_true]
          have hl := length_dropWhile_cons_lt isIdentChar c rest (isIdentStart_isIdentChar hi)
          exact step _ _ (by omega)
        · simp only [hi, Bool.false_eq_true, if_false]
          by_cases hd : isDigit c = true
          · simp only [hd, if_true]
            have hl := length_dropWhile_cons_lt isNumChar c rest (isDigit_isNumChar hd)
            by_cases hc : ((c :: rest).takeWhile isNumChar).count '.' + 1 > 2
            · rw [if_pos hc, if_pos hc]; rfl
            · rw [if_neg hc, if_neg hc]
              exact step _ _ (by omega)
          · simp only [hd, Bool.false_eq_true, if_false]
            cases singleCharTokens (α := α) c with
            | none => rfl
            | some t => exact step _ _ (by omega)

/-- The text `name = E;` is scanned to the identifier, `=`, the tokens of `E` and `;`. -/
theorem lexer_assignment {α : Type} (A : Arith α) (name text : String)
    (tokensE : List (Token α)) (hname : isIdentifier name = true)
    (hlex : lexer A text = .ok (tokensE ++ [.EOF])) :
    lexer A (name ++ " = " ++ text ++ ";")
      = .ok (.IDENTIFICADOR name :: .IGUAL :: (tokensE ++ [.PUNTO_Y_COMA, .EOF])) := by
  have hscan : scan A text.data [] = .ok tokensE := by
    unfold lexer at hlex
    cases h : scan A text.data [] with
    | ok body =>
      rw [h] at hlex
      simp only [LexResult.ok.injEq] at hlex
      rw [List.append_cancel_right hlex]
    | error e => rw [h] at hlex; cases hlex
    | outOfFuel => rw [h] at hlex; cases hlex
  show lexer A (name ++ String.mk [' ', '=', ' '] ++ text ++ String.mk [';']) = _
  unfold lexer
  simp only [String.data_append, List.append_assoc, List.cons_append, List.nil_append]
  rw [scan_identifier A name ' ' _ _ hname (by decide), scan_space, scan_IGUAL, scan_space,
    scan_append_sep A ';' [] (by decide) (by decide) _ text.data _ (Nat.le_refl _),
    scan_acc A _ text.data _ (Nat.le_refl _), hscan]
  simp only [LexResult.andThen]
  rw [scan_PUNTO_Y_COMA, scan_nil]
  simp

/-! ## Facts about the parser -/

theorem eat_of_tipo {α : Type} {tokens : List (Token α)} {pos : Nat} {token : Token α}
    (tipo : Tipo) (h : tokens[pos]? = some token) (ht : token.tipo = tipo) :
    eat tokens pos tipo = .ok (pos + 1) := by
  simp [eat, h, ht]

/-- Unfolding of `factor` with the token at `pos` known. -/
theorem factor_succ {α : Type} (fuel : Nat) (tokens : List (Token α)) (pos : Nat) :
    factor (fuel + 1) tokens pos =
      match tokens[pos]? with
      | none => .error .typeError pos
      | some (.NUMERO valor) => .ok (.NUMERO valor) (pos + 1)
      | some (.IDENTIFICADOR valor) => .ok (.VARIABLE valor) (pos + 1)
      | some .PAREN_ABRE =>
        match expr fuel tokens (pos + 1) with
        | .ok result pos2 =>
          match tokens[pos2]? with
          | none => .error .typeError pos2
          | some token =>
            if token.tipo = .PAREN_CIERRA then .ok result (pos2 + 1)
            else .error (.unexpectedToken .PAREN_CIERRA token.tipo) pos2
        | .error e pos2 => .error e pos2
        | .outOfFuel => .outOfFuel
      | some _ => .error .expectedFactor pos := by
  rw [factor]
  cases h : tokens[pos]? with
  | none => rfl
  | some token =>
    cases token
    case PAREN_ABRE =>
      simp only [eat_of_tipo .PAREN_ABRE h rfl]
      cases expr fuel tokens (pos + 1) with
      | ok result pos2 =>
        simp only [eat]
        cases tokens[pos2]? with
        | none => rfl
        | some t => by_cases ht : t.tipo = .PAREN_CIERRA <;> simp [ht]
      | error e p => rfl
      | outOfFuel => rfl
    all_goals simp [eat, h, Token.tipo]

/-- Unfolding of the loop of `term`. -/
theorem termLoop_succ {α : Type} (fuel : Nat) (tokens : List (Token α)) (node : ASTNode α)
    (pos : Nat) :
    termLoop (fuel + 1) tokens node pos =
      match tokens[pos]? with
      | none => .error .typeError pos
      | some token =>
        if token.tipo = .MULTIPLICACION ∨ token.tipo = .DIVISION then
          match factor fuel tokens (pos + 1) with
          | .ok der pos2 => termLoop fuel tokens (.operador token.tipo node der) pos2
          | .error e pos2 => .error e pos2
          | .outOfFuel => .outOfFuel
        else .ok node pos := by
  rw [termLoop]
  cases h : tokens[pos]? with
  | none => rfl
  | some token => simp only [eat_of_tipo _ h rfl]

/-- Unfolding of the loop of `expr`. -/
theorem exprLoop_succ {α : Type} (fuel : Nat) (tokens : List (Token α)) (node : ASTNode α)
    (pos : Nat) :
    exprLoop (fuel + 1) tokens node pos =
      match tokens[pos]? with
      | none => .error .typeError pos
      | some token =>
        if token.tipo = .SUMA ∨ token.tipo = .RESTA then
          match term fuel tokens (pos + 1) with
          | .ok der pos2 => exprLoop fuel tokens (.operador token.tipo node der) pos2
          | .error e pos2 => .error e pos2
          | .outOfFuel => .outOfFuel
        else .ok node pos := by
  rw [exprLoop]
  cases h : tokens[pos]? with
  | none => rfl
  | some token => simp only [eat_of_tipo _ h rfl]

/-- Every successful call moves forward: `factor`, `term` and `expr` past at least one token,
the loops not backwards. -/
theorem parser_progress {α : Type} (tokens : List (Token α)) : ∀ (n : Nat),
    (∀ pos node pos', factor n tokens pos = .ok node pos' → pos < pos') ∧
    (∀ pos node0 node pos', termLoop n tokens node0 pos = .ok node pos' → pos ≤ pos') ∧
    (∀ pos node pos', term n tokens pos = .ok node pos' → pos < pos') ∧
    (∀ pos node0 node pos', exprLoop n tokens node0 pos = .ok node pos' → pos ≤ pos') ∧
    (∀ pos node pos', expr n tokens pos = .ok node pos' → pos < pos') := by
  intro n
  induction n with
  | zero => simp [factor, termLoop, term, exprLoop, expr]
  | succ n ih =>
    obtain ⟨ihf, ihtl, iht, ihel, ihe⟩ := ih
    refine ⟨?_, ?_, ?_, ?_, ?_⟩
    · intro pos node pos' h
      rw [factor_succ] at h
      cases ht : tokens[pos]? with
      | none => simp [ht] at h
      | some token =>
        cases token <;> simp only [ht] at h <;> try (first | (simp at h; omega) | simp at h)
        cases he : expr n tokens (pos + 1) with
        | ok result pos2 =>
          have := ihe _ _ _ he
          simp only [he] at h
          cases ht2 : tokens[pos2]? with
          | none => simp [ht2] at h
          | some t2 =>
            simp only [ht2] at h
            split at h
            · cases h; omega
            · cases h
        | error e p => simp [he] at h
        | outOfFuel => simp [he] at h
    · intro pos node0 node pos' h
      rw [termLoop_succ] at h
      cases ht : tokens[pos]? with
      | none => simp [ht] at h
      | some token =>
        simp only [ht] at h
        split at h
        · cases hf : factor n tokens (pos + 1) with
          | ok der pos2 =>
            have := ihf _ _ _ hf
            simp only [hf] at h
            have := ihtl _ _ _ _ h
            omega
          | error e p => simp [hf] at h
          | outOfFuel => simp [hf] at h
        · cases h; exact Nat.le_refl _
    · intro pos node pos' h
      rw [term] at h
      cases hf : factor n tokens pos with
      | ok node1 pos1 =>
        have := ihf _ _ _ hf
        simp only [hf] at h
        have := ihtl _ _ _ _ h
        omega
      | error e p => simp [hf] at h
      | outOfFuel => simp [hf] at h
    · intro pos node0 node pos' h
      rw [exprLoop_succ] at h
      cases ht : tokens[pos]? with
      | none => simp [ht] at h
      | some token =>
        simp only [ht] at h
        split at h
        · cases hf : term n tokens (pos + 1) with
          | ok der pos2 =>
            have := iht _ _ _ hf
            simp only [hf] at h
            have := ihel _ _ _ _ h
            omega
          | error e p => simp [hf] at h
          | outOfFuel => simp [hf] at h
        · cases h; exact Nat.le_refl _
    · intro pos node pos' h
      rw [expr] at h
      cases hf : term n tokens pos with
      | ok node1 pos1 =>
        have := iht _ _ _ hf
        simp only [hf] at h
        have := ihel _ _ _ _ h
        omega
      | error e p => simp [hf] at h
      | outOfFuel => simp [hf] at h

/-- One more unit of fuel does not change a result that was reached. -/
theorem parser_fuel_succ {α : Type} (tokens : List (Token α)) : ∀ (n : Nat),
    (∀ pos, factor n tokens pos ≠ .outOfFuel →
      factor (n + 1) tokens pos = factor n tokens pos) ∧
    (∀ pos node, termLoop n tokens node pos ≠ .outOfFuel →
      termLoop (n + 1) tokens node pos = termLoop n tokens node pos) ∧
    (∀ pos, term n tokens pos ≠ .outOfFuel → term (n + 1) tokens pos = term n tokens pos) ∧
    (∀ pos node, exprLoop n tokens node pos ≠ .outOfFuel →
      exprLoop (n + 1) tokens node pos = exprLoop n tokens node pos) ∧
    (∀ pos, expr n tokens pos ≠ .outOfFuel → expr (n + 1) tokens pos = expr n tokens pos) := by
  intro n
  induction n with
  | zero => simp [factor, termLoop, term, exprLoop, expr]
  | succ n ih =>
    obtain ⟨ihf, ihtl, iht, ihel, ihe⟩ := ih
    refine ⟨?_, ?_, ?_, ?_, ?_⟩
    · intro pos h
      rw [factor_succ] at h
      rw [factor_succ (n + 1), factor_succ n]
      cases ht : tokens[pos]? with
      | none => rfl
      | some token =>
        cases token <;> try rfl
        simp only [ht] at h ⊢
        cases he : expr n tokens (pos + 1) with
        | outOfFuel => simp [he] at h
        | ok result pos2 => rw [ihe _ (by simp [he]), he]
        | error e p => rw [ihe _ (by simp [he]), he]
    · intro pos node h
      rw [termLoop_succ] at h
      rw [termLoop_succ (n + 1), termLoop_succ n]
      cases ht : tokens[pos]? with
      | none => rfl
      | some token =>
        simp only [ht] at h ⊢
        by_cases hop : token.tipo = .MULTIPLICACION ∨ token.tipo = .DIVISION
        · simp only [hop, if_true] at h ⊢
          cases hf : factor n tokens (pos + 1) with
          | outOfFuel => simp [hf] at h
          | ok der pos2 =>
            simp only [hf] at h
            rw [ihf _ (by simp [hf]), hf]
            exact ihtl _ _ h
          | error e p => rw [ihf _ (by simp [hf]), hf]
        · simp only [hop, if_false]
    · intro pos h
      rw [term] at h
      rw [term, term]
      cases hf : factor n tokens pos with
      | outOfFuel => simp [hf] at h
      | ok node pos1 =>
        simp only [hf] at h
        rw [ihf _ (by simp [hf]), hf]
        exact ihtl _ _ h
      | error e p => rw [ihf _ (by simp [hf]), hf]
    · intro pos node h
      rw [exprLoop_succ] at h
      rw [exprLoop_succ (n + 1), exprLoop_succ n]
      cases ht : tokens[pos]? with
      | none => rfl
      | some token =>
        simp only [ht] at h ⊢
        by_cases hop : token.tipo = .SUMA ∨ token.tipo = .RESTA
        · simp only [hop, if_true] at h ⊢
          cases hf : term n tokens (pos + 1) with
          | outOfFuel => simp [hf] at h
          | ok der pos2 =>
            simp only [hf] at h
            rw [iht _ (by simp [hf]), hf]
            exact ihel _ _ h
          | error e p => rw [iht _ (by simp [hf]), hf]
        · simp only [hop, if_false]
    · intro pos h
      rw [expr] at h
      rw [expr, expr]
      cases hf : term n tokens pos with
      | outOfFuel => simp [hf] at h
      | ok node pos1 =>
        simp only [hf] at h
        rw [iht _ (by simp [hf]), hf]
        exact ihel _ _ h
      | error e p => rw [iht _ (by simp [hf]), hf]

/-- More fuel does not change a result of `expr` that was reached. -/
theorem expr_fuel_mono {α : Type} (tokens : List (Token α)) (pos n m : Nat) (hnm : n ≤ m)
    (h : expr n tokens pos ≠ .outOfFuel) : expr m tokens pos = expr n tokens pos := by
  induction m with
  | zero =>
    have : n = 0 := by omega
    subst this; rfl
  | succ m ih =>
    by_cases hn : n = m + 1
    · subst hn; rfl
    · have hm : expr m tokens pos = expr n tokens pos := ih (by omega)
      rw [(parser_fuel_succ tokens m).2.2.2.2 pos (by rw [hm]; exact h), hm]

/-- Fuel that suffices: three units per token left, plus one to three by method. -/
theorem parser_fuel_enough {α : Type} (tokens : List (Token α)) : ∀ (n : Nat),
    (∀ pos, 3 * (tokens.length - pos) + 1 ≤ n → factor n tokens pos ≠ .outOfFuel) ∧
    (∀ pos node, 3 * (tokens.length - pos) + 1 ≤ n → termLoop n tokens node pos ≠ .outOfFuel) ∧
    (∀ pos, 3 * (tokens.length - pos) + 2 ≤ n → term n tokens pos ≠ .outOfFuel) ∧
    (∀ pos node, 3 * (tokens.length - pos) + 2 ≤ n → exprLoop n tokens node pos ≠ .outOfFuel) ∧
    (∀ pos, 3 * (tokens.length - pos) + 3 ≤ n → expr n tokens pos ≠ .outOfFuel) := by
  intro n
  induction n with
  | zero => simp
  | succ n ih =>
    obtain ⟨ihf, ihtl, iht, ihel, ihe⟩ := ih
    have hprog := parser_progress tokens n
    refine ⟨?_, ?_, ?_, ?_, ?_⟩
    · intro pos h
      rw [factor_succ]
      cases ht : tokens[pos]? with
      | none => simp
      | some token =>
        have hlt := lt_length_of_getElem? ht
        cases token <;> simp only [] <;> try simp
        have := ihe (pos + 1) (by omega)
        cases he : expr n tokens (pos + 1) with
        | outOfFuel => exact absurd he this
        | ok result pos2 =>
          simp only []
          cases tokens[pos2]? with
          | none => simp
          | some t => simp only []; split <;> simp
        | error e p => simp
    · intro pos node h
      rw [termLoop_succ]
      cases ht : tokens[pos]? with
      | none => simp
      | some token =>
        have hlt := lt_length_of_getElem? ht
        simp only []
        split
        · have := ihf (pos + 1) (by omega)
          cases hf : factor n tokens (pos + 1) with
          | outOfFuel => exact absurd hf this
          | ok der pos2 =>
            have := hprog.1 _ _ _ hf
            exact ihtl _ _ (by omega)
          | error e p => simp
        · simp
    · intro pos h
      rw [term]
      have := ihf pos (by omega)
      cases hf : factor n tokens pos with
      | outOfFuel => exact absurd hf this
      | ok node pos1 =>
        have := hprog.1 _ _ _ hf
        exact ihtl _ _ (by omega)
      | error e p => simp
    · intro pos node h
      rw [exprLoop_succ]
      cases ht : tokens[pos]? with
      | none => simp
      | some token =>
        have hlt := lt_length_of_getElem? ht
        simp only []
        split
        · have := iht (pos + 1) (by omega)
          cases hf : term n tokens (pos + 1) with
          | outOfFuel => exact absurd hf this
          | ok der pos2 =>
            have := hprog.2.2.1 _ _ _ hf
            exact ihel _ _ (by omega)
          | error e p => simp
        · simp
    · intro pos h
      rw [expr]
      have := iht pos (by omega)
      cases hf : term n tokens pos with
      | outOfFuel => exact absurd hf this
      | ok node pos1 =>
        have := hprog.2.2.1 _ _ _ hf
        exact ihel _ _ (by omega)
      | error e p => simp

/-- The fuel `parse` gives to `expr` is never used up. -/
theorem expr_parseFuel_ne_outOfFuel {α : Type} (tokens : List (Token α)) (pos : Nat) :
    expr (parseFuel tokens) tokens pos ≠ .outOfFuel :=
  (parser_fuel_enough tokens (parseFuel tokens)).2.2.2.2 pos (by unfold parseFuel; omega)

/-- The method `parse` always returns or throws: the model does not run out of fuel. -/
theorem parse_ne_outOfFuel {α : Type} (tokens : List (Token α)) :
    parse tokens ≠ .outOfFuel := by
  have hfuel := expr_parseFuel_ne_outOfFuel tokens
  have hassign : assignment tokens ≠ .outOfFuel := by
    unfold assignment
    cases h0 : (tokens[0]? : Option (Token α)) with
    | none => simp
    | some token =>
      cases token
      case IDENTIFICADOR valor =>
        simp only [eat_of_tipo .IDENTIFICADOR h0 rfl]
        cases h1 : eat tokens (0 + 1) .IGUAL with
        | error e => simp
        | ok pos2 =>
          simp only []
          cases he : expr (parseFuel tokens) tokens pos2 with
          | outOfFuel => exact absurd he (hfuel _)
          | error e p => simp
          | ok node pos3 =>
            simp only []
            cases eat tokens pos3 .PUNTO_Y_COMA <;> simp
      all_goals exact hfuel 0
  unfold parse
  cases ha : assignment tokens with
  | outOfFuel => exact absurd ha hassign
  | error e p => simp
  | ok node pos =>
    simp only []
    cases tokens[pos]? with
    | none => simp
    | some t => simp only []; split <;> simp

/-- The methods `factor`, `term` and `expr` build no `ASIGNACION` node. -/
theorem parser_no_asignacion {α : Type} (tokens : List (Token α)) : ∀ (n : Nat),
    (∀ pos node pos', factor n tokens pos = .ok node pos' → node.hasAsignacion = false) ∧
    (∀ pos node0 node pos', termLoop n tokens node0 pos = .ok node pos' →
      node0.hasAsignacion = false → node.hasAsignacion = false) ∧
    (∀ pos node pos', term n tokens pos = .ok node pos' → node.hasAsignacion = false) ∧
    (∀ pos node0 node pos', exprLoop n tokens node0 pos = .ok node pos' →
      node0.hasAsignacion = false → node.hasAsignacion = false) ∧
    (∀ pos node pos', expr n tokens pos = .ok node pos' → node.hasAsignacion = false) := by
  intro n
  induction n with
  | zero => simp [factor, termLoop, term, exprLoop, expr]
  | succ n ih =>
    obtain ⟨ihf, ihtl, iht, ihel, ihe⟩ := ih
    refine ⟨?_, ?_, ?_, ?_, ?_⟩
    · intro pos node pos' h
      rw [factor_succ] at h
      cases ht : tokens[pos]? with
      | none => simp [ht] at h
      | some token =>
        cases token <;> simp only [ht] at h <;>
          try (first | (cases h; rfl) | cases h)
        cases he : expr n tokens (pos + 1) with
        | ok result pos2 =>
          have := ihe _ _ _ he
          simp only [he] at h
          cases ht2 : tokens[pos2]? with
          | none => simp [ht2] at h
          | some t2 =>
            simp only [ht2] at h
            split at h
            · cases h; exact this
            · cases h
        | error e p => simp [he] at h
        | outOfFuel => simp [he] at h
    · intro pos node0 node pos' h h0
      rw [termLoop_succ] at h
      cases ht : tokens[pos]? with
      | none => simp [ht] at h
      | some token =>
        simp only [ht] at h
        split at h
        · cases hf : factor n tokens (pos + 1) with
          | ok der pos2 =>
            have := ihf _ _ _ hf
            simp only [hf] at h
            exact ihtl _ _ _ _ h (by simp [ASTNode.hasAsignacion, h0, this])
          | error e p => simp [hf] at h
          | outOfFuel => simp [hf] at h
        · cases h; exact h0
    · intro pos node pos' h
      rw [term] at h
      cases hf : factor n tokens pos with
      | ok node1 pos1 =>
        have := ihf _ _ _ hf
        simp only [hf] at h
        exact ihtl _ _ _ _ h this
      | error e p => simp [hf] at h
      | outOfFuel => simp [hf] at h
    · intro pos node0 node pos' h h0
      rw [exprLoop_succ] at h
      cases ht : tokens[pos]? with
      | none => simp [ht] at h
      | some token =>
        simp only [ht] at h
        split at h
        · cases hf : term n tokens (pos + 1) with
          | ok der pos2 =>
            have := iht _ _ _ hf
            simp only [hf] at h
            exact ihel _ _ _ _ h (by simp [ASTNode.hasAsignacion, h0, this])
          | error e p => simp [hf] at h
          | outOfFuel => simp [hf] at h
        · cases h; exact h0
    · intro pos node pos' h
      rw [expr] at h
      cases hf : term n tokens pos with
      | ok node1 pos1 =>
        have := iht _ _ _ hf
        simp only [hf] at h
        exact ihel _ _ _ _ h this
      | error e p => simp [hf] at h
      | outOfFuel => simp [hf] at h

/-- A tree returned by `parse` whose root is no `ASIGNACION` holds no `ASIGNACION` at all. -/
theorem parse_bare_no_asignacion {α : Type} (tokens : List (Token α)) (ast : ASTNode α)
    (pos : Nat) (hparse : parse tokens = .ok ast pos) (hbare : ast.isAsignacion = false) :
    ast.hasAsignacion = false := by
  have hexpr := (parser_no_asignacion tokens (parseFuel tokens)).2.2.2.2
  have hassign : assignment tokens = .ok ast pos := by
    unfold parse at hparse
    cases ha : assignment tokens with
    | ok node q =>
      rw [ha] at hparse
      simp only [] at hparse
      cases ht : tokens[q]? with
      | none => rw [ht] at hparse; cases hparse
      | some token =>
        rw [ht] at hparse
        simp only [] at hparse
        split at hparse
        · cases hparse
        · cases hparse; rfl
    | error e q => rw [ha] at hparse; cases hparse
    | outOfFuel => rw [ha] at hparse; cases hparse
  unfold assignment at hassign
  cases h0 : (tokens[0]? : Option (Token α)) with
  | none => rw [h0] at hassign; cases hassign
  | some token =>
    rw [h0] at hassign
    cases token
    case IDENTIFICADOR valor =>
      simp only [eat_of_tipo .IDENTIFICADOR h0 rfl] at hassign
      cases h1 : eat tokens (0 + 1) .IGUAL with
      | error e => rw [h1] at hassign; cases hassign
      | ok pos2 =>
        rw [h1] at hassign
        simp only [] at hassign
        cases he : expr (parseFuel tokens) tokens pos2 with
        | outOfFuel => rw [he] at hassign; cases hassign
        | error e p => rw [he] at hassign; cases hassign
        | ok node pos3 =>
          rw [he] at hassign
          simp only [] at hassign
          cases h3 : eat tokens pos3 .PUNTO_Y_COMA with
          | error e => rw [h3] at hassign; cases hassign
          | ok pos4 =>
            rw [h3] at hassign
            cases hassign
            simp [ASTNode.isAsignacion] at hbare
    all_goals exact hexpr _ _ _ hassign

theorem not_requiresFactor_after {α : Type} {tokens : List (Token α)} {pos : Nat}
    {s : Token α} (hs : tokens[pos]? = some s) (hopen : s.tipo.opensOperand = false) :
    ¬ RequiresFactor tokens (pos + 1) := by
  rintro ⟨s', _, hs', hopen'⟩
  simp only [Nat.add_sub_cancel] at hs'
  rw [hs] at hs'
  cases hs'
  rw [hopen] at hopen'
  cases hopen'

/-- A loop that runs a call and then itself: the rule passes from the two parts to the whole. -/
theorem loopStops_step {α : Type} (tokens : List (Token α)) (pos : Nat)
    (r1 : ParseResult α) (k : ASTNode α → Nat → ParseResult α) :
    CallStops tokens (pos + 1) r1 →
    (∀ node q1, r1 = .ok node q1 → LoopStops tokens q1 (k node q1)) →
    LoopStops tokens pos
      (match r1 with
       | .ok der pos2 => k der pos2
       | .error e pos2 => .error e pos2
       | .outOfFuel => .outOfFuel) := by
  intro h1 hk q p t hq hlt hle hreq ht hbad
  cases hr : r1 with
  | outOfFuel => rw [hr] at hq; cases hq
  | error e q1 =>
    rw [hr] at hq
    simp only [ParseResult.pos?, Option.some.injEq] at hq
    subst hq
    have := h1 q1 p t (by rw [hr]; rfl) (by omega) hle (Or.inr hreq) ht hbad
    rw [hr] at this
    exact this
  | ok der q1 =>
    rw [hr] at hq
    simp only [] at hq ⊢
    by_cases hp : p ≤ q1
    · have := h1 q1 p t (by rw [hr]; rfl) (by omega) hp (Or.inr hreq) ht hbad
      rw [hr] at this
      cases this
    · exact hk der q1 hr q p t hq (by omega) hle hreq ht hbad

/-- A call that runs a call and then a loop: the rule passes from the two parts to the whole. -/
theorem callStops_step {α : Type} (tokens : List (Token α)) (pos : Nat)
    (r1 : ParseResult α) (k : ASTNode α → Nat → ParseResult α) :
    CallStops tokens pos r1 →
    (∀ node q1, r1 = .ok node q1 → pos < q1 ∧ LoopStops tokens q1 (k node q1)) →
    CallStops tokens pos
      (match r1 with
       | .ok node pos1 => k node pos1
       | .error e pos1 => .error e pos1
       | .outOfFuel => .outOfFuel) := by
  intro h1 hk q p t hq hge hle hreq ht hbad
  cases hr : r1 with
  | outOfFuel => rw [hr] at hq; cases hq
  | error e q1 =>
    rw [hr] at hq
    simp only [ParseResult.pos?, Option.some.injEq] at hq
    subst hq
    have := h1 q1 p t (by rw [hr]; rfl) hge hle hreq ht hbad
    rw [hr] at this
    exact this
  | ok node q1 =>
    rw [hr] at hq
    simp only [] at hq ⊢
    obtain ⟨hlt, hloop⟩ := hk node q1 hr
    by_cases hp : p ≤ q1
    · have := h1 q1 p t (by rw [hr]; rfl) hge hp hreq ht hbad
      rw [hr] at this
      cases this
    · have hreq' : RequiresFactor tokens p := by
        rcases hreq with h | h
        · omega
        · exact h
      exact hloop q p t hq (by omega) hle hreq' ht hbad

/-- The rule of the expected factor holds for every method of the parser. -/
theorem parser_expected_factor {α : Type} (tokens : List (Token α)) : ∀ (n : Nat),
    (∀ pos, CallStops tokens pos (factor n tokens pos)) ∧
    (∀ pos node, LoopStops tokens pos (termLoop n tokens node pos)) ∧
    (∀ pos, CallStops tokens pos (term n tokens pos)) ∧
    (∀ pos node, LoopStops tokens pos (exprLoop n tokens node pos)) ∧
    (∀ pos, CallStops tokens pos (expr n tokens pos)) := by
  intro n
  induction n with
  | zero =>
    refine ⟨?_, ?_, ?_, ?_, ?_⟩ <;> intro pos <;>
      simp [CallStops, LoopStops, factor, termLoop, term, exprLoop, expr, ParseResult.pos?]
  | succ n ih =>
    obtain ⟨ihf, ihtl, iht, ihel, ihe⟩ := ih
    have hprog := parser_progress tokens n
    refine ⟨?_, ?_, ?_, ?_, ?_⟩
    · intro pos q p t hq hge hle hreq ht hbad
      rw [factor_succ] at hq ⊢
      cases htok : tokens[pos]? with
      | none =>
        rw [htok] at hq
        simp only [ParseResult.pos?, Option.some.injEq] at hq
        have : p = pos := by omega
        subst this
        rw [htok] at ht
        cases ht
      | some token =>
        rw [htok] at hq
        cases token
        case PAREN_ABRE =>
          simp only [] at hq ⊢
          have hp : pos < p := by
            rcases Nat.lt_or_ge pos p with h | h
            · exact h
            · have : p = pos := by omega
              subst this
              rw [htok] at ht
              cases ht
              simp [Token.tipo, Tipo.startsFactor] at hbad
          have hreq' : RequiresFactor tokens p := by
            rcases hreq with h | h
            · omega
            · exact h
          cases he : expr n tokens (pos + 1) with
          | outOfFuel => rw [he] at hq; cases hq
          | error e q0 =>
            rw [he] at hq
            simp only [ParseResult.pos?, Option.some.injEq] at hq
            subst hq
            have := ihe (pos + 1) q0 p t (by rw [he]; rfl) (by omega) hle (Or.inr hreq') ht hbad
            rw [he] at this
            exact this
          | ok result q0 =>
            rw [he] at hq
            simp only [] at hq ⊢
            have hcontra : ¬ p ≤ q0 := by
              intro hp0
              have := ihe (pos + 1) q0 p t (by rw [he]; rfl) (by omega) hp0 (Or.inr hreq') ht
                hbad
              rw [he] at this
              cases this
            cases ht2 : tokens[q0]? with
            | none =>
              rw [ht2] at hq
              simp only [ParseResult.pos?, Option.some.injEq] at hq
              omega
            | some t2 =>
              rw [ht2] at hq
              simp only [] at hq
              by_cases hc : t2.tipo = .PAREN_CIERRA
              · simp only [hc, if_true, ParseResult.pos?, Option.some.injEq] at hq
                have : p = q0 + 1 := by omega
                subst this
                exact absurd hreq' (not_requiresFactor_after ht2
                  (by rw [hc]; rfl))
              · simp only [hc, if_false, ParseResult.pos?, Option.some.injEq] at hq
                omega
        case NUMERO valor =>
          simp only [ParseResult.pos?, Option.some.injEq] at hq
          rcases Nat.lt_or_ge pos p with h | h
          · have : p = pos + 1 := by omega
            subst this
            rcases hreq with h' | h'
            · omega
            · exact absurd h' (not_requiresFactor_after htok rfl)
          · have : p = pos := by omega
            subst this
            rw [htok] at ht
            cases ht
            simp [Token.tipo, Tipo.startsFactor] at hbad
        case IDENTIFICADOR valor =>
          simp only [ParseResult.pos?, Option.some.injEq] at hq
          rcases Nat.lt_or_ge pos p with h | h
          · have : p = pos + 1 := by omega
            subst this
            rcases hreq with h' | h'
            · omega
            · exact absurd h' (not_requiresFactor_after htok rfl)
          · have : p = pos := by omega
            subst this
            rw [htok] at ht
            cases ht
            simp [Token.tipo, Tipo.startsFactor] at hbad
        all_goals
          simp only [ParseResult.pos?, Option.some.injEq] at hq
          have : p = pos := by omega
          subst this
          rfl
    · intro pos node
      rw [termLoop_succ]
      cases htok : tokens[pos]? with
      | none =>
        intro q p t hq hlt hle _ _ _
        simp only [ParseResult.pos?, Option.some.injEq] at hq
        omega
      | some token =>
        simp only []
        by_cases hop : token.tipo = .MULTIPLICACION ∨ token.tipo = .DIVISION
        · simp only [hop, if_true]
          exact loopStops_step tokens pos _ _ (ihf (pos + 1)) (fun node' q1 _ => ihtl q1 _)
        · simp only [hop, if_false]
          intro q p t hq hlt hle _ _ _
          simp only [ParseResult.pos?, Option.some.injEq] at hq
          omega
    · intro pos
      rw [term]
      exact callStops_step tokens pos _ _ (ihf pos)
        (fun node q1 h => ⟨hprog.1 _ _ _ h, ihtl q1 node⟩)
    · intro pos node
      rw [exprLoop_succ]
      cases htok : tokens[pos]? with
      | none =>
        intro q p t hq hlt hle _ _ _
        simp only [ParseResult.pos?, Option.some.injEq] at hq
        omega
      | some token =>
        simp only []
        by_cases hop : token.tipo = .SUMA ∨ token.tipo = .RESTA
        · simp only [hop, if_true]
          exact loopStops_step tokens pos _ _ (iht (pos + 1)) (fun node' q1 _ => ihel q1 _)
        · simp only [hop, if_false]
          intro q p t hq hlt hle _ _ _
          simp only [ParseResult.pos?, Option.some.injEq] at hq
          omega
    · intro pos
      rw [expr]
      exact callStops_step tokens pos _ _ (iht pos)
        (fun node q1 h => ⟨hprog.2.2.1 _ _ _ h, ihel q1 node⟩)

theorem eat_ok {α : Type} {tokens : List (Token α)} {pos pos' : Nat} {tipo : Tipo}
    (h : eat tokens pos tipo = .ok pos') :
    pos' = pos + 1 ∧ ∃ s, tokens[pos]? = some s ∧ s.tipo = tipo := by
  unfold eat at h
  cases hs : tokens[pos]? with
  | none => rw [hs] at h; cases h
  | some s =>
    rw [hs] at h
    simp only [] at h
    by_cases ht : s.tipo = tipo
    · simp only [ht, if_true] at h
      cases h
      exact ⟨rfl, s, rfl, ht⟩
    · simp only [ht, if_false] at h
      cases h

/-- The rule of the expected factor holds for `assignment`. -/
theorem assignment_expected_factor {α : Type} (tokens : List (Token α)) :
    CallStops tokens 0 (assignment tokens) := by
  have hexpr := (parser_expected_factor tokens (parseFuel tokens)).2.2.2.2
  unfold assignment
  cases h0 : (tokens[0]? : Option (Token α)) with
  | none =>
    intro q p t hq hge hle hreq ht hbad
    simp only [ParseResult.pos?, Option.some.injEq] at hq
    have : p = 0 := by omega
    subst this
    rw [h0] at ht
    cases ht
  | some token =>
    cases token
    case IDENTIFICADOR valor =>
      simp only [eat_of_tipo .IDENTIFICADOR h0 rfl]
      intro q p t hq hge hle hreq ht hbad
      have hp0 : p ≠ 0 := by
        intro hp
        subst hp
        rw [h0] at ht
        cases ht
        simp [Token.tipo, Tipo.startsFactor] at hbad
      have hreq' : RequiresFactor tokens p := by
        rcases hreq with h | h
        · exact absurd h hp0
        · exact h
      have hp1 : p ≠ 1 := by
        intro hp
        subst hp
        exact not_requiresFactor_after h0 rfl hreq'
      cases h1 : eat tokens (0 + 1) .IGUAL with
      | error e =>
        rw [h1] at hq
        simp only [ParseResult.pos?, Option.some.injEq] at hq
        omega
      | ok pos2 =>
        rw [h1] at hq
        simp only [] at hq ⊢
        obtain ⟨hpos2, _⟩ := eat_ok h1
        subst hpos2
        cases he : expr (parseFuel tokens) tokens (0 + 1 + 1) with
        | outOfFuel => rw [he] at hq; cases hq
        | error e q0 =>
          rw [he] at hq
          simp only [ParseResult.pos?, Option.some.injEq] at hq
          subst hq
          have := hexpr (0 + 1 + 1) q0 p t (by rw [he]; rfl) (by omega) hle (Or.inr hreq') ht
            hbad
          rw [he] at this
          exact this
        | ok node q0 =>
          rw [he] at hq
          simp only [] at hq ⊢
          have hcontra : ¬ p ≤ q0 := by
            intro hp
            have := hexpr (0 + 1 + 1) q0 p t (by rw [he]; rfl) (by omega) hp (Or.inr hreq') ht
              hbad
            rw [he] at this
            cases this
          cases h3 : eat tokens q0 .PUNTO_Y_COMA with
          | error e =>
            rw [h3] at hq
            simp only [ParseResult.pos?, Option.some.injEq] at hq
            omega
          | ok pos4 =>
            rw [h3] at hq
            simp only [ParseResult.pos?, Option.some.injEq] at hq
            obtain ⟨hpos4, s, hs, hstipo⟩ := eat_ok h3
            have : p = q0 + 1 := by omega
            subst this
            exact absurd hreq' (not_requiresFactor_after hs (by rw [hstipo]; rfl))
    all_goals exact hexpr 0

/-- The rule of the expected factor holds for `parse`. -/
theorem parse_expected_factor {α : Type} (tokens : List (Token α)) :
    CallStops tokens 0 (parse tokens) := by
  have hassign := assignment_expected_factor tokens
  intro q p t hq hge hle hreq ht hbad
  unfold parse at hq ⊢
  cases ha : assignment tokens with
  | outOfFuel => rw [ha] at hq; cases hq
  | error e qa =>
    rw [ha] at hq
    simp only [ParseResult.pos?, Option.some.injEq] at hq
    subst hq
    have := hassign qa p t (by rw [ha]; rfl) hge hle hreq ht hbad
    rw [ha] at this
    exact this
  | ok node qa =>
    rw [ha] at hq
    simp only [] at hq ⊢
    have hqa : q = qa := by
      cases htq : tokens[qa]? with
      | none =>
        rw [htq] at hq
        simp only [ParseResult.pos?, Option.some.injEq] at hq
        exact hq.symm
      | some tq =>
        rw [htq] at hq
        simp only [] at hq
        split at hq <;> simp only [ParseResult.pos?, Option.some.injEq] at hq <;> exact hq.symm
    subst hqa
    have := hassign q p t (by rw [ha]; rfl) hge hle hreq ht hbad
    rw [ha] at this
    cases this

/-- A term that was parsed ends before a token that is neither `*` nor `/`. -/
theorem termLoop_ends {α : Type} (tokens : List (Token α)) : ∀ (n : Nat) (pos : Nat)
    (node0 node : ASTNode α) (q : Nat),
    termLoop n tokens node0 pos = .ok node q → EndsTerm tokens q := by
  intro n
  induction n with
  | zero => intro pos node0 node q h; simp [termLoop] at h
  | succ n ih =>
    intro pos node0 node q h
    rw [termLoop_succ] at h
    cases ht : tokens[pos]? with
    | none => rw [ht] at h; cases h
    | some token =>
      rw [ht] at h
      simp only [] at h
      by_cases hop : token.tipo = .MULTIPLICACION ∨ token.tipo = .DIVISION
      · simp only [hop, if_true] at h
        cases hf : factor n tokens (pos + 1) with
        | ok der q1 => rw [hf] at h; exact ih _ _ _ _ h
        | error e p => rw [hf] at h; cases h
        | outOfFuel => rw [hf] at h; cases h
      · simp only [hop, if_false] at h
        cases h
        exact ⟨token, ht, hop⟩

theorem term_ends {α : Type} (tokens : List (Token α)) (n pos : Nat) (node : ASTNode α)
    (q : Nat) (h : term n tokens pos = .ok node q) : EndsTerm tokens q := by
  cases n with
  | zero => simp [term] at h
  | succ n =>
    rw [term] at h
    cases hf : factor n tokens pos with
    | ok node1 q1 => rw [hf] at h; exact termLoop_ends tokens n _ _ _ _ h
    | error e p => rw [hf] at h; cases h
    | outOfFuel => rw [hf] at h; cases h

theorem AgreeOn.mono {α : Type} {tokens1 tokens2 : List (Token α)} {shift lo hi lo' hi' : Nat}
    (h : AgreeOn tokens1 tokens2 shift lo hi) (hlo : lo ≤ lo') (hhi : hi' ≤ hi) :
    AgreeOn tokens1 tokens2 shift lo' hi' :=
  fun i h1 h2 => h i (by omega) (by omega)

theorem EndsExpr.endsTerm {α : Type} {tokens : List (Token α)} {pos : Nat}
    (h : EndsExpr tokens pos) : EndsTerm tokens pos := by
  obtain ⟨t, ht, h1, _⟩ := h
  exact ⟨t, ht, h1⟩

/-- What a method parsed depends only on the tokens it went over and on the token it stopped
before ending its rule: on a second token list that holds the same tokens, `shift` places
further on, and ends the rule in the same place, the method returns the same tree. -/
theorem parser_transfer {α : Type} (tokens1 tokens2 : List (Token α)) (shift : Nat) :
    ∀ (n : Nat),
    (∀ pos node q, factor n tokens1 pos = .ok node q → AgreeOn tokens1 tokens2 shift pos q →
      factor n tokens2 (pos + shift) = .ok node (q + shift)) ∧
    (∀ pos node0 node q, termLoop n tokens1 node0 pos = .ok node q →
      AgreeOn tokens1 tokens2 shift pos q → EndsTerm tokens2 (q + shift) →
      termLoop n tokens2 node0 (pos + shift) = .ok node (q + shift)) ∧
    (∀ pos node q, term n tokens1 pos = .ok node q → AgreeOn tokens1 tokens2 shift pos q →
      EndsTerm tokens2 (q + shift) → term n tokens2 (pos + shift) = .ok node (q + shift)) ∧
    (∀ pos node0 node q, exprLoop n tokens1 node0 pos = .ok node q →
      AgreeOn tokens1 tokens2 shift pos q → EndsExpr tokens2 (q + shift) →
      exprLoop n tokens2 node0 (pos + shift) = .ok node (q + shift)) ∧
    (∀ pos node q, expr n tokens1 pos = .ok node q → AgreeOn tokens1 tokens2 shift pos q →
      EndsExpr tokens2 (q + shift) → expr n tokens2 (pos + shift) = .ok node (q + shift)) := by
  intro n
  induction n with
  | zero => simp [factor, termLoop, term, exprLoop, expr]
  | succ n ih =>
    obtain ⟨ihf, ihtl, iht, ihel, ihe⟩ := ih
    have hprog := parser_progress tokens1 n
    refine ⟨?_, ?_, ?_, ?_, ?_⟩
    · intro pos node q h hag
      have hq : pos < q := (parser_progress tokens1 (n + 1)).1 _ _ _ h
      have h0 : tokens2[pos + shift]? = tokens1[pos]? := hag pos (Nat.le_refl _) hq
      rw [factor_succ] at h ⊢
      rw [h0]
      cases ht : tokens1[pos]? with
      | none => rw [ht] at h; cases h
      | some token =>
        rw [ht] at h
        cases token
        case NUMERO valor => simp only [] at h ⊢; cases h; rw [Nat.add_right_comm]
        case IDENTIFICADOR valor => simp only [] at h ⊢; cases h; rw [Nat.add_right_comm]
        case PAREN_ABRE =>
          simp only [] at h ⊢
          cases he : expr n tokens1 (pos + 1) with
          | outOfFuel => rw [he] at h; cases h
          | error e p => rw [he] at h; cases h
          | ok result q0 =>
            rw [he] at h
            simp only [] at h
            cases ht2 : tokens1[q0]? with
            | none => rw [ht2] at h; cases h
            | some t2 =>
              rw [ht2] at h
              simp only [] at h
              by_cases hc : t2.tipo = .PAREN_CIERRA
              · simp only [hc, if_true] at h
                cases h
                have hq0 : tokens2[q0 + shift]? = some t2 := by
                  rw [hag q0 (by have := hprog.2.2.2.2 _ _ _ he; omega) (by omega), ht2]
                have hend : EndsExpr tokens2 (q0 + shift) :=
                  ⟨t2, hq0, by rw [hc]; decide, by rw [hc]; decide⟩
                have := ihe (pos + 1) _ q0 he (hag.mono (by omega) (by omega)) hend
                rw [Nat.add_right_comm] at this
                rw [this]
                simp only [hq0, hc, if_true]
                rw [Nat.add_right_comm]
              · simp only [hc, if_false] at h
                cases h
        all_goals (simp only [] at h; cases h)
    · intro pos node0 node q h hag hend
      rw [termLoop_succ] at h ⊢
      cases ht : tokens1[pos]? with
      | none => rw [ht] at h; cases h
      | some token =>
        rw [ht] at h
        simp only [] at h
        by_cases hop : token.tipo = .MULTIPLICACION ∨ token.tipo = .DIVISION
        · simp only [hop, if_true] at h
          cases hf : factor n tokens1 (pos + 1) with
          | outOfFuel => rw [hf] at h; cases h
          | error e p => rw [hf] at h; cases h
          | ok der q1 =>
            rw [hf] at h
            simp only [] at h
            have hq1 : pos + 1 < q1 := hprog.1 _ _ _ hf
            have hqq : q1 ≤ q := hprog.2.1 _ _ _ _ h
            rw [hag pos (Nat.le_refl _) (by omega), ht]
            simp only [hop, if_true]
            have := ihf (pos + 1) der q1 hf (hag.mono (by omega) hqq)
            rw [Nat.add_right_comm] at this
            rw [this]
            exact ihtl q1 _ node q h (hag.mono (by omega) (Nat.le_refl _)) hend
        · simp only [hop, if_false] at h
          cases h
          obtain ⟨t', ht', hnop⟩ := hend
          simp only [ht', hnop, if_false]
    · intro pos node q h hag hend
      rw [term] at h ⊢
      cases hf : factor n tokens1 pos with
      | outOfFuel => rw [hf] at h; cases h
      | error e p => rw [hf] at h; cases h
      | ok node1 q1 =>
        rw [hf] at h
        simp only [] at h
        have hq1 : pos < q1 := hprog.1 _ _ _ hf
        have hqq : q1 ≤ q := hprog.2.1 _ _ _ _ h
        rw [ihf pos node1 q1 hf (hag.mono (Nat.le_refl _) hqq)]
        exact ihtl q1 _ node q h (hag.mono (by omega) (Nat.le_refl _)) hend
    · intro pos node0 node q h hag hend
      rw [exprLoop_succ] at h ⊢
      cases ht : tokens1[pos]? with
      | none => rw [ht] at h; cases h
      | some token =>
        rw [ht] at h
        simp only [] at h
        by_cases hop : token.tipo = .SUMA ∨ token.tipo = .RESTA
        · simp only [hop, if_true] at h
          cases hf : term n tokens1 (pos + 1) with
          | outOfFuel => rw [hf] at h; cases h
          | error e p => rw [hf] at h; cases h
          | ok der q1 =>
            rw [hf] at h
            simp only [] at h
            have hq1 : pos + 1 < q1 := hprog.2.2.1 _ _ _ hf
            have hqq : q1 ≤ q := hprog.2.2.2.1 _ _ _ _ h
            rw [hag pos (Nat.le_refl _) (by omega), ht]
            simp only [hop, if_true]
            have hend1 : EndsTerm tokens2 (q1 + shift) := by
              rcases Nat.lt_or_ge q1 q with hlt | hge
              · obtain ⟨t, ht1, hnop⟩ := term_ends tokens1 n _ _ _ hf
                exact ⟨t, by rw [hag q1 (by omega) hlt, ht1], hnop⟩
              · have : q1 = q := by omega
                subst this
                exact hend.endsTerm
            have := iht (pos + 1) der q1 hf (hag.mono (by omega) hqq) hend1
            rw [Nat.add_right_comm] at this
            rw [this]
            exact ihel q1 _ node q h (hag.mono (by omega) (Nat.le_refl _)) hend
        · simp only [hop, if_false] at h
          cases h
          obtain ⟨t', ht', _, hnop⟩ := hend
          simp only [ht', hnop, if_false]
    · intro pos node q h hag hend
      rw [expr] at h ⊢
      cases hf : term n tokens1 pos with
      | outOfFuel => rw [hf] at h; cases h
      | error e p => rw [hf] at h; cases h
      | ok node1 q1 =>
        rw [hf] at h
        simp only [] at h
        have hq1 : pos < q1 := hprog.2.2.1 _ _ _ hf
        have hqq : q1 ≤ q := hprog.2.2.2.1 _ _ _ _ h
        have hend1 : EndsTerm tokens2 (q1 + shift) := by
          rcases Nat.lt_or_ge q1 q with hlt | hge
          · obtain ⟨t, ht1, hnop⟩ := term_ends tokens1 n _ _ _ hf
            exact ⟨t, by rw [hag q1 (by omega) hlt, ht1], hnop⟩
          · have : q1 = q := by omega
            subst this
            exact hend.endsTerm
        rw [iht pos node1 q1 hf (hag.mono (Nat.le_refl _) hqq) hend1]
        exact ihel q1 _ node q h (hag.mono (by omega) (Nat.le_refl _)) hend

/-! ## Facts about the evaluator -/

theorem Outcome.throws_ne {α : Type} {e1 e2 : Error} {v1 v2 : Variables α} (h : e1 ≠ e2) :
    Outcome.throws e1 v1 ≠ Outcome.throws e2 v2 := by
  intro heq
  injection heq with h1 h2
  exact h h1

/-- Evaluating a tree without `ASIGNACION` leaves the variables as they were, whether it
returns or throws. -/
theorem eval_pure {α : Type} (A : Arith α) : ∀ (node : ASTNode α) (vars : Variables α),
    node.hasAsignacion = false →
    (∀ v vars', eval A node vars = .returns v vars' → vars' = vars) ∧
    (∀ e vars', eval A node vars = .throws e vars' → vars' = vars) := by
  intro node
  induction node with
  | NUMERO valor =>
    intro vars _
    constructor
    · intro v vars' h; simp only [eval] at h; cases h; rfl
    · intro e vars' h; simp only [eval] at h; cases h
  | VARIABLE valor =>
    intro vars _
    constructor
    · intro v vars' h
      simp only [eval] at h
      cases hv : vars valor with
      | some value => rw [hv] at h; cases h; rfl
      | none =>
        rw [hv] at h
        simp only [] at h
        split at h <;> cases h
    · intro e vars' h
      simp only [eval] at h
      cases hv : vars valor with
      | some value => rw [hv] at h; cases h
      | none =>
        rw [hv] at h
        simp only [] at h
        split at h
        · cases h
        · cases h; rfl
  | ASIGNACION valor izq _ =>
    intro vars h
    simp [ASTNode.hasAsignacion] at h
  | operador tipo izq der ihi ihd =>
    intro vars h
    simp only [ASTNode.hasAsignacion, Bool.or_eq_false_iff] at h
    have hi := ihi vars h.1
    constructor
    · intro v vars' he
      simp only [eval] at he
      cases h1 : eval A izq vars with
      | returns l vars1 =>
        have e1 := hi.1 _ _ h1
        subst e1
        rw [h1] at he
        simp only [] at he
        have hd := ihd vars1 h.2
        cases h2 : eval A der vars1 with
        | returns r vars2 =>
          have e2 := hd.1 _ _ h2
          subst e2
          rw [h2] at he
          cases tipo <;> simp only [] at he <;> try (first | (cases he; rfl) | cases he)
          split at he
          · cases he
          · cases he; rfl
        | throws e vars2 => rw [h2] at he; cases he
        | nonNumber p => rw [h2] at he; cases he
        | outOfFuel => rw [h2] at he; cases he
      | throws e vars1 => rw [h1] at he; cases he
      | nonNumber p => rw [h1] at he; cases he
      | outOfFuel => rw [h1] at he; cases he
    · intro e vars' he
      simp only [eval] at he
      cases h1 : eval A izq vars with
      | returns l vars1 =>
        have e1 := hi.1 _ _ h1
        subst e1
        rw [h1] at he
        simp only [] at he
        have hd := ihd vars1 h.2
        cases h2 : eval A der vars1 with
        | returns r vars2 =>
          have e2 := hd.1 _ _ h2
          subst e2
          rw [h2] at he
          cases tipo <;> simp only [] at he <;> try cases he
          split at he
          · cases he; rfl
          · cases he
        | throws e2 vars2 =>
          rw [h2] at he
          cases he
          exact hd.2 _ _ h2
        | nonNumber p => rw [h2] at he; cases he
        | outOfFuel => rw [h2] at he; cases he
      | throws e1 vars1 =>
        rw [h1] at he
        cases he
        exact hi.2 _ _ h1
      | nonNumber p => rw [h1] at he; cases he
      | outOfFuel => rw [h1] at he; cases he

/-- For every name but `__proto__` the assignment binds the name: the store afterwards holds
`v` under `name` and everything else as before. -/
theorem assign_eq_set {α : Type} (vars : Variables α) (name : String) (v : α)
    (hname : name ≠ "__proto__") : vars.assign name v = vars.set name v := by
  simp [Variables.assign, hname]

/-! ## Facts about the whole pipeline -/

/-- An assignment statement: if the text `E` scans to tokens that `expr` parses completely
into a tree, and that tree evaluates to `v` on the store, then the input `name = E;` returns
`v` and leaves the store with `this.variables[name] = v` carried out. -/
theorem assignment_statement {α : Type} (A : Arith α) (name text : String)
    (vars vars' : Variables α) (tokensE : List (Token α)) (e : ASTNode α) (v : α)
    (hname : isIdentifier name = true)
    (hlex : lexer A text = .ok (tokensE ++ [.EOF]))
    (hexpr : expr (parseFuel (tokensE ++ [.EOF])) (tokensE ++ [.EOF]) 0 = .ok e tokensE.length)
    (heval : eval A e vars = .returns v vars') :
    vars' = vars ∧
    evaluateLine A (name ++ " = " ++ text ++ ";") vars = .returns v (vars.assign name v) := by
  have hfree : e.hasAsignacion = false :=
    (parser_no_asignacion _ _).2.2.2.2 _ _ _ hexpr
  have hsame : vars' = vars := (eval_pure A e vars hfree).1 _ _ heval
  rw [hsame] at heval
  refine ⟨hsame, ?_⟩
  let tokens2 : List (Token α) :=
    .IDENTIFICADOR name :: .IGUAL :: (tokensE ++ [.PUNTO_Y_COMA, .EOF])
  have hag : AgreeOn (tokensE ++ [.EOF]) tokens2 2 0 tokensE.length := by
    intro i _ hi
    show (Token.IDENTIFICADOR name :: .IGUAL :: (tokensE ++ [.PUNTO_Y_COMA, .EOF]))[i + 2]? = _
    simp only [List.getElem?_cons_succ]
    rw [List.getElem?_append_left hi, List.getElem?_append_left hi]
  have hsemi : tokens2[tokensE.length + 2]? = some .PUNTO_Y_COMA := by
    show (Token.IDENTIFICADOR name :: .IGUAL :: (tokensE ++ [.PUNTO_Y_COMA, .EOF]))[
      tokensE.length + 2]? = _
    simp only [List.getElem?_cons_succ]
    rw [List.getElem?_append_right (Nat.le_refl _)]
    simp
  have heof : tokens2[tokensE.length + 2 + 1]? = some .EOF := by
    show (Token.IDENTIFICADOR name :: .IGUAL :: (tokensE ++ [.PUNTO_Y_COMA, .EOF]))[
      tokensE.length + 2 + 1]? = _
    rw [show tokensE.length + 2 + 1 = (tokensE.length + 1) + 1 + 1 from rfl]
    simp only [List.getElem?_cons_succ]
    rw [List.getElem?_append_right (Nat.le_succ _)]
    simp
  have hend : EndsExpr tokens2 (tokensE.length + 2) :=
    ⟨.PUNTO_Y_COMA, hsemi, by simp [Token.tipo], by simp [Token.tipo]⟩
  have h1 := (parser_transfer (tokensE ++ [.EOF]) tokens2 2 _).2.2.2.2 0 e tokensE.length
    hexpr hag hend
  have h2 : expr (parseFuel tokens2) tokens2 2 = .ok e (tokensE.length + 2) := by
    rw [expr_fuel_mono tokens2 2 (parseFuel (tokensE ++ [.EOF])) (parseFuel tokens2)
      (by simp [parseFuel, tokens2]) (by rw [h1]; simp)]
    exact h1
  have hparse : parse tokens2 = .ok (.ASIGNACION name e) (tokensE.length + 2 + 1) := by
    have ha : assignment tokens2 = .ok (.ASIGNACION name e) (tokensE.length + 2 + 1) := by
      unfold assignment
      have h0 : (tokens2[0]? : Option (Token α)) = some (.IDENTIFICADOR name) := rfl
      have hIG : tokens2[0 + 1]? = some Token.IGUAL := by simp [tokens2]
      simp only [h0, eat_of_tipo .IDENTIFICADOR h0 rfl, eat_of_tipo .IGUAL hIG rfl, h2,
        eat_of_tipo .PUNTO_Y_COMA hsemi rfl]
    unfold parse
    rw [ha]
    simp only [heof, Token.tipo, ne_eq, not_true_eq_false, if_false]
  unfold evaluateLine
  rw [lexer_assignment A name text tokensE hname hlex]
  show (match parse tokens2 with
    | .ok ast _ => eval A ast vars
    | .error e _ => .throws e vars
    | .outOfFuel => .outOfFuel) = _
  rw [hparse]
  simp only [eval, heval]

/-- Where the parser does reach a variable: for every identifier x and every store, the input
"(x) + 1" (the identifier in parentheses, so that the statement does not start with it, and no
`;`) returns the stored value of x plus 1 when x is an own property of the store, and throws
the undefined-variable error for x when x is not stored and is not a name inherited from
`Object.prototype`. -/
theorem variable_in_parentheses_plus_one {α : Type} (A : Arith α) (x : String) (vars : Variables α)
    (hx : isIdentifier x = true) :
    (∀ v, vars x = some v →
      evaluateLine A ("(" ++ x ++ ") + 1") vars
        = .returns (A.add v (A.parseFloat "1")) vars) ∧
    (vars x = none → x ∉ objectPrototypeNames →
      evaluateLine A ("(" ++ x ++ ") + 1") vars = .throws (.undefinedVariable x) vars) := by
  obtain ⟨_, h2⟩ := lexer_variable_plus_one A x hx
  refine ⟨?_, ?_⟩
  · intro v hv
    unfold evaluateLine
    rw [h2]
    simp [parse, assignment, parseFuel, expr, term, factor, exprLoop, termLoop, eat, Token.tipo,
      eval, hv]
  · intro hnone hproto
    unfold evaluateLine
    rw [h2]
    simp [parse, assignment, parseFuel, expr, term, factor, exprLoop, termLoop, eat, Token.tipo,
      eval, hnone, hproto]

/-- One session on one `Evaluator`: "x = 5;" returns 5 and binds x, after which "(x) + 1"
returns 6. Through `analizar`, which builds a new `Evaluator` for every call, the binding is
gone and the second input reports x as undefined. -/
theorem session_x_5 :
    evaluateLine ratArith "x = 5;" Variables.empty = .returns 5 (Variables.empty.set "x" 5) ∧
    evaluateLine ratArith "(x) + 1" (Variables.empty.set "x" 5)
      = .returns 6 (Variables.empty.set "x" 5) ∧
    analizar ratArith "(x) + 1" = .throws (.undefinedVariable "x") Variables.empty := by
  have h5 : ratArith.parseFloat "5" = 5 := by simp [ratArith, decimalValue, digitsValue]
  have h := assignment_statement ratArith "x" "5" Variables.empty Variables.empty
    [.NUMERO (ratArith.parseFloat "5")] (.NUMERO (ratArith.parseFloat "5"))
    (ratArith.parseFloat "5") (by decide) rfl rfl rfl
  have hlex := (lexer_variable_plus_one ratArith "x" (by decide)).2
  refine ⟨?_, ?_, ?_⟩
  · have := h.2
    rw [assign_eq_set _ _ _ (by decide), h5] at this
    exact this
  · show evaluateLine ratArith ("(" ++ "x" ++ ") + 1") _ = _
    unfold evaluateLine
    rw [hlex]
    simp [parse, assignment, parseFuel, expr, term, factor, exprLoop, termLoop, eat, Token.tipo,
      eval, Variables.set, ratArith, decimalValue, digitsValue]
    norm_num
  · show evaluateLine ratArith ("(" ++ "x" ++ ") + 1") _ = _
    unfold evaluateLine
    rw [hlex]
    simp [parse, assignment, parseFuel, expr, term, factor, exprLoop, termLoop, eat, Token.tipo,
      eval, Variables.empty, objectPrototypeNames]

/-- What `parse` returns: a tree without `ASIGNACION`, or one `ASIGNACION` at the root over a
tree without `ASIGNACION`. -/
theorem parse_shape {α : Type} (tokens : List (Token α)) (ast : ASTNode α) (pos : Nat)
    (hparse : parse tokens = .ok ast pos) :
    ast.hasAsignacion = false ∨
      ∃ name izq, ast = .ASIGNACION name izq ∧ izq.hasAsignacion = false := by
  have hexpr := (parser_no_asignacion tokens (parseFuel tokens)).2.2.2.2
  have hassign : assignment tokens = .ok ast pos := by
    unfold parse at hparse
    cases ha : assignment tokens with
    | ok node q =>
      rw [ha] at hparse
      simp only [] at hparse
      cases ht : tokens[q]? with
      | none => rw [ht] at hparse; cases hparse
      | some token =>
        rw [ht] at hparse
        simp only [] at hparse
        split at hparse
        · cases hparse
        · cases hparse; rfl
    | error e q => rw [ha] at hparse; cases hparse
    | outOfFuel => rw [ha] at hparse; cases hparse
  unfold assignment at hassign
  cases h0 : (tokens[0]? : Option (Token α)) with
  | none => rw [h0] at hassign; cases hassign
  | some token =>
    rw [h0] at hassign
    cases token
    case IDENTIFICADOR valor =>
      simp only [eat_of_tipo .IDENTIFICADOR h0 rfl] at hassign
      cases h1 : eat tokens (0 + 1) .IGUAL with
      | error e => rw [h1] at hassign; cases hassign
      | ok pos2 =>
        rw [h1] at hassign
        simp only [] at hassign
        cases he : expr (parseFuel tokens) tokens pos2 with
        | outOfFuel => rw [he] at hassign; cases hassign
        | error e p => rw [he] at hassign; cases hassign
        | ok node pos3 =>
          rw [he] at hassign
          simp only [] at hassign
          cases h3 : eat tokens pos3 .PUNTO_Y_COMA with
          | error e => rw [h3] at hassign; cases hassign
          | ok pos4 =>
            rw [h3] at hassign
            cases hassign
            exact Or.inr ⟨_, _, rfl, hexpr _ _ _ he⟩
    all_goals exact Or.inl (hexpr _ _ _ hassign)

/-- A statement that starts with an identifier not followed by `=` is rejected where `=` is
expected, whatever follows. -/
theorem parse_leading_identifier {α : Type} (name : String) (t : Token α)
    (rest : List (Token α)) (ht : t.tipo ≠ .IGUAL) :
    parse (.IDENTIFICADOR name :: t :: rest) = .error (.unexpectedToken .IGUAL t.tipo) 1 := by
  have hid : (Token.IDENTIFICADOR name : Token α).tipo = .IDENTIFICADOR := rfl
  simp [parse, assignment, eat, hid, ht]

/-- Reading a variable: the stored number when the name is an own property of the store;
otherwise the inherited member for a name of `Object.prototype`, and the undefined-variable
error for every other name. -/
theorem eval_variable {α : Type} (A : Arith α) (name : String) (vars : Variables α) :
    (∀ v, vars name = some v → eval A (.VARIABLE name) vars = .returns v vars) ∧
    (vars name = none → name ∈ objectPrototypeNames →
      eval A (.VARIABLE name) vars = .nonNumber (.inherited name)) ∧
    (vars name = none → name ∉ objectPrototypeNames →
      eval A (.VARIABLE name) vars = .throws (.undefinedVariable name) vars) := by
  refine ⟨?_, ?_, ?_⟩
  · intro v hv; simp [eval, hv]
  · intro hv hp; simp [eval, hv, hp]
  · intro hv hp; simp [eval, hv, hp]

/-- A result that one more unit of fuel does not change is not changed by any more fuel. -/
theorem fuel_mono_of_succ {α : Type} (f : Nat → ParseResult α)
    (hstep : ∀ n, f n ≠ .outOfFuel → f (n + 1) = f n) (n m : Nat) (hnm : n ≤ m)
    (h : f n ≠ .outOfFuel) : f m = f n := by
  induction m with
  | zero =>
    have : n = 0 := by omega
    subst this; rfl
  | succ m ih =>
    by_cases hn : n = m + 1
    · subst hn; rfl
    · have hm : f m = f n := ih (by omega)
      rw [hstep m (by rw [hm]; exact h), hm]

theorem factor_fuel_mono {α : Type} (tokens : List (Token α)) (pos n m : Nat) (hnm : n ≤ m)
    (h : factor n tokens pos ≠ .outOfFuel) : factor m tokens pos = factor n tokens pos :=
  fuel_mono_of_succ (fun k => factor k tokens pos)
    (fun k hk => (parser_fuel_succ tokens k).1 pos hk) n m hnm h

theorem termLoop_fuel_mono {α : Type} (tokens : List (Token α)) (node : ASTNode α)
    (pos n m : Nat) (hnm : n ≤ m) (h : termLoop n tokens node pos ≠ .outOfFuel) :
    termLoop m tokens node pos = termLoop n tokens node pos :=
  fuel_mono_of_succ (fun k => termLoop k tokens node pos)
    (fun k hk => (parser_fuel_succ tokens k).2.1 pos node hk) n m hnm h

theorem term_fuel_mono {α : Type} (tokens : List (Token α)) (pos n m : Nat) (hnm : n ≤ m)
    (h : term n tokens pos ≠ .outOfFuel) : term m tokens pos = term n tokens pos :=
  fuel_mono_of_succ (fun k => term k tokens pos)
    (fun k hk => (parser_fuel_succ tokens k).2.2.1 pos hk) n m hnm h

theorem exprLoop_fuel_mono {α : Type} (tokens : List (Token α)) (node : ASTNode α)
    (pos n m : Nat) (hnm : n ≤ m) (h : exprLoop n tokens node pos ≠ .outOfFuel) :
    exprLoop m tokens node pos = exprLoop n tokens node pos :=
  fuel_mono_of_succ (fun k => exprLoop k tokens node pos)
    (fun k hk => (parser_fuel_succ tokens k).2.2.2.1 pos node hk) n m hnm h

/-- A tree that `expr` returns with some fuel is the tree it returns with the fuel of
`parse`. -/
theorem expr_of_some_fuel {α : Type} (tokens : List (Token α)) (pos n : Nat)
    (node : ASTNode α) (q : Nat) (h : expr n tokens pos = .ok node q) :
    expr (parseFuel tokens) tokens pos = .ok node q := by
  have hne := expr_parseFuel_ne_outOfFuel tokens pos
  rcases Nat.le_total n (parseFuel tokens) with hle | hle
  · rw [expr_fuel_mono tokens pos n _ hle (by rw [h]; simp), h]
  · rw [← expr_fuel_mono tokens pos _ n hle hne, h]

/-- After `name =` and a token sequence that `expr` parses completely, a token that is no
binary operator ends the expression; `assignment` then requires `;` there. -/
theorem assignment_after_expr {α : Type} (name : String) (tokensE : List (Token α))
    (e : ASTNode α) (t : Token α) (rest : List (Token α)) (hexpr : ExprParsesAll tokensE e)
    (hop : t.tipo.isBinaryOperator = false) :
    expr (parseFuel (.IDENTIFICADOR name :: .IGUAL :: (tokensE ++ t :: rest)))
      (.IDENTIFICADOR name :: .IGUAL :: (tokensE ++ t :: rest)) 2
      = .ok e (tokensE.length + 2) := by
  obtain ⟨n, hn⟩ := hexpr
  have hag : AgreeOn (tokensE ++ [.EOF])
      (.IDENTIFICADOR name :: .IGUAL :: (tokensE ++ t :: rest)) 2 0 tokensE.length := by
    intro i _ hi
    simp only [List.getElem?_cons_succ]
    rw [List.getElem?_append_left hi, List.getElem?_append_left hi]
  have ht : (Token.IDENTIFICADOR name :: .IGUAL :: (tokensE ++ t :: rest))[
      tokensE.length + 2]? = some t := by
    simp only [List.getElem?_cons_succ]
    rw [List.getElem?_append_right (Nat.le_refl _)]
    simp
  have hend : EndsExpr (.IDENTIFICADOR name :: .IGUAL :: (tokensE ++ t :: rest))
      (tokensE.length + 2) := by
    refine ⟨t, ht, ?_, ?_⟩
    · rintro (h | h) <;> rw [h] at hop <;> cases hop
    · rintro (h | h) <;> rw [h] at hop <;> cases hop
  have h1 := (parser_transfer (tokensE ++ [.EOF]) _ 2 n).2.2.2.2 0 e tokensE.length hn hag hend
  exact expr_of_some_fuel _ _ n _ _ h1

/-- A `.` where a token should start is an unrecognized character. -/
theorem scan_dot {α : Type} (A : Arith α) (rest : List Char) (acc : List (Token α)) :
    scan A ('.' :: rest) acc = .error (.unrecognizedCharacter (.char '.')) := by
  rw [scan_cons]
  simp only [show isSpace '.' = false from by decide, show isIdentStart '.' = false from by decide,
    show isDigit '.' = false from by decide, Bool.false_eq_true, if_false]
  rfl

theorem hasAt_cons {α : Type} {tokens : List (Token α)} {pos : Nat} {a : Token α}
    {seg : List (Token α)} (h : HasAt tokens pos (a :: seg)) :
    tokens[pos]? = some a ∧ HasAt tokens (pos + 1) seg := by
  constructor
  · have := h 0 (by simp)
    simpa using this
  · intro i hi
    have := h (i + 1) (by simp; omega)
    rw [List.getElem?_cons_succ] at this
    rw [← this]
    congr 1
    omega

theorem hasAt_append {α : Type} {tokens : List (Token α)} {pos : Nat}
    {seg1 seg2 : List (Token α)} (h : HasAt tokens pos (seg1 ++ seg2)) :
    HasAt tokens pos seg1 ∧ HasAt tokens (pos + seg1.length) seg2 := by
  constructor
  · intro i hi
    have := h i (by simp; omega)
    rw [List.getElem?_append_left hi] at this
    exact this
  · intro i hi
    have := h (seg1.length + i) (by simp; omega)
    rw [List.getElem?_append_right (by omega)] at this
    rw [Nat.add_sub_cancel_left] at this
    rw [← this]
    congr 1
    omega

theorem hasAt_middle {α : Type} (front seg back : List (Token α)) :
    HasAt (front ++ (seg ++ back)) front.length seg := by
  intro i hi
  rw [List.getElem?_append_right (by omega), Nat.add_sub_cancel_left,
    List.getElem?_append_left hi]

theorem factorParses_numero {α : Type} {tokens : List (Token α)} {pos : Nat} {valor : α}
    (h : tokens[pos]? = some (.NUMERO valor)) :
    FactorParses tokens pos (.NUMERO valor) (pos + 1) :=
  ⟨1, by rw [factor_succ, h]⟩

theorem factorParses_identificador {α : Type} {tokens : List (Token α)} {pos : Nat}
    {valor : String} (h : tokens[pos]? = some (.IDENTIFICADOR valor)) :
    FactorParses tokens pos (.VARIABLE valor) (pos + 1) :=
  ⟨1, by rw [factor_succ, h]⟩

theorem factorParses_paren {α : Type} {tokens : List (Token α)} {pos q : Nat}
    {node : ASTNode α} (h : tokens[pos]? = some .PAREN_ABRE)
    (he : ExprParses tokens (pos + 1) node q) (hq : tokens[q]? = some .PAREN_CIERRA) :
    FactorParses tokens pos node (q + 1) := by
  obtain ⟨n, hn⟩ := he
  refine ⟨n + 1, ?_⟩
  rw [factor_succ, h]
  simp only [hn, hq]
  rfl

theorem termLoopParses_stop {α : Type} {tokens : List (Token α)} {pos : Nat}
    {node : ASTNode α} {t : Token α} (h : tokens[pos]? = some t)
    (hop : ¬ (t.tipo = .MULTIPLICACION ∨ t.tipo = .DIVISION)) :
    TermLoopParses tokens node pos node pos :=
  ⟨1, by rw [termLoop_succ, h]; simp only [hop, if_false]⟩

theorem termLoopParses_step {α : Type} {tokens : List (Token α)} {pos q1 q : Nat}
    {node der res : ASTNode α} {t : Token α} (h : tokens[pos]? = some t)
    (hop : t.tipo = .MULTIPLICACION ∨ t.tipo = .DIVISION)
    (hf : FactorParses tokens (pos + 1) der q1)
    (hl : TermLoopParses tokens (.operador t.tipo node der) q1 res q) :
    TermLoopParses tokens node pos res q := by
  obtain ⟨n1, h1⟩ := hf
  obtain ⟨n2, h2⟩ := hl
  refine ⟨max n1 n2 + 1, ?_⟩
  rw [termLoop_succ, h]
  simp only [hop, if_true]
  rw [factor_fuel_mono tokens _ n1 _ (Nat.le_max_left _ _) (by rw [h1]; simp), h1]
  simp only []
  rw [termLoop_fuel_mono tokens _ _ n2 _ (Nat.le_max_right _ _) (by rw [h2]; simp), h2]

theorem termParses_of {α : Type} {tokens : List (Token α)} {pos q1 q : Nat}
    {node res : ASTNode α} (hf : FactorParses tokens pos node q1)
    (hl : TermLoopParses tokens node q1 res q) : TermParses tokens pos res q := by
  obtain ⟨n1, h1⟩ := hf
  obtain ⟨n2, h2⟩ := hl
  refine ⟨max n1 n2 + 1, ?_⟩
  rw [term]
  rw [factor_fuel_mono tokens _ n1 _ (Nat.le_max_left _ _) (by rw [h1]; simp), h1]
  simp only []
  rw [termLoop_fuel_mono tokens _ _ n2 _ (Nat.le_max_right _ _) (by rw [h2]; simp), h2]

theorem exprLoopParses_stop {α : Type} {tokens : List (Token α)} {pos : Nat}
    {node : ASTNode α} {t : Token α} (h : tokens[pos]? = some t)
    (hop : ¬ (t.tipo = .SUMA ∨ t.tipo = .RESTA)) :
    ExprLoopParses tokens node pos node pos :=
  ⟨1, by rw [exprLoop_succ, h]; simp only [hop, if_false]⟩

theorem exprLoopParses_step {α : Type} {tokens : List (Token α)} {pos q1 q : Nat}
    {node der res : ASTNode α} {t : Token α} (h : tokens[pos]? = some t)
    (hop : t.tipo = .SUMA ∨ t.tipo = .RESTA)
    (hf : TermParses tokens (pos + 1) der q1)
    (hl : ExprLoopParses tokens (.operador t.tipo node der) q1 res q) :
    ExprLoopParses tokens node pos res q := by
  obtain ⟨n1, h1⟩ := hf
  obtain ⟨n2, h2⟩ := hl
  refine ⟨max n1 n2 + 1, ?_⟩
  rw [exprLoop_succ, h]
  simp only [hop, if_true]
  rw [term_fuel_mono tokens _ n1 _ (Nat.le_max_left _ _) (by rw [h1]; simp), h1]
  simp only []
  rw [exprLoop_fuel_mono tokens _ _ n2 _ (Nat.le_max_right _ _) (by rw [h2]; simp), h2]

theorem exprParses_of {α : Type} {tokens : List (Token α)} {pos q1 q : Nat}
    {node res : ASTNode α} (hf : TermParses tokens pos node q1)
    (hl : ExprLoopParses tokens node q1 res q) : ExprParses tokens pos res q := by
  obtain ⟨n1, h1⟩ := hf
  obtain ⟨n2, h2⟩ := hl
  refine ⟨max n1 n2 + 1, ?_⟩
  rw [expr]
  rw [term_fuel_mono tokens _ n1 _ (Nat.le_max_left _ _) (by rw [h1]; simp), h1]
  simp only []
  rw [exprLoop_fuel_mono tokens _ _ n2 _ (Nat.le_max_right _ _) (by rw [h2]; simp), h2]

/-- A bare statement: if the first token is no identifier and `expr` parses up to an `EOF`,
`parse` returns the tree of `expr`. -/
theorem parse_of_exprParses {α : Type} (tokens : List (Token α)) (first : Token α)
    (node : ASTNode α) (q : Nat) (h0 : tokens[0]? = some first)
    (hfirst : first.tipo ≠ .IDENTIFICADOR) (he : ExprParses tokens 0 node q)
    (hq : tokens[q]? = some .EOF) : parse tokens = .ok node q := by
  obtain ⟨n, hn⟩ := he
  have h1 := expr_of_some_fuel tokens 0 n node q hn
  have ha : assignment tokens = .ok node q := by
    unfold assignment
    rw [h0]
    cases first <;> first | exact h1 | exact absurd rfl hfirst
  unfold parse
  rw [ha]
  simp only [hq]
  rfl

/-- A chain of `+` and `-`: the loop of `expr` builds the left-nested tree. -/
theorem exprLoopParses_chain {α : Type} (tokens : List (Token α)) :
    ∀ (pairs : List (Token α × α)) (node : ASTNode α) (pos : Nat),
      (∀ p ∈ pairs, p.1.tipo = .SUMA ∨ p.1.tipo = .RESTA) →
      HasAt tokens pos (chainTokens pairs ++ [.EOF]) →
      ExprLoopParses tokens node pos (leftNested node pairs) (pos + 2 * pairs.length) := by
  intro pairs
  induction pairs with
  | nil =>
    intro node pos _ hat
    have h0 := (hasAt_cons hat).1
    exact exprLoopParses_stop h0 (by simp [Token.tipo])
  | cons p rest ih =>
    intro node pos hops hat
    obtain ⟨op, valor⟩ := p
    have hop : op.tipo = .SUMA ∨ op.tipo = .RESTA := hops (op, valor) (by simp)
    simp only [chainTokens, List.cons_append] at hat
    obtain ⟨h0, hat1⟩ := hasAt_cons hat
    obtain ⟨h1, hat2⟩ := hasAt_cons hat1
    have hnext : ∃ t, tokens[pos + 1 + 1]? = some t ∧
        ¬ (t.tipo = .MULTIPLICACION ∨ t.tipo = .DIVISION) := by
      cases rest with
      | nil =>
        exact ⟨.EOF, (hasAt_cons hat2).1, by simp [Token.tipo]⟩
      | cons p2 rest2 =>
        obtain ⟨op2, v2⟩ := p2
        simp only [chainTokens, List.cons_append] at hat2
        refine ⟨op2, (hasAt_cons hat2).1, ?_⟩
        have := hops (op2, v2) (by simp)
        rcases this with h | h <;> rw [h] <;> simp
    obtain ⟨t, ht, htop⟩ := hnext
    have hterm : TermParses tokens (pos + 1) (.NUMERO valor) (pos + 1 + 1) :=
      termParses_of (factorParses_numero h1) (termLoopParses_stop ht htop)
    have hrest := ih (.operador op.tipo node (.NUMERO valor)) (pos + 1 + 1)
      (fun p hp => hops p (by simp [hp])) hat2
    have hlen : pos + 2 * (List.length ((op, valor) :: rest)) = pos + 1 + 1 + 2 * rest.length := by
      simp only [List.length_cons]; omega
    rw [hlen]
    exact exprLoopParses_step h0 hop hterm hrest

/-- A chain of `*` and `/`: the loop of `term` builds the left-nested tree. -/
theorem termLoopParses_chain {α : Type} (tokens : List (Token α)) :
    ∀ (pairs : List (Token α × α)) (node : ASTNode α) (pos : Nat),
      (∀ p ∈ pairs, p.1.tipo = .MULTIPLICACION ∨ p.1.tipo = .DIVISION) →
      HasAt tokens pos (chainTokens pairs ++ [.EOF]) →
      TermLoopParses tokens node pos (leftNested node pairs) (pos + 2 * pairs.length) := by
  intro pairs
  induction pairs with
  | nil =>
    intro node pos _ hat
    have h0 := (hasAt_cons hat).1
    exact termLoopParses_stop h0 (by simp [Token.tipo])
  | cons p rest ih =>
    intro node pos hops hat
    obtain ⟨op, valor⟩ := p
    have hop : op.tipo = .MULTIPLICACION ∨ op.tipo = .DIVISION := hops (op, valor) (by simp)
    simp only [chainTokens, List.cons_append] at hat
    obtain ⟨h0, hat1⟩ := hasAt_cons hat
    obtain ⟨h1, hat2⟩ := hasAt_cons hat1
    have hrest := ih (.operador op.tipo node (.NUMERO valor)) (pos + 1 + 1)
      (fun p hp => hops p (by simp [hp])) hat2
    have hlen : pos + 2 * (List.length ((op, valor) :: rest)) = pos + 1 + 1 + 2 * rest.length := by
      simp only [List.length_cons]; omega
    rw [hlen]
    exact termLoopParses_step h0 hop (factorParses_numero h1) hrest

theorem length_chainTokens {α : Type} (pairs : List (Token α × α)) :
    (chainTokens pairs).length = 2 * pairs.length := by
  induction pairs with
  | nil => rfl
  | cons p rest ih =>
    obtain ⟨op, valor⟩ := p
    simp only [chainTokens, List.length_cons, ih]
    omega

/-- An assignment statement: after `name =`, if `expr` parses up to a `;` that an `EOF`
follows, `parse` returns the assignment of the tree of `expr` to `name`. -/
theorem parse_assignment_of_exprParses {α : Type} (tokens : List (Token α)) (name : String)
    (node : ASTNode α) (q : Nat) (h0 : tokens[0]? = some (.IDENTIFICADOR name))
    (h1 : tokens[1]? = some .IGUAL) (he : ExprParses tokens 2 node q)
    (hq : tokens[q]? = some .PUNTO_Y_COMA) (hq1 : tokens[q + 1]? = some .EOF) :
    parse tokens = .ok (.ASIGNACION name node) (q + 1) := by
  obtain ⟨n, hn⟩ := he
  have h := expr_of_some_fuel tokens 2 n node q hn
  have e0 : eat tokens 0 .IDENTIFICADOR = .ok (0 + 1) := eat_of_tipo .IDENTIFICADOR h0 rfl
  have e1 : eat tokens (0 + 1) .IGUAL = .ok (0 + 1 + 1) := eat_of_tipo .IGUAL h1 rfl
  have e2 : eat tokens q .PUNTO_Y_COMA = .ok (q + 1) := eat_of_tipo .PUNTO_Y_COMA hq rfl
  have ha : assignment tokens = .ok (.ASIGNACION name node) (q + 1) := by
    unfold assignment
    rw [h0]
    simp only [e0, e1, h, e2]
  unfold parse
  rw [ha]
  simp only [hq1]
  rfl

theorem hasAt_split {α : Type} {tokens : List (Token α)} {pos : Nat}
    {seg1 seg2 : List (Token α)} {t : Token α} (h : HasAt tokens pos (seg1 ++ t :: seg2)) :
    HasAt tokens pos seg1 ∧ tokens[pos + seg1.length]? = some t ∧
      HasAt tokens (pos + seg1.length + 1) seg2 :=
  ⟨(hasAt_append h).1, (hasAt_cons (hasAt_append h).2).1, (hasAt_cons (hasAt_append h).2).2⟩

theorem operatorToken_tipo {α : Type} (tipo : Tipo) (h : tipo.isBinaryOperator = true) :
    (operatorToken tipo : Token α).tipo = tipo := by
  cases tipo <;> first | rfl | cases h

theorem exprContinues_of_term {α : Type} {tokens : List (Token α)} {tree : ASTNode α}
    (h : TermContinues tokens tree) : ExprContinues tokens tree := by
  intro pos hat nt hnt hno res q hl
  exact exprParses_of (h pos hat tree _ (termLoopParses_stop hnt hno)) hl

/-- A tree between parentheses is read by `factor`. -/
theorem factorParses_wrapped {α : Type} {tokens : List (Token α)} {tree : ASTNode α}
    (h : ExprContinues tokens tree) (pos : Nat)
    (hat : HasAt tokens pos (wrapIf true (print tree))) :
    FactorParses tokens pos tree (pos + (wrapIf true (print tree)).length) := by
  simp only [wrapIf, if_true] at hat ⊢
  obtain ⟨h0, h1⟩ := hasAt_cons hat
  obtain ⟨ha, hb⟩ := hasAt_append h1
  have hc := (hasAt_cons hb).1
  have he := h (pos + 1) ha .PAREN_CIERRA hc (by simp [Token.tipo]) tree _
    (exprLoopParses_stop hc (by simp [Token.tipo]))
  have hf := factorParses_paren h0 he hc
  have hlen : pos + (Token.PAREN_ABRE :: (print tree ++ [.PAREN_CIERRA])).length
      = pos + 1 + (print tree).length + 1 := by
    simp only [List.length_cons, List.length_append, List.length_nil]
    omega
  rw [hlen]
  exact hf

/-- A leaf is read by `factor`. -/
theorem factorParses_leaf {α : Type} {tokens : List (Token α)} {tree : ASTNode α}
    (hexp : isExpressionTree tree = true) (hleaf : tree.level = 3) (pos : Nat)
    (hat : HasAt tokens pos (print tree)) :
    FactorParses tokens pos tree (pos + (print tree).length) := by
  cases tree with
  | NUMERO valor => exact factorParses_numero (hasAt_cons hat).1
  | VARIABLE valor => exact factorParses_identificador (hasAt_cons hat).1
  | ASIGNACION valor izq => cases hexp
  | operador tipo izq der =>
    simp only [isExpressionTree, Bool.and_eq_true] at hexp
    cases tipo <;> simp [ASTNode.level, precedence] at hleaf

/-- An operand that is a leaf, or stands between parentheses, is read by `factor`. -/
theorem factorParses_operand {α : Type} {tokens : List (Token α)} {tree : ASTNode α}
    (wrapped : Bool) (hexp : isExpressionTree tree = true)
    (h : (wrapped = true ∧ ExprContinues tokens tree) ∨ (wrapped = false ∧ tree.level = 3))
    (pos : Nat) (hat : HasAt tokens pos (wrapIf wrapped (print tree))) :
    FactorParses tokens pos tree (pos + (wrapIf wrapped (print tree)).length) := by
  rcases h with ⟨hw, hc⟩ | ⟨hw, hleaf⟩
  · subst hw
    exact factorParses_wrapped hc pos hat
  · subst hw
    exact factorParses_leaf hexp hleaf pos hat

/-- An operand of level 2 or more, or between parentheses, is read by `term`, which goes on
with its loop after it. -/
theorem termParses_operand {α : Type} {tokens : List (Token α)} {tree : ASTNode α}
    (wrapped : Bool)
    (h : (wrapped = true ∧ ExprContinues tokens tree) ∨
      (wrapped = false ∧ TermContinues tokens tree))
    (pos : Nat) (hat : HasAt tokens pos (wrapIf wrapped (print tree))) (res : ASTNode α)
    (q : Nat)
    (hl : TermLoopParses tokens tree (pos + (wrapIf wrapped (print tree)).length) res q) :
    TermParses tokens pos res q := by
  rcases h with ⟨hw, hc⟩ | ⟨hw, hc⟩
  · subst hw
    exact termParses_of (factorParses_wrapped hc pos hat) hl
  · subst hw
    exact hc pos hat res q hl

theorem length_print_operador {α : Type} (tipo : Tipo) (izq der : ASTNode α) :
    (print (.operador tipo izq der)).length
      = (wrapIf (needsParenLeft tipo izq) (print izq)).length + 1
        + (wrapIf (needsParenRight tipo der) (print der)).length := by
  simp only [print, List.length_append, List.length_cons]
  omega

/-- A product or quotient: `term` reads the printed tokens back as the tree. -/
theorem termContinues_operador {α : Type} {tokens : List (Token α)} (tipo : Tipo)
    (izq der : ASTNode α) (hop : tipo = .MULTIPLICACION ∨ tipo = .DIVISION)
    (hizq : isExpressionTree izq = true) (hder : isExpressionTree der = true)
    (ihl : (2 ≤ izq.level → TermContinues tokens izq) ∧ ExprContinues tokens izq)
    (ihr : ExprContinues tokens der) :
    TermContinues tokens (.operador tipo izq der) := by
  intro pos hat res q hl
  rw [length_print_operador] at hl
  simp only [print] at hat
  obtain ⟨hat1, hmid, hat2⟩ := hasAt_split hat
  have hbin : tipo.isBinaryOperator = true := by rcases hop with h | h <;> rw [h] <;> rfl
  have hprec : precedence tipo = 2 := by rcases hop with h | h <;> rw [h] <;> rfl
  have htipo := operatorToken_tipo (α := α) tipo hbin
  have hleft : (needsParenLeft tipo izq = true ∧ ExprContinues tokens izq) ∨
      (needsParenLeft tipo izq = false ∧ TermContinues tokens izq) := by
    cases hb : needsParenLeft tipo izq
    · right
      refine ⟨rfl, ihl.1 ?_⟩
      cases izq with
      | operador t2 l2 r2 =>
        simp only [needsParenLeft, hprec, decide_eq_false_iff_not, not_lt] at hb
        exact hb
      | NUMERO valor => simp [ASTNode.level]
      | VARIABLE valor => simp [ASTNode.level]
      | ASIGNACION valor i2 => simp [ASTNode.level]
    · exact Or.inl ⟨rfl, ihl.2⟩
  have hright : (needsParenRight tipo der = true ∧ ExprContinues tokens der) ∨
      (needsParenRight tipo der = false ∧ der.level = 3) := by
    cases hb : needsParenRight tipo der
    · right
      refine ⟨rfl, ?_⟩
      cases der with
      | operador t2 l2 r2 =>
        simp only [needsParenRight, hprec, decide_eq_false_iff_not, not_le] at hb
        cases t2 <;> simp [precedence] at hb
      | NUMERO valor => rfl
      | VARIABLE valor => rfl
      | ASIGNACION valor i2 => rfl
    · exact Or.inl ⟨rfl, ihr⟩
  have hf := factorParses_operand (needsParenRight tipo der) hder hright _ hat2
  refine termParses_operand (needsParenLeft tipo izq) hleft pos hat1 res q ?_
  refine termLoopParses_step hmid (by rw [htipo]; exact hop) hf ?_
  rw [htipo]
  have hpos : pos + (wrapIf (needsParenLeft tipo izq) (print izq)).length + 1
      + (wrapIf (needsParenRight tipo der) (print der)).length
      = pos + ((wrapIf (needsParenLeft tipo izq) (print izq)).length + 1
        + (wrapIf (needsParenRight tipo der) (print der)).length) := by omega
  rw [hpos]
  exact hl

/-- A sum or difference: `expr` reads the printed tokens back as the tree. -/
theorem exprContinues_operador {α : Type} {tokens : List (Token α)} (tipo : Tipo)
    (izq der : ASTNode α) (hop : tipo = .SUMA ∨ tipo = .RESTA)
    (hizq : isExpressionTree izq = true) (hder : isExpressionTree der = true)
    (ihl : ExprContinues tokens izq)
    (ihr : (2 ≤ der.level → TermContinues tokens der) ∧ ExprContinues tokens der) :
    ExprContinues tokens (.operador tipo izq der) := by
  intro pos hat nt hnt hno res q hl
  rw [length_print_operador] at hl hnt
  simp only [print] at hat
  obtain ⟨hat1, hmid, hat2⟩ := hasAt_split hat
  have hbin : tipo.isBinaryOperator = true := by rcases hop with h | h <;> rw [h] <;> rfl
  have hprec : precedence tipo = 1 := by rcases hop with h | h <;> rw [h] <;> rfl
  have htipo := operatorToken_tipo (α := α) tipo hbin
  have hleft : needsParenLeft tipo izq = false := by
    cases izq with
    | operador t2 l2 r2 =>
      simp only [isExpressionTree, Bool.and_eq_true] at hizq
      have h2 := hizq.1.1
      simp only [needsParenLeft, hprec, decide_eq_false_iff_not, not_lt]
      cases t2 <;> simp [precedence, Tipo.isBinaryOperator] at h2 ⊢
    | NUMERO valor => rfl
    | VARIABLE valor => rfl
    | ASIGNACION valor i2 => rfl
  have hright : (needsParenRight tipo der = true ∧ ExprContinues tokens der) ∨
      (needsParenRight tipo der = false ∧ TermContinues tokens der) := by
    cases hb : needsParenRight tipo der
    · right
      refine ⟨rfl, ihr.1 ?_⟩
      cases der with
      | operador t2 l2 r2 =>
        simp only [needsParenRight, hprec, decide_eq_false_iff_not, not_le] at hb
        exact hb
      | NUMERO valor => simp [ASTNode.level]
      | VARIABLE valor => simp [ASTNode.level]
      | ASIGNACION valor i2 => simp [ASTNode.level]
    · exact Or.inl ⟨rfl, ihr.2⟩
  rw [hleft] at hat1 hmid hat2 hl hnt
  simp only [wrapIf, Bool.false_eq_true, if_false] at hat1 hmid hat2 hl hnt
  have hpos : pos + (print izq).length + 1
      + (wrapIf (needsParenRight tipo der) (print der)).length
      = pos + ((print izq).length + 1
        + (wrapIf (needsParenRight tipo der) (print der)).length) := by omega
  have hterm : TermParses tokens (pos + (print izq).length + 1) der
      (pos + (print izq).length + 1
        + (wrapIf (needsParenRight tipo der) (print der)).length) := by
    refine termParses_operand (needsParenRight tipo der) hright _ hat2 der _ ?_
    rw [hpos]
    exact termLoopParses_stop hnt hno
  refine ihl pos hat1 (operatorToken tipo) hmid ?_ res q ?_
  · rw [htipo]
    rcases hop with h | h <;> rw [h] <;> simp
  · refine exprLoopParses_step hmid (by rw [htipo]; exact hop) hterm ?_
    rw [htipo, hpos]
    exact hl

/-- Wherever the printed tokens of an expression tree stand, `term` (for a tree of level 2 or
more) and `expr` read them back as the tree. -/
theorem print_parses {α : Type} (tokens : List (Token α)) :
    ∀ tree : ASTNode α, isExpressionTree tree = true →
      (2 ≤ tree.level → TermContinues tokens tree) ∧ ExprContinues tokens tree := by
  intro tree
  induction tree with
  | NUMERO valor =>
    intro _
    have ht : TermContinues tokens (.NUMERO valor) := fun pos hat res q hl =>
      termParses_of (factorParses_numero (hasAt_cons hat).1) hl
    exact ⟨fun _ => ht, exprContinues_of_term ht⟩
  | VARIABLE valor =>
    intro _
    have ht : TermContinues tokens (.VARIABLE valor) := fun pos hat res q hl =>
      termParses_of (factorParses_identificador (hasAt_cons hat).1) hl
    exact ⟨fun _ => ht, exprContinues_of_term ht⟩
  | ASIGNACION valor izq _ => intro h; cases h
  | operador tipo izq der ihl ihr =>
    intro hexp
    simp only [isExpressionTree, Bool.and_eq_true] at hexp
    obtain ⟨⟨hop, hizq⟩, hder⟩ := hexp
    have hl := ihl hizq
    have hr := ihr hder
    have hcases : (tipo = .SUMA ∨ tipo = .RESTA) ∨ (tipo = .MULTIPLICACION ∨ tipo = .DIVISION) := by
      cases tipo <;> simp [Tipo.isBinaryOperator] at hop ⊢
    rcases hcases with h | h
    · refine ⟨fun hlev => ?_, exprContinues_operador tipo izq der h hizq hder hl.2 hr⟩
      exfalso
      rcases h with h | h <;> rw [h] at hlev <;> simp [ASTNode.level, precedence] at hlev
    · have ht := termContinues_operador tipo izq der h hizq hder hl hr.2
      exact ⟨fun _ => ht, exprContinues_of_term ht⟩

/-- The loop of `lexer` throws only the two errors of the lexer. -/
theorem lexerLoop_error_listed {α : Type} (A : Arith α) :
    ∀ (fuel : Nat) (input : List Char) (acc : List (Token α)) (e : Error),
      lexerLoop A fuel input acc = .error e → e.listed = true := by
  intro fuel
  induction fuel with
  | zero => intro input acc e h; simp [lexerLoop] at h
  | succ n ih =>
    intro input acc e h
    cases input with
    | nil => simp [lexerLoop] at h
    | cons c rest =>
      simp only [lexerLoop] at h
      split at h
      · exact ih _ _ _ h
      · split at h
        · exact ih _ _ _ h
        · split at h
          · split at h
            · cases h; rfl
            · exact ih _ _ _ h
          · split at h
            · exact ih _ _ _ h
            · cases h; rfl

theorem lexer_no_typeError {α : Type} (A : Arith α) (input : String) :
    lexer A input ≠ .error .typeError := by
  intro h
  unfold lexer at h
  cases hs : scan A input.data [] with
  | ok body => rw [hs] at h; cases h
  | error e =>
    rw [hs] at h
    cases h
    have := lexerLoop_error_listed A _ _ _ _ hs
    cases this
  | outOfFuel => rw [hs] at h; cases h

/-- A token list that ends with `EOF`, as that of `lexer` does, is in bounds. -/
theorem inBounds_of_shape {α : Type} (body : List (Token α)) :
    InBounds (body ++ [.EOF]) body.length := by
  intro pos hpos
  rcases Nat.lt_or_ge pos body.length with hlt | hge
  · refine ⟨body[pos], ?_, fun _ => hlt⟩
    rw [List.getElem?_append_left hlt]
    exact List.getElem?_eq_getElem hlt
  · have : pos = body.length := Nat.le_antisymm hpos hge
    subst this
    refine ⟨.EOF, ?_, fun hne => absurd rfl hne⟩
    rw [List.getElem?_append_right (Nat.le_refl _)]
    simp

/-- On tokens in bounds the methods `factor`, `term` and `expr` never read past the end, and
the trees they return are expression trees. -/
theorem parser_safe {α : Type} (tokens : List (Token α)) (bound : Nat)
    (hb : InBounds tokens bound) : ∀ (n : Nat),
    (∀ pos, pos ≤ bound → (factor n tokens pos).Safe bound) ∧
    (∀ pos node0, pos ≤ bound → isExpressionTree node0 = true →
      (termLoop n tokens node0 pos).Safe bound) ∧
    (∀ pos, pos ≤ bound → (term n tokens pos).Safe bound) ∧
    (∀ pos node0, pos ≤ bound → isExpressionTree node0 = true →
      (exprLoop n tokens node0 pos).Safe bound) ∧
    (∀ pos, pos ≤ bound → (expr n tokens pos).Safe bound) := by
  intro n
  induction n with
  | zero => simp [factor, termLoop, term, exprLoop, expr, ParseResult.Safe]
  | succ n ih =>
    obtain ⟨ihf, ihtl, iht, ihel, ihe⟩ := ih
    refine ⟨?_, ?_, ?_, ?_, ?_⟩
    · intro pos hpos
      obtain ⟨t, ht, hnext⟩ := hb pos hpos
      rw [factor_succ, ht]
      cases t <;> simp only [] <;>
        try (first
          | exact ⟨hnext (by simp [Token.tipo]), rfl⟩
          | (simp [ParseResult.Safe]; done))
      have h1 : pos + 1 ≤ bound := hnext (by simp [Token.tipo])
      have he := ihe (pos + 1) h1
      cases hexpr : expr n tokens (pos + 1) with
      | ok result pos2 =>
        rw [hexpr] at he
        simp only []
        obtain ⟨t2, ht2, hnext2⟩ := hb pos2 he.1
        rw [ht2]
        simp only []
        split
        · next hc => exact ⟨hnext2 (by rw [hc]; simp), he.2⟩
        · simp [ParseResult.Safe]
      | error e p => rw [hexpr] at he; exact he
      | outOfFuel => trivial
    · intro pos node0 hpos h0
      obtain ⟨t, ht, hnext⟩ := hb pos hpos
      rw [termLoop_succ, ht]
      simp only []
      split
      · next hc =>
        have h1 : pos + 1 ≤ bound := hnext (by rcases hc with h | h <;> rw [h] <;> simp)
        have hf := ihf (pos + 1) h1
        cases hfac : factor n tokens (pos + 1) with
        | ok der pos2 =>
          rw [hfac] at hf
          simp only []
          refine ihtl pos2 _ hf.1 ?_
          have hop : t.tipo.isBinaryOperator = true := by
            rcases hc with h | h <;> rw [h] <;> rfl
          simp [isExpressionTree, hop, h0, hf.2]
        | error e p => rw [hfac] at hf; exact hf
        | outOfFuel => trivial
      · exact ⟨hpos, h0⟩
    · intro pos hpos
      rw [term]
      have hf := ihf pos hpos
      cases hfac : factor n tokens pos with
      | ok node1 pos1 =>
        rw [hfac] at hf
        exact ihtl pos1 _ hf.1 hf.2
      | error e p => rw [hfac] at hf; exact hf
      | outOfFuel => trivial
    · intro pos node0 hpos h0
      obtain ⟨t, ht, hnext⟩ := hb pos hpos
      rw [exprLoop_succ, ht]
      simp only []
      split
      · next hc =>
        have h1 : pos + 1 ≤ bound := hnext (by rcases hc with h | h <;> rw [h] <;> simp)
        have hf := iht (pos + 1) h1
        cases hfac : term n tokens (pos + 1) with
        | ok der pos2 =>
          rw [hfac] at hf
          simp only []
          refine ihel pos2 _ hf.1 ?_
          have hop : t.tipo.isBinaryOperator = true := by
            rcases hc with h | h <;> rw [h] <;> rfl
          simp [isExpressionTree, hop, h0, hf.2]
        | error e p => rw [hfac] at hf; exact hf
        | outOfFuel => trivial
      · exact ⟨hpos, h0⟩
    · intro pos hpos
      rw [expr]
      have hf := iht pos hpos
      cases hfac : term n tokens pos with
      | ok node1 pos1 =>
        rw [hfac] at hf
        exact ihel pos1 _ hf.1 hf.2
      | error e p => rw [hfac] at hf; exact hf
      | outOfFuel => trivial

/-- On tokens in bounds `parse` returns a well-formed tree or throws one of the seven errors:
it never reads an undefined token. -/
theorem parse_safe {α : Type} (tokens : List (Token α)) (bound : Nat)
    (hb : InBounds tokens bound) :
    (∀ p, parse tokens ≠ .error .typeError p) ∧
    (∀ ast q, parse tokens = .ok ast q → ast.wellFormed = true) := by
  have hexpr := (parser_safe tokens bound hb (parseFuel tokens)).2.2.2.2
  have hassign : (∀ p, assignment tokens ≠ .error .typeError p) ∧
      (∀ ast q, assignment tokens = .ok ast q → q ≤ bound ∧ ast.wellFormed = true) := by
    obtain ⟨t0, ht0, hnext0⟩ := hb 0 (Nat.zero_le _)
    have hgen : ∀ pos, pos ≤ bound →
        (∀ p, expr (parseFuel tokens) tokens pos ≠ .error .typeError p) ∧
        (∀ ast q, expr (parseFuel tokens) tokens pos = .ok ast q →
          q ≤ bound ∧ isExpressionTree ast = true) := by
      intro pos hpos
      have h := hexpr pos hpos
      constructor
      · intro p hp
        rw [hp] at h
        exact h rfl
      · intro ast q hq
        rw [hq] at h
        exact h
    have hwf : ∀ ast : ASTNode α, isExpressionTree ast = true → ast.wellFormed = true := by
      intro ast h
      cases ast <;> first | exact h | cases h
    unfold assignment
    rw [ht0]
    cases t0 with
    | IDENTIFICADOR varName =>
      simp only []
      have h1 : 0 + 1 ≤ bound := hnext0 (by simp [Token.tipo])
      have e0 : eat tokens 0 .IDENTIFICADOR = .ok (0 + 1) := eat_of_tipo .IDENTIFICADOR ht0 rfl
      rw [e0]
      simp only []
      obtain ⟨t1, ht1, hnext1⟩ := hb (0 + 1) h1
      by_cases hig : t1.tipo = .IGUAL
      · have h2 : 0 + 1 + 1 ≤ bound := hnext1 (by rw [hig]; simp)
        have e1 : eat tokens (0 + 1) .IGUAL = .ok (0 + 1 + 1) := eat_of_tipo .IGUAL ht1 hig
        rw [e1]
        simp only []
        obtain ⟨hne, hok⟩ := hgen (0 + 1 + 1) h2
        cases he : expr (parseFuel tokens) tokens (0 + 1 + 1) with
        | ok exprNode pos3 =>
          simp only []
          obtain ⟨h3, htree⟩ := hok _ _ he
          obtain ⟨t3, ht3, hnext3⟩ := hb pos3 h3
          by_cases hsc : t3.tipo = .PUNTO_Y_COMA
          · have e3 : eat tokens pos3 .PUNTO_Y_COMA = .ok (pos3 + 1) :=
              eat_of_tipo .PUNTO_Y_COMA ht3 hsc
            rw [e3]
            simp only []
            refine ⟨fun p hp => (by cases hp), ?_⟩
            intro ast q hq
            cases hq
            exact ⟨hnext3 (by rw [hsc]; simp), htree⟩
          · have e3 : eat tokens pos3 .PUNTO_Y_COMA
                = .error (.unexpectedToken .PUNTO_Y_COMA t3.tipo) := by
              simp [eat, ht3, hsc]
            rw [e3]
            simp only []
            exact ⟨fun p hp => (by cases hp), fun ast q hq => (by cases hq)⟩
        | error e p =>
          simp only []
          refine ⟨fun p2 hp => ?_, fun ast q hq => (by cases hq)⟩
          cases hp
          exact hne _ he
        | outOfFuel =>
          simp only []
          exact ⟨fun p hp => (by cases hp), fun ast q hq => (by cases hq)⟩
      · have e1 : eat tokens (0 + 1) .IGUAL = .error (.unexpectedToken .IGUAL t1.tipo) := by
          simp [eat, ht1, hig]
        rw [e1]
        simp only []
        exact ⟨fun p hp => (by cases hp), fun ast q hq => (by cases hq)⟩
    | _ =>
      simp only []
      obtain ⟨hne, hok⟩ := hgen 0 (Nat.zero_le _)
      exact ⟨hne, fun ast q hq => ⟨(hok ast q hq).1, hwf ast (hok ast q hq).2⟩⟩
  obtain ⟨hane, haok⟩ := hassign
  unfold parse
  cases ha : assignment tokens with
  | ok result pos =>
    simp only []
    obtain ⟨hq, hwf⟩ := haok _ _ ha
    obtain ⟨t, ht, _⟩ := hb pos hq
    rw [ht]
    simp only []
    split
    · exact ⟨fun p hp => (by cases hp), fun ast q hq => (by cases hq)⟩
    · refine ⟨fun p hp => (by cases hp), ?_⟩
      intro ast q hq
      cases hq
      exact hwf
  | error e p =>
    simp only []
    refine ⟨fun p2 hp => ?_, fun ast q hq => (by cases hq)⟩
    cases hp
    exact hane _ ha
  | outOfFuel =>
    simp only []
    exact ⟨fun p hp => (by cases hp), fun ast q hq => (by cases hq)⟩

/-- On an expression tree `eval` reads both children of every binary node and finds a `case`
for every operator: it ends with a number, with an undefined variable or a division by zero,
or with an inherited member of `Object.prototype`. -/
theorem eval_expressionTree {α : Type} (A : Arith α) :
    ∀ (node : ASTNode α) (vars : Variables α), isExpressionTree node = true →
      (eval A node vars).NumberErrorOrInherited := by
  intro node
  induction node with
  | NUMERO valor => intro vars _; trivial
  | VARIABLE valor =>
    intro vars _
    unfold eval
    cases vars valor with
    | some value => trivial
    | none =>
      simp only []
      split
      · next hmem => exact hmem
      · rfl
  | ASIGNACION valor izq _ => intro vars h; cases h
  | operador tipo izq der ihl ihr =>
    intro vars hexp
    simp only [isExpressionTree, Bool.and_eq_true] at hexp
    obtain ⟨⟨hop, hizq⟩, hder⟩ := hexp
    have hl := ihl vars hizq
    unfold eval
    cases h1 : eval A izq vars with
    | returns izqValue vars1 =>
      simp only []
      have hr := ihr vars1 hder
      cases h2 : eval A der vars1 with
      | returns derValue vars2 =>
        simp only []
        cases tipo <;> first | (cases hop; done) | trivial | skip
        simp only []
        split
        · rfl
        · trivial
      | throws e vars2 => rw [h2] at hr; exact hr
      | nonNumber point => rw [h2] at hr; exact hr
      | outOfFuel => rw [h2] at hr; exact hr
    | throws e vars1 => rw [h1] at hl; exact hl
    | nonNumber point => rw [h1] at hl; exact hl
    | outOfFuel => rw [h1] at hl; exact hl

/-- On a well-formed statement tree `eval` ends with a number, with one of the seven errors,
or with an inherited member of `Object.prototype`. -/
theorem eval_wellFormed {α : Type} (A : Arith α) (node : ASTNode α) (vars : Variables α)
    (h : node.wellFormed = true) : (eval A node vars).NumberErrorOrInherited := by
  cases node with
  | ASIGNACION valor izq =>
    have hi := eval_expressionTree A izq vars h
    unfold eval
    cases h1 : eval A izq vars with
    | returns value vars1 => trivial
    | throws e vars1 => rw [h1] at hi; exact hi
    | nonNumber point => rw [h1] at hi; exact hi
    | outOfFuel => rw [h1] at hi; exact hi
  | NUMERO valor => exact eval_expressionTree A _ vars h
  | VARIABLE valor => exact eval_expressionTree A _ vars h
  | operador tipo izq der => exact eval_expressionTree A _ vars h

/-- The pipeline is total: `lexer` ends; on its tokens `parse` ends, reads no undefined token
and returns only well-formed trees; and a line evaluates to a number, to one of the seven
errors, or to an inherited member of `Object.prototype` read under a name never assigned. -/
theorem pipeline_total {α : Type} (A : Arith α) (input : String) (vars : Variables α) :
    lexer A input ≠ .outOfFuel ∧
    (∀ tokens, lexer A input = .ok tokens →
      parse tokens ≠ .outOfFuel ∧ (∀ p, parse tokens ≠ .error .typeError p) ∧
      ∀ ast q, parse tokens = .ok ast q → ast.wellFormed = true) ∧
    (evaluateLine A input vars).NumberErrorOrInherited := by
  have hparse : ∀ tokens, lexer A input = .ok tokens →
      parse tokens ≠ .outOfFuel ∧ (∀ p, parse tokens ≠ .error .typeError p) ∧
      ∀ ast q, parse tokens = .ok ast q → ast.wellFormed = true := by
    intro tokens hlex
    obtain ⟨body, hbody, _⟩ := lexer_shape A input tokens hlex
    subst hbody
    have hs := parse_safe _ _ (inBounds_of_shape body)
    exact ⟨parse_ne_outOfFuel _, hs.1, hs.2⟩
  refine ⟨lexer_ne_outOfFuel A input, hparse, ?_⟩
  unfold evaluateLine
  cases hlex : lexer A input with
  | ok tokens =>
    simp only []
    obtain ⟨hfuel, hne, hok⟩ := hparse tokens hlex
    cases hp : parse tokens with
    | ok ast q => exact eval_wellFormed A ast vars (hok ast q hp)
    | error e p =>
      simp only []
      cases e <;> first | rfl | exact absurd hp (hne p)
    | outOfFuel => exact absurd hp hfuel
  | error e =>
    simp only []
    have : e ≠ .typeError := by
      intro he
      subst he
      exact lexer_no_typeError A input hlex
    cases e <;> first | rfl | exact absurd rfl this
  | outOfFuel => exact absurd hlex (lexer_ne_outOfFuel A input)

/-- A character up to U+FFFF is its own code unit. -/
theorem offender_of_lt (c : Char) (h : c.toNat < 65536) : offender c = .char c := by
  simp [offender, h]

/-- A character beyond U+FFFF is an unrecognized character wherever a token should start, and
the error carries its high surrogate, not the character. -/
theorem scan_beyond_bmp {α : Type} (A : Arith α) (c : Char) (rest : List Char)
    (acc : List (Token α)) (h : 65536 ≤ c.toNat) :
    scan A (c :: rest) acc
      = .error (.unrecognizedCharacter (.surrogate (55296 + (c.toNat - 65536) / 1024))) := by
  have hs : isSpace c = false := by
    simp only [isSpace, Bool.or_eq_false_iff, Bool.and_eq_false_iff, decide_eq_false_iff_not,
      beq_eq_false_iff_ne]
    omega
  have hi : isIdentStart c = false := by
    simp only [isIdentStart, Bool.or_eq_false_iff, Bool.and_eq_false_iff,
      decide_eq_false_iff_not, beq_eq_false_iff_ne]
    omega
  have hd : isDigit c = false := by
    simp only [isDigit, Bool.and_eq_false_iff, decide_eq_false_iff_not]
    omega
  have hne : ∀ d : Char, d.toNat < 65536 → c ≠ d := by
    intro d hd2 hcd
    rw [hcd] at h
    omega
  have htab : singleCharTokens (α := α) c = none := by
    simp [singleCharTokens, hne '+' (by decide), hne '-' (by decide), hne '*' (by decide),
      hne '/' (by decide), hne '(' (by decide), hne ')' (by decide), hne '=' (by decide),
      hne ';' (by decide)]
  have hnot : ¬ c.toNat < 65536 := by omega
  rw [scan_cons]
  simp only [hs, hi, hd, htab, Bool.false_eq_true, if_false, offender, hnot]

/-- The character U+1F600, two code units in a JavaScript string: the message of `lexer`
carries the lone high surrogate U+D83D. -/
theorem lexer_beyond_bmp_example :
    (Char.ofNat 128512).toNat = 128512 ∧
    lexer ratArith (String.singleton (Char.ofNat 128512))
      = .error (.unrecognizedCharacter (.surrogate 55357)) := by
  refine ⟨by decide, ?_⟩
  unfold lexer
  have := scan_beyond_bmp ratArith (Char.ofNat 128512) [] [] (by decide)
  have hd : (String.singleton (Char.ofNat 128512)).data = [Char.ofNat 128512] := rfl
  rw [hd, this]
  have hn : 55296 + ((Char.ofNat 128512).toNat - 65536) / 1024 = 55357 := by decide
  simp only [hn]

/-! ## The claims -/

/-- C1: for numeric literals N1 and N2, the inputs "N1 + N2", "N1 - N2", "N1 * N2" evaluate to
the sum, difference and product of the two parsed numbers, and "N1 / N2" to their quotient when
the parsed N2 is not zero; the variables are left as they were. -/
theorem c1_binary_expression {α : Type} (A : Arith α) (n1 n2 : String) (vars : Variables α)
    (h1 : isNumericLiteral n1 = true) (h2 : isNumericLiteral n2 = true) :
    evaluateLine A (n1 ++ " + " ++ n2) vars
        = .returns (A.add (A.parseFloat n1) (A.parseFloat n2)) vars ∧
    evaluateLine A (n1 ++ " - " ++ n2) vars
        = .returns (A.sub (A.parseFloat n1) (A.parseFloat n2)) vars ∧
    evaluateLine A (n1 ++ " * " ++ n2) vars
        = .returns (A.mul (A.parseFloat n1) (A.parseFloat n2)) vars ∧
    (A.isZero (A.parseFloat n2) = false →
      evaluateLine A (n1 ++ " / " ++ n2) vars
        = .returns (A.div (A.parseFloat n1) (A.parseFloat n2)) vars) := by
  have hs := lexer_binary A n1 n2 '+' .SUMA h1 h2 (by decide) (by decide) (by decide) rfl
  have hr := lexer_binary A n1 n2 '-' .RESTA h1 h2 (by decide) (by decide) (by decide) rfl
  have hm := lexer_binary A n1 n2 '*' .MULTIPLICACION h1 h2 (by decide) (by decide) (by decide) rfl
  have hd := lexer_binary A n1 n2 '/' .DIVISION h1 h2 (by decide) (by decide) (by decide) rfl
  refine ⟨?_, ?_, ?_, ?_⟩
  · show evaluateLine A (n1 ++ String.mk [' ', '+', ' '] ++ n2) vars = _
    unfold evaluateLine
    rw [hs]
    rfl
  · show evaluateLine A (n1 ++ String.mk [' ', '-', ' '] ++ n2) vars = _
    unfold evaluateLine
    rw [hr]
    rfl
  · show evaluateLine A (n1 ++ String.mk [' ', '*', ' '] ++ n2) vars = _
    unfold evaluateLine
    rw [hm]
    rfl
  · intro hz
    show evaluateLine A (n1 ++ String.mk [' ', '/', ' '] ++ n2) vars = _
    unfold evaluateLine
    rw [hd]
    simp [parse, assignment, parseFuel, expr, term, factor, exprLoop, termLoop, eat, Token.tipo,
      eval, hz]

/-- C1, witness: "2.5 + 4" returns the sum of the two parsed numbers and "7 / 2" returns 7/2. -/
theorem c1_binary_expression_witness :
    evaluateLine ratArith "2.5 + 4" Variables.empty
        = .returns (ratArith.add (ratArith.parseFloat "2.5") (ratArith.parseFloat "4"))
            Variables.empty ∧
    evaluateLine ratArith "7 / 2" Variables.empty = .returns (7 / 2) Variables.empty := by
  have h := c1_binary_expression ratArith "7" "2" Variables.empty (by decide) (by decide)
  have h' := c1_binary_expression ratArith "2.5" "4" Variables.empty (by decide) (by decide)
  refine ⟨h'.1, ?_⟩
  have hz : ratArith.isZero (ratArith.parseFloat "2") = false := by
    simp [ratArith, decimalValue, digitsValue]
  have := h.2.2.2 hz
  simpa [ratArith, decimalValue, digitsValue] using this

/-- C2, failing input: on a fresh `Evaluator` the input "__proto__ = 5;" returns 5, yet the
store afterwards has no property `__proto__` of its own, and reading the name back with
"(__proto__)" yields the inherited member of `Object.prototype`, not 5. -/
theorem c2_assignment_proto_not_stored :
    evaluateLine ratArith "__proto__ = 5;" Variables.empty = .returns 5 Variables.empty ∧
    (Variables.empty : Variables ℚ) "__proto__" = none ∧
    evaluateLine ratArith "(__proto__)" Variables.empty
      = .nonNumber (.inherited "__proto__") := by
  refine ⟨?_, rfl, ?_⟩
  · have h : evaluateLine ratArith "__proto__ = 5;" Variables.empty
        = .returns (ratArith.parseFloat "5") Variables.empty := by
      simp [evaluateLine, lexer, scan, lexerLoop, isSpace, isIdentStart, isDigit, isIdentChar,
        isNumChar, singleCharTokens, parse, assignment, parseFuel, expr, term, factor, exprLoop,
        termLoop, eat, Token.tipo, eval, Variables.assign, Variables.empty]
    rw [h]
    have e5 : ratArith.parseFloat "5" = 5 := by simp [ratArith, decimalValue, digitsValue]
    rw [e5]
  · simp [evaluateLine, lexer, scan, lexerLoop, isSpace, isIdentStart, isDigit, isIdentChar,
      isNumChar, singleCharTokens, parse, assignment, parseFuel, expr, term, factor, exprLoop,
      termLoop, eat, Token.tipo, eval, Variables.empty, objectPrototypeNames]

/-- C3, failing input: with x bound to 5, as the input "x = 5;" leaves it, the input "x + 1;"
does not return 6, and with y unbound the input "y + 1;" does not report y as undefined: in
both cases the parser throws at the `+`, because `assignment` takes every statement that starts
with an identifier for an assignment and requires `=` after the identifier. The same happens
without the `;`. The rule `expr` does parse the tokens of "x + 1" to the sum of x and 1, and
`eval` of that sum returns 6 where x is 5 and reports y as undefined where nothing is stored. -/
theorem c3_variable_plus_one_rejected :
    evaluateLine ratArith "x = 5;" Variables.empty = .returns 5 (Variables.empty.set "x" 5) ∧
    evaluateLine ratArith "x + 1;" (Variables.empty.set "x" 5)
        = .throws (.unexpectedToken .IGUAL .SUMA) (Variables.empty.set "x" 5) ∧
    evaluateLine ratArith "x + 1;" (Variables.empty.set "x" 5)
        ≠ .returns 6 (Variables.empty.set "x" 5) ∧
    evaluateLine ratArith "y + 1;" Variables.empty
        = .throws (.unexpectedToken .IGUAL .SUMA) Variables.empty ∧
    evaluateLine ratArith "y + 1;" Variables.empty
        ≠ .throws (.undefinedVariable "y") Variables.empty ∧
    evaluateLine ratArith "x + 1" (Variables.empty.set "x" 5)
        = .throws (.unexpectedToken .IGUAL .SUMA) (Variables.empty.set "x" 5) ∧
    expr (parseFuel [Token.IDENTIFICADOR "x", .SUMA, .NUMERO (1 : ℚ), .EOF])
        [Token.IDENTIFICADOR "x", .SUMA, .NUMERO (1 : ℚ), .EOF] 0
        = .ok (.operador .SUMA (.VARIABLE "x") (.NUMERO 1)) 3 ∧
    eval ratArith (.operador .SUMA (.VARIABLE "x") (.NUMERO 1)) (Variables.empty.set "x" 5)
        = .returns 6 (Variables.empty.set "x" 5) ∧
    eval ratArith (.operador .SUMA (.VARIABLE "y") (.NUMERO 1)) Variables.empty
        = .throws (.undefinedVariable "y") Variables.empty := by
  have h0 : evaluateLine ratArith "x = 5;" Variables.empty
      = .returns 5 (Variables.empty.set "x" 5) := by
    have h5 : ratArith.parseFloat "5" = 5 := by simp [ratArith, decimalValue, digitsValue]
    have h := (assignment_statement ratArith "x" "5" Variables.empty Variables.empty
      [.NUMERO (ratArith.parseFloat "5")] (.NUMERO (ratArith.parseFloat "5"))
      (ratArith.parseFloat "5") (by decide) rfl rfl rfl).2
    rw [assign_eq_set _ _ _ (by decide), h5] at h
    exact h
  have h1 : evaluateLine ratArith "x + 1;" (Variables.empty.set "x" 5)
      = .throws (.unexpectedToken .IGUAL .SUMA) (Variables.empty.set "x" 5) := rfl
  have h2 : evaluateLine ratArith "y + 1;" Variables.empty
      = .throws (.unexpectedToken .IGUAL .SUMA) Variables.empty := rfl
  refine ⟨h0, h1, ?_, h2, ?_, rfl, rfl, ?_, ?_⟩
  · rw [h1]; intro h; cases h
  · rw [h2]; exact Outcome.throws_ne (by decide)
  · simp [eval, Variables.set, ratArith]
    norm_num
  · simp [eval, Variables.empty, objectPrototypeNames]

/-- C4, counterexample: on the input "1 / 0;" the parser throws for the tokens after the
expression; the division is never evaluated. -/
theorem c4_div_zero_semicolon_counterexample :
    evaluateLine ratArith "1 / 0;" Variables.empty
        = .throws .trailingTokens Variables.empty ∧
    evaluateLine ratArith "1 / 0;" Variables.empty
        ≠ .throws .divisionByZero Variables.empty := by
  have h : evaluateLine ratArith "1 / 0;" Variables.empty
      = .throws .trailingTokens Variables.empty := by
    rfl
  exact ⟨h, by rw [h]; exact Outcome.throws_ne (by decide)⟩

/-- C4, amended: for every numeric literal N and every store, the input "N / 0" (no `;`) throws
the division by zero, provided the host reads the text "0" as a number that `=== 0`; with the
`;` the input "N / 0;" is rejected by the parser for its trailing tokens. -/
theorem c4_div_zero {α : Type} (A : Arith α) (n : String) (vars : Variables α)
    (hn : isNumericLiteral n = true) (hzero : A.isZero (A.parseFloat "0") = true) :
    evaluateLine A (n ++ " / 0") vars = .throws .divisionByZero vars ∧
    evaluateLine A (n ++ " / 0;") vars = .throws .trailingTokens vars := by
  obtain ⟨h1, h2⟩ := lexer_div_zero A n hn
  constructor
  · unfold evaluateLine
    rw [h1]
    simp [parse, assignment, parseFuel, expr, term, factor, exprLoop, termLoop, eat, Token.tipo,
      eval, hzero]
  · unfold evaluateLine
    rw [h2]
    rfl

/-- C4, witness of the amended claim: "1 / 0" throws the division by zero and "1 / 0;" the
trailing-tokens error. -/
theorem c4_div_zero_witness :
    evaluateLine ratArith "1 / 0" Variables.empty = .throws .divisionByZero Variables.empty ∧
    evaluateLine ratArith "1 / 0;" Variables.empty = .throws .trailingTokens Variables.empty :=
  c4_div_zero ratArith "1" Variables.empty (by decide)
    (by simp [ratArith, decimalValue, digitsValue])

/-- C5, counterexample: on the inputs "(2 + 3) * 4;" and "2 + 3 * 4;" the parser throws for
the tokens after the expression; nothing is evaluated, so neither 20 nor 14 is returned. -/
theorem c5_precedence_semicolon_counterexample :
    evaluateLine ratArith "(2 + 3) * 4;" Variables.empty
        = .throws .trailingTokens Variables.empty ∧
    evaluateLine ratArith "2 + 3 * 4;" Variables.empty
        = .throws .trailingTokens Variables.empty ∧
    (∀ v vars, evaluateLine ratArith "(2 + 3) * 4;" Variables.empty ≠ .returns v vars) ∧
    (∀ v vars, evaluateLine ratArith "2 + 3 * 4;" Variables.empty ≠ .returns v vars) := by
  have h1 : evaluateLine ratArith "(2 + 3) * 4;" Variables.empty
      = .throws .trailingTokens Variables.empty := rfl
  have h2 : evaluateLine ratArith "2 + 3 * 4;" Variables.empty
      = .throws .trailingTokens Variables.empty := rfl
  refine ⟨h1, h2, ?_, ?_⟩
  · intro v vars h; rw [h1] at h; cases h
  · intro v vars h; rw [h2] at h; cases h

/-- C5, amended: for numeric literals a, b, c and every store, the input "(a + b) * c" (no `;`)
returns (a + b) * c and the input "a + b * c" returns a + (b * c); with a `;` appended both are
rejected by the parser for their trailing tokens. -/
theorem c5_precedence {α : Type} (A : Arith α) (a b c : String) (vars : Variables α)
    (ha : isNumericLiteral a = true) (hb : isNumericLiteral b = true)
    (hc : isNumericLiteral c = true) :
    evaluateLine A ("(" ++ a ++ " + " ++ b ++ ") * " ++ c) vars
        = .returns (A.mul (A.add (A.parseFloat a) (A.parseFloat b)) (A.parseFloat c)) vars ∧
    evaluateLine A (a ++ " + " ++ b ++ " * " ++ c) vars
        = .returns (A.add (A.parseFloat a) (A.mul (A.parseFloat b) (A.parseFloat c))) vars ∧
    evaluateLine A ("(" ++ a ++ " + " ++ b ++ ") * " ++ c ++ ";") vars
        = .throws .trailingTokens vars ∧
    evaluateLine A (a ++ " + " ++ b ++ " * " ++ c ++ ";") vars
        = .throws .trailingTokens vars := by
  obtain ⟨h1, h2, h3, h4⟩ := lexer_precedence A a b c ha hb hc
  refine ⟨?_, ?_, ?_, ?_⟩
  · unfold evaluateLine; rw [h1]; rfl
  · unfold evaluateLine; rw [h3]; rfl
  · unfold evaluateLine; rw [h2]; rfl
  · unfold evaluateLine; rw [h4]; rfl

/-- C5, witness of the amended claim: "(2 + 3) * 4" returns 20 and "2 + 3 * 4" returns 14. -/
theorem c5_precedence_witness :
    evaluateLine ratArith "(2 + 3) * 4" Variables.empty = .returns 20 Variables.empty ∧
    evaluateLine ratArith "2 + 3 * 4" Variables.empty = .returns 14 Variables.empty := by
  have h := c5_precedence ratArith "2" "3" "4" Variables.empty (by decide) (by decide)
    (by decide)
  have e2 : ratArith.parseFloat "2" = 2 := by simp [ratArith, decimalValue, digitsValue]
  have e3 : ratArith.parseFloat "3" = 3 := by simp [ratArith, decimalValue, digitsValue]
  have e4 : ratArith.parseFloat "4" = 4 := by simp [ratArith, decimalValue, digitsValue]
  have m1 : ratArith.mul (ratArith.add 2 3) 4 = 20 := by simp [ratArith]; norm_num
  have m2 : ratArith.add 2 (ratArith.mul 3 4) = 14 := by simp [ratArith]; norm_num
  refine ⟨?_, ?_⟩
  · have := h.1
    rw [e2, e3, e4, m1] at this
    exact this
  · have := h.2.1
    rw [e2, e3, e4, m2] at this
    exact this

/-- C6, counterexample: on the input "3 - 2 - 1;" the parser throws for the tokens after the
expression; no value is returned. -/
theorem c6_left_assoc_semicolon_counterexample :
    evaluateLine ratArith "3 - 2 - 1;" Variables.empty
        = .throws .trailingTokens Variables.empty ∧
    (∀ v vars, evaluateLine ratArith "3 - 2 - 1;" Variables.empty ≠ .returns v vars) := by
  have h1 : evaluateLine ratArith "3 - 2 - 1;" Variables.empty
      = .throws .trailingTokens Variables.empty := rfl
  refine ⟨h1, ?_⟩
  intro v vars h; rw [h1] at h; cases h

/-- C6, amended: for numeric literals a, b, c and every store, the input "a - b - c" (no `;`)
returns (a - b) - c; with a `;` appended it is rejected by the parser for its trailing
tokens. -/
theorem c6_left_assoc {α : Type} (A : Arith α) (a b c : String) (vars : Variables α)
    (ha : isNumericLiteral a = true) (hb : isNumericLiteral b = true)
    (hc : isNumericLiteral c = true) :
    evaluateLine A (a ++ " - " ++ b ++ " - " ++ c) vars
        = .returns (A.sub (A.sub (A.parseFloat a) (A.parseFloat b)) (A.parseFloat c)) vars ∧
    evaluateLine A (a ++ " - " ++ b ++ " - " ++ c ++ ";") vars
        = .throws .trailingTokens vars := by
  obtain ⟨h1, h2⟩ := lexer_subtractions A a b c ha hb hc
  refine ⟨?_, ?_⟩
  · unfold evaluateLine; rw [h1]; rfl
  · unfold evaluateLine; rw [h2]; rfl

/-- C6, witness of the amended claim: "3 - 2 - 1" returns 0. -/
theorem c6_left_assoc_witness :
    evaluateLine ratArith "3 - 2 - 1" Variables.empty = .returns 0 Variables.empty := by
  have h := c6_left_assoc ratArith "3" "2" "1" Variables.empty (by decide) (by decide)
    (by decide)
  have e1 : ratArith.parseFloat "1" = 1 := by simp [ratArith, decimalValue, digitsValue]
  have e2 : ratArith.parseFloat "2" = 2 := by simp [ratArith, decimalValue, digitsValue]
  have e3 : ratArith.parseFloat "3" = 3 := by simp [ratArith, decimalValue, digitsValue]
  have m1 : ratArith.sub (ratArith.sub 3 2) 1 = 0 := by simp [ratArith]; norm_num
  have := h.1
  rw [e1, e2, e3, m1] at this
  exact this

/-- C7: the first lexical offence decides the error of `lexer`. If the text before a character
scans without error and the character is none of white space, letter, `_`, digit, `.` or an
operator or punctuation character of the table, and is a character up to U+FFFF, which the
JavaScript string holds as one code unit, `lexer` throws the unrecognized-character error
carrying that character. If the text before a run scans without error and does not end inside
a run, and the run starts with a digit, holds digits and `.` only, holds two or more `.` and is
not continued by the text after it, `lexer` throws the malformed-number error. In both cases
the result is an error, so no token list is returned. -/
theorem c7_first_offence {α : Type} (A : Arith α) (pre rest : String) (tokens : List (Token α))
    (hpre : lexer A pre = .ok tokens) :
    (∀ c : Char, isSpace c = false → isIdentStart c = false → isDigit c = false → c ≠ '.' →
      singleCharTokens (α := α) c = none → c.toNat < 65536 →
      lexer A (pre ++ String.singleton c ++ rest)
        = .error (.unrecognizedCharacter (.char c))) ∧
    (∀ run : String, endsAtBoundary pre.data = true → (∀ c ∈ rest.data.head?, isNumChar c = false) →
      (∀ d ∈ run.data.head?, isDigit d = true) → run.data.all isNumChar = true →
      2 ≤ run.data.count '.' →
      lexer A (pre ++ run ++ rest) = .error .malformedNumber) := by
  have hscan : ∃ body, scan A pre.data [] = .ok body := by
    unfold lexer at hpre
    cases h : scan A pre.data [] with
    | ok body => exact ⟨body, rfl⟩
    | error e => rw [h] at hpre; cases hpre
    | outOfFuel => rw [h] at hpre; cases hpre
  obtain ⟨body, hbody⟩ := hscan
  constructor
  · intro c hs hi hd hdot htable hbmp
    have hic : isIdentChar c = false := by simp [isIdentChar, hi, hd]
    have hnc : isNumChar c = false := by
      have : c.toNat ≠ 46 := by
        intro h46
        apply hdot
        apply Char.ext
        apply UInt32.toNat.inj
        simpa [Char.toNat] using h46
      simp [isNumChar, hd, this]
    unfold lexer
    have hdata : (pre ++ String.singleton c ++ rest).data = pre.data ++ c :: rest.data := by
      simp [String.data_append, String.singleton]
    rw [hdata, scan_append_sep A c rest.data hic hnc _ pre.data [] (Nat.le_refl _), hbody]
    simp only [LexResult.andThen]
    rw [scan_cons]
    simp only [hs, hi, hd, htable, Bool.false_eq_true, if_false, offender, hbmp, if_true]
  · intro run hbound hrest hhead hall hcount
    unfold lexer
    have hdata : (pre ++ run ++ rest).data = pre.data ++ (run.data ++ rest.data) := by
      simp [String.data_append]
    rw [hdata, scan_append_boundary A _ _ _ hbound, hbody]
    simp only [LexResult.andThen]
    cases hrun : run.data with
    | nil => rw [hrun] at hcount; simp at hcount
    | cons d ds =>
      rw [hrun] at hhead hall hcount
      simp only [List.all_cons, Bool.and_eq_true] at hall
      rw [scan_malformed A d ds rest.data body (hhead d (by simp)) hall.2 hcount hrest]

/-- C7, witness: "3 $ 4;" throws for the character `$` and "1.2.3;" for the malformed
number. -/
theorem c7_first_offence_witness :
    lexer ratArith "3 $ 4;" = .error (.unrecognizedCharacter (.char '$')) ∧
    lexer ratArith "1.2.3;" = .error .malformedNumber := by
  constructor
  · exact (c7_first_offence ratArith "3 " " 4;" _ rfl).1 '$' (by decide) (by decide)
      (by decide) (by decide) rfl (by decide)
  · exact (c7_first_offence ratArith "" ";" _ rfl).2 "1.2.3" (by decide)
      (by decide) (by decide) (by decide) (by decide)

/-- C8: whenever the parser requires a factor and the current token starts none, `parse` throws
the expected-factor error. For every token list and every position p the parser gets as far as
(it returns or throws at a position not before p): if p is the start of the statement, or comes
right after `=`, a binary operator or `(`, and the token at p is none of number, identifier and
`(`, then `parse` throws the expected-factor error at p. In particular the inputs "name = ;"
for every identifier name, the empty input, and a `)` where an operand should stand all end
with that error. -/
theorem c8_expected_factor {α : Type} (A : Arith α) :
    (∀ (tokens : List (Token α)) (p q : Nat) (t : Token α),
      tokens[p]? = some t → t.tipo.startsFactor = false →
      (p = 0 ∨ RequiresFactor tokens p) →
      (parse tokens).pos? = some q → p ≤ q →
      parse tokens = .error .expectedFactor p) ∧
    (∀ (name : String) (vars : Variables α), isIdentifier name = true →
      evaluateLine A (name ++ " = ;") vars = .throws .expectedFactor vars) ∧
    (∀ vars : Variables α, evaluateLine A "" vars = .throws .expectedFactor vars) ∧
    (∀ vars : Variables α,
      evaluateLine A ")" vars = .throws .expectedFactor vars ∧
      evaluateLine A "1 + )" vars = .throws .expectedFactor vars ∧
      evaluateLine A "2 * ()" vars = .throws .expectedFactor vars) := by
  refine ⟨?_, ?_, ?_, ?_⟩
  · intro tokens p q t ht hbad hreq hq hle
    exact parse_expected_factor tokens q p t hq (Nat.zero_le p) hle hreq ht hbad
  · intro name vars hname
    unfold evaluateLine
    rw [lexer_empty_assignment A name hname]
    rfl
  · intro vars; rfl
  · intro vars; exact ⟨rfl, rfl, rfl⟩

/-- C8, witness: in the tokens of `1 + )` the parser reaches the `)` after `+` and throws the
expected-factor error there; so does the input "x = ;". -/
theorem c8_expected_factor_witness :
    parse [Token.NUMERO (1 : ℚ), .SUMA, .PAREN_CIERRA, .EOF] = .error .expectedFactor 2 ∧
    evaluateLine ratArith "x = ;" Variables.empty = .throws .expectedFactor Variables.empty :=
  ⟨(c8_expected_factor ratArith).1 [Token.NUMERO (1 : ℚ), .SUMA, .PAREN_CIERRA, .EOF] 2 2
      .PAREN_CIERRA rfl rfl (Or.inr ⟨.SUMA, by decide, rfl, rfl⟩) rfl (Nat.le_refl 2),
   (c8_expected_factor ratArith).2.1 "x" Variables.empty (by decide)⟩

/-- C9: on the tokens of `lexer`, if `parse` returns a tree then the position of the parser is
the last index of the token list and the token there is `EOF`, so every token before it was
consumed; and if `assignment` returns while the current token is not `EOF`, `parse` throws the
trailing-tokens error. -/
theorem c9_whole_stream {α : Type} (A : Arith α) (input : String) (tokens : List (Token α))
    (hlex : lexer A input = .ok tokens) :
    (∀ ast pos, parse tokens = .ok ast pos →
      pos + 1 = tokens.length ∧ tokens[pos]? = some .EOF) ∧
    (∀ node pos token, assignment tokens = .ok node pos → tokens[pos]? = some token →
      token.tipo ≠ .EOF → parse tokens = .error .trailingTokens pos) := by
  constructor
  · intro ast pos hparse
    unfold parse at hparse
    cases ha : assignment tokens with
    | ok node q =>
      rw [ha] at hparse
      simp only [] at hparse
      cases ht : tokens[q]? with
      | none => rw [ht] at hparse; cases hparse
      | some token =>
        rw [ht] at hparse
        simp only [] at hparse
        by_cases heof : token.tipo = .EOF
        · simp only [heof, ne_eq, not_true_eq_false, if_false] at hparse
          cases hparse
          have := tipo_eq_EOF heof
          subst this
          exact ⟨lexer_EOF_last A input tokens hlex _ _ ht rfl, ht⟩
        · simp only [ne_eq, heof, not_false_eq_true, if_true] at hparse
          cases hparse
    | error e q => rw [ha] at hparse; cases hparse
    | outOfFuel => rw [ha] at hparse; cases hparse
  · intro node pos token ha ht hne
    unfold parse
    rw [ha]
    simp only [ht, ne_eq, hne, not_false_eq_true, if_true]

/-- C9, witness: "1 + 2 3;" scans to six tokens; `assignment` returns at the token `3`, which
is not `EOF`, and `parse` throws the trailing-tokens error. -/
theorem c9_whole_stream_witness :
    lexer ratArith "1 + 2 3;" = .ok [.NUMERO (ratArith.parseFloat "1"), .SUMA,
      .NUMERO (ratArith.parseFloat "2"), .NUMERO (ratArith.parseFloat "3"), .PUNTO_Y_COMA,
      .EOF] ∧
    parse [.NUMERO (ratArith.parseFloat "1"), .SUMA,
      .NUMERO (ratArith.parseFloat "2"), .NUMERO (ratArith.parseFloat "3"), .PUNTO_Y_COMA,
      .EOF] = .error .trailingTokens 3 ∧
    evaluateLine ratArith "1 + 2 3;" Variables.empty
      = .throws .trailingTokens Variables.empty :=
  ⟨rfl,
   (c9_whole_stream ratArith "1 + 2 3;" _ rfl).2 _ 3 (.NUMERO (ratArith.parseFloat "3")) rfl rfl
     (by decide),
   rfl⟩

/-- C10: if the parser accepts the input as a bare expression (the tree it returns is no
assignment) and evaluating the input on a store returns r, then the store afterwards is the
store before, and evaluating the same input again on it, any number of times, returns r each
time and leaves the store as it is. -/
theorem c10_idempotent {α : Type} (A : Arith α) (input : String) (vars vars' : Variables α)
    (tokens : List (Token α)) (ast : ASTNode α) (pos : Nat) (r : α)
    (hlex : lexer A input = .ok tokens) (hparse : parse tokens = .ok ast pos)
    (hbare : ast.isAsignacion = false)
    (heval : evaluateLine A input vars = .returns r vars') :
    vars' = vars ∧ ∀ n, evaluateAgain A input n vars' = .returns r vars' := by
  have hfree := parse_bare_no_asignacion tokens ast pos hparse hbare
  have heval' : eval A ast vars = .returns r vars' := by
    unfold evaluateLine at heval
    rw [hlex] at heval
    simp only [hparse] at heval
    exact heval
  have hsame : vars' = vars := (eval_pure A ast vars hfree).1 _ _ heval'
  subst hsame
  refine ⟨rfl, ?_⟩
  intro n
  induction n with
  | zero => exact heval
  | succ n ih =>
    simp only [evaluateAgain, heval]
    exact ih

/-- C10, witness: "2 + 3 * 4" evaluated six times in a row on the empty store returns the same
value the sixth time and leaves the store empty. -/
theorem c10_idempotent_witness :
    evaluateAgain ratArith "2 + 3 * 4" 5 Variables.empty
      = .returns (ratArith.add (ratArith.parseFloat "2")
          (ratArith.mul (ratArith.parseFloat "3") (ratArith.parseFloat "4"))) Variables.empty :=
  (c10_idempotent ratArith "2 + 3 * 4" Variables.empty Variables.empty _ _ 5 _ rfl rfl rfl
    rfl).2 5

/-- C11: if the pipeline on an input throws, at whatever stage (lexer, parser, undefined
variable, division by zero), the store afterwards is the store before: a failing assignment
stores nothing. -/
theorem c11_failure_keeps_store {α : Type} (A : Arith α) (input : String)
    (vars vars' : Variables α) (e : Error)
    (h : evaluateLine A input vars = .throws e vars') : vars' = vars := by
  unfold evaluateLine at h
  cases hl : lexer A input with
  | outOfFuel => rw [hl] at h; cases h
  | error e1 => rw [hl] at h; cases h; rfl
  | ok tokens =>
    rw [hl] at h
    simp only [] at h
    cases hp : parse tokens with
    | outOfFuel => rw [hp] at h; cases h
    | error e1 q => rw [hp] at h; cases h; rfl
    | ok ast q =>
      rw [hp] at h
      simp only [] at h
      rcases parse_shape tokens ast q hp with hfree | ⟨name, izq, hast, hfree⟩
      · exact (eval_pure A ast vars hfree).2 _ _ h
      · subst hast
        simp only [eval] at h
        cases hi : eval A izq vars with
        | returns v vars1 => rw [hi] at h; cases h
        | throws e1 vars1 =>
          rw [hi] at h
          cases h
          exact (eval_pure A izq vars hfree).2 _ _ hi
        | nonNumber p => rw [hi] at h; cases h
        | outOfFuel => rw [hi] at h; cases h

/-- C11, witness: on a store that binds y to 3, the assignment "x = 1 / 0;" throws the
division by zero and leaves the store as it was: x is not bound. -/
theorem c11_failure_keeps_store_witness :
    evaluateLine ratArith "x = 1 / 0;" (Variables.empty.set "y" 3)
      = .throws .divisionByZero (Variables.empty.set "y" 3) ∧
    (Variables.empty.set "y" 3 : Variables ℚ) = Variables.empty.set "y" 3 := by
  have h : evaluateLine ratArith "x = 1 / 0;" (Variables.empty.set "y" 3)
      = .throws .divisionByZero (Variables.empty.set "y" 3) := by
    simp [evaluateLine, lexer, scan, lexerLoop, isSpace, isIdentStart, isDigit, isIdentChar,
      isNumChar, singleCharTokens, parse, assignment, parseFuel, expr, term, factor, exprLoop,
      termLoop, eat, Token.tipo, eval, ratArith, decimalValue, digitsValue]
  exact ⟨h, c11_failure_keeps_store ratArith "x = 1 / 0;" _ _ _ h⟩

/-- C12: when `lexer` returns, the token list is not empty, its last token is `EOF`, and no
token before the last one has kind `EOF`. -/
theorem c12_one_EOF_last {α : Type} (A : Arith α) (input : String) (tokens : List (Token α))
    (h : lexer A input = .ok tokens) :
    tokens ≠ [] ∧ tokens.getLast? = some .EOF ∧
    ∀ i t, tokens[i]? = some t → t.tipo = .EOF → i + 1 = tokens.length := by
  obtain ⟨body, hbody, _⟩ := lexer_shape A input tokens h
  refine ⟨?_, ?_, ?_⟩
  · rw [hbody]; simp
  · rw [hbody]; simp
  · intro i t hi ht
    exact lexer_EOF_last A input tokens h i t hi ht

/-- C12, witness: the tokens of "x = 5;" are five, the last one `EOF` and no other. -/
theorem c12_one_EOF_last_witness :
    lexer ratArith "x = 5;" = .ok [.IDENTIFICADOR "x", .IGUAL,
      .NUMERO (ratArith.parseFloat "5"), .PUNTO_Y_COMA, .EOF] ∧
    ([.IDENTIFICADOR "x", .IGUAL, .NUMERO (ratArith.parseFloat "5"), .PUNTO_Y_COMA,
      .EOF] : List (Token ℚ)).getLast? = some .EOF :=
  ⟨rfl, (c12_one_EOF_last ratArith "x = 5;" _ rfl).2.1⟩

/-- C13, counterexample: the rule `expr` parses the sequence `5` completely, and the token
`+` after it is no `;`; yet on `x = 5 + 1 ;` the parser does not throw for a missing `;`: the
`+` continues the expression and `parse` returns the assignment of `5 + 1`. -/
theorem c13_operator_continues_counterexample :
    ExprParsesAll [Token.NUMERO (5 : ℚ)] (.NUMERO 5) ∧
    (Token.SUMA : Token ℚ).tipo ≠ .PUNTO_Y_COMA ∧
    parse [Token.IDENTIFICADOR "x", .IGUAL, .NUMERO (5 : ℚ), .SUMA, .NUMERO 1,
        .PUNTO_Y_COMA, .EOF]
      = .ok (.ASIGNACION "x" (.operador .SUMA (.NUMERO 5) (.NUMERO 1))) 6 ∧
    parse [Token.IDENTIFICADOR "x", .IGUAL, .NUMERO (5 : ℚ), .SUMA, .NUMERO 1,
        .PUNTO_Y_COMA, .EOF]
      ≠ .error (.unexpectedToken .PUNTO_Y_COMA .SUMA) 3 := by
  refine ⟨⟨5, rfl⟩, by decide, rfl, ?_⟩
  intro h
  have h2 : parse [Token.IDENTIFICADOR "x", .IGUAL, .NUMERO (5 : ℚ), .SUMA, .NUMERO 1,
      .PUNTO_Y_COMA, .EOF]
      = .ok (.ASIGNACION "x" (.operador .SUMA (.NUMERO 5) (.NUMERO 1))) 6 := rfl
  rw [h2] at h
  cases h

/-- C13, amended: for every identifier name, every token sequence E that `expr` parses
completely and every token t that is neither `;` nor one of the four binary operators,
`parse` on `name = E t ...` throws the unexpected-token error that expected `;` and found the
kind of t, at the position of t; this includes t = `EOF`. -/
theorem c13_semicolon_mandatory {α : Type} (name : String) (tokensE : List (Token α))
    (e : ASTNode α) (t : Token α) (rest : List (Token α)) (hexpr : ExprParsesAll tokensE e)
    (hsemi : t.tipo ≠ .PUNTO_Y_COMA) (hop : t.tipo.isBinaryOperator = false) :
    parse (.IDENTIFICADOR name :: .IGUAL :: (tokensE ++ t :: rest))
      = .error (.unexpectedToken .PUNTO_Y_COMA t.tipo) (tokensE.length + 2) := by
  have h2 := assignment_after_expr name tokensE e t rest hexpr hop
  have ht : (Token.IDENTIFICADOR name :: .IGUAL :: (tokensE ++ t :: rest))[
      tokensE.length + 2]? = some t := by
    simp only [List.getElem?_cons_succ]
    rw [List.getElem?_append_right (Nat.le_refl _)]
    simp
  have h0 : ((Token.IDENTIFICADOR name :: .IGUAL :: (tokensE ++ t :: rest))[0]? :
      Option (Token α)) = some (.IDENTIFICADOR name) := rfl
  have hIG : (Token.IDENTIFICADOR name :: .IGUAL :: (tokensE ++ t :: rest))[0 + 1]?
      = some Token.IGUAL := by simp
  have heat : eat (Token.IDENTIFICADOR name :: .IGUAL :: (tokensE ++ t :: rest))
      (tokensE.length + 2) .PUNTO_Y_COMA = .error (.unexpectedToken .PUNTO_Y_COMA t.tipo) := by
    simp [eat, ht, hsemi]
  unfold parse assignment
  simp only [h0, eat_of_tipo .IDENTIFICADOR h0 rfl, eat_of_tipo .IGUAL hIG rfl, h2, heat]

/-- C13, witness of the amended claim: the tokens of "x = 5", where `EOF` follows the
expression, are rejected with `;` expected and `EOF` found. -/
theorem c13_semicolon_mandatory_witness :
    parse [Token.IDENTIFICADOR "x", .IGUAL, .NUMERO (5 : ℚ), .EOF]
      = .error (.unexpectedToken .PUNTO_Y_COMA .EOF) 3 :=
  c13_semicolon_mandatory "x" [Token.NUMERO (5 : ℚ)] (.NUMERO 5) .EOF [] ⟨5, rfl⟩
    (by decide) rfl

/-- C14, failing input: on the tokens of the input "x", an identifier followed by `EOF`, the
rule `expr` returns the variable reference, yet `parse` throws at the second token because
`assignment` requires `=` there; the same happens for "x + 1" and, by
`parse_leading_identifier`, for every statement that starts with an identifier not followed by
`=`. -/
theorem c14_leading_identifier_rejected :
    expr (parseFuel [Token.IDENTIFICADOR "x", (.EOF : Token ℚ)])
        [Token.IDENTIFICADOR "x", (.EOF : Token ℚ)] 0 = .ok (.VARIABLE "x") 1 ∧
    parse [Token.IDENTIFICADOR "x", (.EOF : Token ℚ)]
      = .error (.unexpectedToken .IGUAL .EOF) 1 ∧
    evaluateLine ratArith "x" (Variables.empty.set "x" 5)
      = .throws (.unexpectedToken .IGUAL .EOF) (Variables.empty.set "x" 5) ∧
    evaluateLine ratArith "x + 1" (Variables.empty.set "x" 5)
      = .throws (.unexpectedToken .IGUAL .SUMA) (Variables.empty.set "x" 5) :=
  ⟨rfl, rfl, rfl, rfl⟩

/-- C15: a binary node evaluates its left operand, then its right operand on the store the
left one left, then combines. If the left operand throws, the node throws that error whatever
the right operand is; if the left returns and the right throws, the node throws the error of
the right; if both return, `+`, `-` and `*` return the sum, difference and product, and `/`
throws the division by zero exactly when the right value `=== 0` and returns the quotient
otherwise. -/
theorem c15_binary_evaluation {α : Type} (A : Arith α) (izq der : ASTNode α)
    (vars : Variables α) :
    (∀ tipo e vars1, eval A izq vars = .throws e vars1 →
      eval A (.operador tipo izq der) vars = .throws e vars1) ∧
    (∀ tipo a vars1 e vars2, eval A izq vars = .returns a vars1 →
      eval A der vars1 = .throws e vars2 →
      eval A (.operador tipo izq der) vars = .throws e vars2) ∧
    (∀ a vars1 b vars2, eval A izq vars = .returns a vars1 →
      eval A der vars1 = .returns b vars2 →
      eval A (.operador .SUMA izq der) vars = .returns (A.add a b) vars2 ∧
      eval A (.operador .RESTA izq der) vars = .returns (A.sub a b) vars2 ∧
      eval A (.operador .MULTIPLICACION izq der) vars = .returns (A.mul a b) vars2 ∧
      (A.isZero b = true →
        eval A (.operador .DIVISION izq der) vars = .throws .divisionByZero vars2) ∧
      (A.isZero b = false →
        eval A (.operador .DIVISION izq der) vars = .returns (A.div a b) vars2)) := by
  refine ⟨?_, ?_, ?_⟩
  · intro tipo e vars1 h
    simp only [eval, h]
  · intro tipo a vars1 e vars2 h1 h2
    simp only [eval, h1, h2]
  · intro a vars1 b vars2 h1 h2
    refine ⟨?_, ?_, ?_, ?_, ?_⟩
    · simp only [eval, h1, h2]
    · simp only [eval, h1, h2]
    · simp only [eval, h1, h2]
    · intro hz; simp only [eval, h1, h2, hz, if_true]
    · intro hz; simp [eval, h1, h2, hz]

/-- C15, witness: with y unbound and the right operand dividing by zero, the node reports the
undefined variable of the left operand; with the left operand a number, it reports the
division by zero of the right operand. -/
theorem c15_binary_evaluation_witness :
    eval ratArith (.operador .SUMA (.VARIABLE "y")
        (.operador .DIVISION (.NUMERO 1) (.NUMERO 0))) Variables.empty
      = .throws (.undefinedVariable "y") Variables.empty ∧
    eval ratArith (.operador .SUMA (.NUMERO 2)
        (.operador .DIVISION (.NUMERO 1) (.NUMERO 0))) Variables.empty
      = .throws .divisionByZero Variables.empty := by
  have hdiv : eval ratArith (.operador .DIVISION (.NUMERO 1) (.NUMERO 0)) Variables.empty
      = .throws .divisionByZero Variables.empty := by
    simp [eval, ratArith]
  constructor
  · exact (c15_binary_evaluation ratArith (.VARIABLE "y")
      (.operador .DIVISION (.NUMERO 1) (.NUMERO 0)) Variables.empty).1 .SUMA
      (.undefinedVariable "y") Variables.empty (by simp [eval, Variables.empty, objectPrototypeNames])
  · exact (c15_binary_evaluation ratArith (.NUMERO 2)
      (.operador .DIVISION (.NUMERO 1) (.NUMERO 0)) Variables.empty).2.1 .SUMA 2
      Variables.empty .divisionByZero Variables.empty rfl hdiv

/-- C16, failing input: on a fresh `Evaluator`, where nothing was assigned, reading the
identifiers `constructor` and `toString` throws no undefined-variable error: `name in
this.variables` holds through `Object.prototype` and `eval` returns the inherited member. The
inputs "(constructor)" and "(toString)" reach that read through the lexer and the parser. -/
theorem c16_inherited_name_not_undefined :
    isIdentifier "constructor" = true ∧ isIdentifier "toString" = true ∧
    eval ratArith (.VARIABLE "constructor") Variables.empty
      = .nonNumber (.inherited "constructor") ∧
    evaluateLine ratArith "(constructor)" Variables.empty
      = .nonNumber (.inherited "constructor") ∧
    evaluateLine ratArith "(toString)" Variables.empty
      = .nonNumber (.inherited "toString") := by
  refine ⟨by decide, by decide, ?_, ?_, ?_⟩
  · exact (eval_variable ratArith "constructor" Variables.empty).2.1 rfl (by decide)
  · simp [evaluateLine, lexer, scan, lexerLoop, isSpace, isIdentStart, isDigit, isIdentChar,
      isNumChar, singleCharTokens, parse, assignment, parseFuel, expr, term, factor, exprLoop,
      termLoop, eat, Token.tipo, eval, Variables.empty, objectPrototypeNames]
  · simp [evaluateLine, lexer, scan, lexerLoop, isSpace, isIdentStart, isDigit, isIdentChar,
      isNumChar, singleCharTokens, parse, assignment, parseFuel, expr, term, factor, exprLoop,
      termLoop, eat, Token.tipo, eval, Variables.empty, objectPrototypeNames]

/-- C17, counterexample: the texts ".5" and ".." are made only of digits and `.`, the first
with one `.`; `lexer` returns no number token for ".5" and reports no malformed number for
"..": in both it throws for the unrecognized character `.`, because a number must start with
a digit. -/
theorem c17_leading_dot_counterexample :
    isNumericRun ".5" = true ∧ (".5" : String).data.count '.' ≤ 1 ∧
    lexer ratArith ".5" = .error (.unrecognizedCharacter (.char '.')) ∧
    isNumericRun ".." = true ∧ 2 ≤ ("..": String).data.count '.' ∧
    lexer ratArith ".." = .error (.unrecognizedCharacter (.char '.')) ∧
    lexer ratArith ".." ≠ .error .malformedNumber := by
  refine ⟨by decide, by decide, rfl, by decide, by decide, rfl, by decide⟩

/-- C17, amended: for every non-empty text s made only of the characters `0` to `9` and `.`
that starts with a digit, `lexer` returns exactly the number token of `parseFloat(s)` and
`EOF` when s holds at most one `.`, and throws the malformed-number error when s holds two or
more; when s starts with `.`, `lexer` throws for the unrecognized character `.`. The number
of the token is what `parseFloat` returns for s, whatever the host's `parseFloat` is. -/
theorem c17_numeric_run {α : Type} (A : Arith α) (s : String) (hs : isNumericRun s = true) :
    ((∀ c ∈ s.data.head?, isDigit c = true) → s.data.count '.' ≤ 1 →
      lexer A s = .ok [.NUMERO (A.parseFloat s), .EOF]) ∧
    ((∀ c ∈ s.data.head?, isDigit c = true) → 2 ≤ s.data.count '.' →
      lexer A s = .error .malformedNumber) ∧
    ((∀ c ∈ s.data.head?, c = '.') →
      lexer A s = .error (.unrecognizedCharacter (.char '.'))) := by
  unfold isNumericRun at hs
  cases hdata : s.data with
  | nil => simp [hdata] at hs
  | cons c rest =>
    rw [hdata] at hs
    simp only [List.isEmpty_cons, Bool.not_false, Bool.true_and, List.all_cons,
      Bool.and_eq_true] at hs
    refine ⟨?_, ?_, ?_⟩
    · intro hd hcount
      have hnum : isNumericLiteral s = true := by
        simp [isNumericLiteral, hdata, hd c (by simp), hs.2, hcount]
      unfold lexer
      rw [scan_number_end A s [] hnum]
      rfl
    · intro hd hcount
      unfold lexer
      rw [hdata]
      have := scan_malformed A c rest [] [] (hd c (by simp)) hs.2 hcount (by simp)
      rw [List.append_nil] at this
      rw [this]
    · intro hdot
      have hc : c = '.' := hdot c (by simp)
      subst hc
      unfold lexer
      rw [hdata, scan_dot]

/-- C17, witness of the amended claim: "3.14" is scanned to one number token, "1.2.3" is
malformed, and ".5" is rejected at its `.`. -/
theorem c17_numeric_run_witness :
    lexer ratArith "3.14" = .ok [.NUMERO (ratArith.parseFloat "3.14"), .EOF] ∧
    lexer ratArith "1.2.3" = .error .malformedNumber ∧
    lexer ratArith ".5" = .error (.unrecognizedCharacter (.char '.')) :=
  ⟨(c17_numeric_run ratArith "3.14" (by decide)).1 (by decide) (by decide),
   (c17_numeric_run ratArith "1.2.3" (by decide)).2.1 (by decide) (by decide),
   (c17_numeric_run ratArith ".5" (by decide)).2.2 (by decide)⟩

/-- C18: operators of one precedence level group left to right. For a number f0 and a chain
`op1 f1 ... opn fn` of operators and numbers whose operators are all `+` or `-`, or all `*` or
`/`, `parse` on `f0 op1 f1 ... opn fn EOF` returns the left-nested tree, in which each
operator has the tree built so far as its left operand and the next number as its right
operand, and stops at the `EOF`. -/
theorem c18_left_nested {α : Type} (valor0 : α) (pairs : List (Token α × α))
    (hops : (∀ p ∈ pairs, p.1.tipo = .SUMA ∨ p.1.tipo = .RESTA) ∨
      (∀ p ∈ pairs, p.1.tipo = .MULTIPLICACION ∨ p.1.tipo = .DIVISION)) :
    parse (.NUMERO valor0 :: (chainTokens pairs ++ [.EOF]))
      = .ok (leftNested (.NUMERO valor0) pairs) (1 + 2 * pairs.length) := by
  have hat : HasAt (.NUMERO valor0 :: (chainTokens pairs ++ [.EOF])) 1
      (chainTokens pairs ++ [.EOF]) := by
    have := hasAt_middle [Token.NUMERO valor0] (chainTokens pairs ++ [.EOF]) []
    simpa using this
  have h0 : (Token.NUMERO valor0 :: (chainTokens pairs ++ [.EOF]))[0]?
      = some (.NUMERO valor0) := by simp
  have hend : (Token.NUMERO valor0 :: (chainTokens pairs ++ [.EOF]))[1 + 2 * pairs.length]?
      = some .EOF := by
    have := (hasAt_append hat).2 0 (by simp)
    rw [length_chainTokens] at this
    simpa using this
  refine parse_of_exprParses _ (.NUMERO valor0) _ _ h0 (by simp [Token.tipo]) ?_ hend
  rcases hops with hops | hops
  · have hnext : ∃ t, (Token.NUMERO valor0 :: (chainTokens pairs ++ [.EOF]))[0 + 1]? = some t ∧
        ¬ (t.tipo = .MULTIPLICACION ∨ t.tipo = .DIVISION) := by
      cases pairs with
      | nil => exact ⟨.EOF, rfl, by simp [Token.tipo]⟩
      | cons p rest =>
        obtain ⟨op, v⟩ := p
        refine ⟨op, rfl, ?_⟩
        rcases hops (op, v) (by simp) with h | h <;> rw [h] <;> simp
    obtain ⟨t, ht, htop⟩ := hnext
    have hterm := termParses_of (factorParses_numero h0) (termLoopParses_stop ht htop)
    have hloop := exprLoopParses_chain _ pairs (.NUMERO valor0) 1 hops hat
    exact exprParses_of hterm hloop
  · have hloop := termLoopParses_chain _ pairs (.NUMERO valor0) 1 hops hat
    have hterm := termParses_of (factorParses_numero h0) hloop
    exact exprParses_of hterm (exprLoopParses_stop hend (by simp [Token.tipo]))

/-- C18, witness: `a - b - c` parses to `(a - b) - c`, and `8 / 4 * 2` to `(8 / 4) * 2`. -/
theorem c18_left_nested_witness :
    parse [Token.NUMERO (3 : ℚ), .RESTA, .NUMERO 2, .RESTA, .NUMERO 1, .EOF]
      = .ok (.operador .RESTA (.operador .RESTA (.NUMERO 3) (.NUMERO 2)) (.NUMERO 1)) 5 ∧
    parse [Token.NUMERO (8 : ℚ), .DIVISION, .NUMERO 4, .MULTIPLICACION, .NUMERO 2, .EOF]
      = .ok (.operador .MULTIPLICACION (.operador .DIVISION (.NUMERO 8) (.NUMERO 4))
          (.NUMERO 2)) 5 :=
  ⟨c18_left_nested (3 : ℚ) [(.RESTA, 2), (.RESTA, 1)] (Or.inl (by simp [Token.tipo])),
   c18_left_nested (8 : ℚ) [(.DIVISION, 4), (.MULTIPLICACION, 2)]
     (Or.inr (by simp [Token.tipo]))⟩

/-- C19: print/parse round trip. With `print` mapping a leaf to its token and a binary node to
its left operand, its operator and its right operand, the left operand between parentheses
iff it is a binary node of lower precedence than the operator and the right operand iff it is
a binary node of lower or equal precedence, for every name and every expression tree T,
`parse` on `name = print(T) ; EOF` succeeds and returns the assignment of T to name. -/
theorem c19_print_parse_round_trip {α : Type} (name : String) (tree : ASTNode α)
    (hexp : isExpressionTree tree = true) :
    parse (.IDENTIFICADOR name :: .IGUAL :: (print tree ++ [.PUNTO_Y_COMA, .EOF]))
      = .ok (.ASIGNACION name tree) ((print tree).length + 3) := by
  have hat : HasAt (.IDENTIFICADOR name :: .IGUAL :: (print tree ++ [.PUNTO_Y_COMA, .EOF])) 2
      (print tree) := by
    have := hasAt_middle [Token.IDENTIFICADOR name, .IGUAL] (print tree)
      [.PUNTO_Y_COMA, .EOF]
    simpa using this
  have hsemi : (Token.IDENTIFICADOR name :: .IGUAL :: (print tree ++ [.PUNTO_Y_COMA, .EOF]))[
      2 + (print tree).length]? = some .PUNTO_Y_COMA := by
    rw [Nat.add_comm]
    simp only [List.getElem?_cons_succ]
    rw [List.getElem?_append_right (Nat.le_refl _)]
    simp
  have hend : (Token.IDENTIFICADOR name :: .IGUAL :: (print tree ++ [.PUNTO_Y_COMA, .EOF]))[
      2 + (print tree).length + 1]? = some .EOF := by
    have h3 : 2 + (print tree).length + 1 = ((print tree).length + 1) + 1 + 1 := by omega
    rw [h3]
    simp only [List.getElem?_cons_succ]
    rw [List.getElem?_append_right (Nat.le_succ _)]
    simp
  have he := (print_parses _ tree hexp).2 2 hat .PUNTO_Y_COMA hsemi (by simp [Token.tipo])
    tree _ (exprLoopParses_stop hsemi (by simp [Token.tipo]))
  have := parse_assignment_of_exprParses _ name tree _ (by simp) (by simp) he hsemi hend
  rw [this]
  congr 1
  omega

/-- C19, witness: the tree `1 - (2 - 3 * x)` prints with parentheses around its right operand
only, and the statement `y = 1 - ( 2 - 3 * x ) ;` parses back to it. -/
theorem c19_print_parse_round_trip_witness :
    isExpressionTree (ASTNode.operador .RESTA (.NUMERO (1 : ℚ))
        (.operador .RESTA (.NUMERO 2) (.operador .MULTIPLICACION (.NUMERO 3) (.VARIABLE "x"))))
      = true ∧
    parse [Token.IDENTIFICADOR "y", .IGUAL, .NUMERO (1 : ℚ), .RESTA, .PAREN_ABRE, .NUMERO 2,
        .RESTA, .NUMERO 3, .MULTIPLICACION, .IDENTIFICADOR "x", .PAREN_CIERRA, .PUNTO_Y_COMA,
        .EOF]
      = .ok (.ASIGNACION "y" (.operador .RESTA (.NUMERO 1)
          (.operador .RESTA (.NUMERO 2)
            (.operador .MULTIPLICACION (.NUMERO 3) (.VARIABLE "x"))))) 12 :=
  ⟨rfl, c19_print_parse_round_trip "y" (.operador .RESTA (.NUMERO (1 : ℚ))
    (.operador .RESTA (.NUMERO 2) (.operador .MULTIPLICACION (.NUMERO 3) (.VARIABLE "x")))) rfl⟩

/-- C20, failing input: on a fresh `Evaluator` the input "1 + (valueOf)" passes the lexer and
the parser, and `eval` reads `valueOf`, a name never assigned, as the member that the variables
object inherits from `Object.prototype`: the result is neither a number nor one of the seven
errors. -/
theorem c20_result_outside_taxonomy :
    evaluateLine ratArith "1 + (valueOf)" Variables.empty
      = .nonNumber (.inherited "valueOf") ∧
    ¬ (evaluateLine ratArith "1 + (valueOf)" Variables.empty).NumberOrListedError ∧
    (∀ name, (Variables.empty : Variables ℚ) name = none) := by
  have h : evaluateLine ratArith "1 + (valueOf)" Variables.empty
      = .nonNumber (.inherited "valueOf") := by
    simp [evaluateLine, lexer, scan, lexerLoop, isSpace, isIdentStart, isDigit, isIdentChar,
      isNumChar, singleCharTokens, parse, assignment, parseFuel, expr, term, factor, exprLoop,
      termLoop, eat, Token.tipo, eval, Variables.empty, objectPrototypeNames]
  refine ⟨h, ?_, fun _ => rfl⟩
  rw [h]
  exact fun hf => hf

end AnalizadorLL
